import Mathlib

/-!
# Taller: dispatcher, state cell, permit pools and pipeline

A shallow embedding of the workshop simulation (`tipos.go`, `estados.go`,
`metricas.go`, `simulacion.go`) together with the properties proved about it.

Go `int` values are `Int`.  A channel is its capacity, its buffered values in
arrival order and its closed flag.  A `select` is resolved by an explicit
choice argument: the functions return `none` when the chosen case cannot fire
(the goroutine is still blocked there).
-/

namespace Taller

/-! ## tipos.go -/

/-- The type `Category` of tipos.go is a Go `int`. -/
abbrev Category := Int

def CatA : Category := 0
def CatB : Category := 1
def CatC : Category := 2

structure Car where
  ID : Int
  Category : Category
deriving DecidableEq

/-- The zero value `Car{}`. -/
def Car.zero : Car := { ID := 0, Category := 0 }

structure Config where
  NumA : Int
  NumB : Int
  NumC : Int
  NumPlazas : Int
  NumMecanicos : Int
  MaxWaitP1 : Int
  MaxWaitP2 : Int
  MaxWaitP3 : Int
  MaxWaitP4 : Int
  NumCleaners : Int
  NumReviewers : Int
  MaxJitterSeconds : Int
  Seed : Int

def DefaultConfig : Config :=
  { NumA := 10, NumB := 10, NumC := 10,
    NumPlazas := 6, NumMecanicos := 3,
    MaxWaitP1 := 20, MaxWaitP2 := 20, MaxWaitP3 := 20, MaxWaitP4 := 20,
    NumCleaners := 1, NumReviewers := 1,
    MaxJitterSeconds := 2, Seed := 0 }

/-! ## estados.go -/

structure StateManager where
  current : Int
deriving DecidableEq

/-- The cell as `NewStateManager` creates it: `current: 0`. -/
def NewStateManager : StateManager := { current := 0 }

/-- What the `select` of `StateManager.loop` can receive: a value on `setCh`,
a request on `getCh`, or the closing of `done`. -/
inductive Msg where
  | set (v : Int)
  | get
  | done
deriving DecidableEq

/-- One turn of the `for { select { ... } }` of `StateManager.loop`: the cell
afterwards, the value answered on a `get`, and whether the loop returned. -/
def loopStep (sm : StateManager) : Msg → StateManager × Option Int × Bool
  | .set v => if v = 7 ∨ v = 8 then (sm, none, false) else ({ sm with current := v }, none, false)
  | .get => (sm, some sm.current, false)
  | .done => (sm, none, true)

/-- The loop of `StateManager.loop` over the messages it receives, in order:
the final cell and the answers it gave. -/
def loop : StateManager → List Msg → StateManager × List Int
  | sm, [] => (sm, [])
  | sm, m :: ms =>
    match loopStep sm m with
    | (sm1, r, true) => (sm1, r.toList)
    | (sm1, r, false) => ((loop sm1 ms).1, r.toList ++ (loop sm1 ms).2)

/-- The messages of a sequence of `SetState` calls: `setCh` is a FIFO channel,
so the loop receives the posted values in posting order. -/
def posted (vs : List Int) : List Msg := vs.map Msg.set

def PreferredOrder (state : Int) : List Category :=
  if state = 4 then [CatA, CatB, CatC]
  else if state = 5 then [CatB, CatA, CatC]
  else if state = 6 then [CatC, CatA, CatB]
  else [CatA, CatB, CatC]

def AllowedOnly (state : Int) (cat : Category) : Bool :=
  if state = 1 then cat == CatA
  else if state = 2 then cat == CatB
  else if state = 3 then cat == CatC
  else true

def IsInactive (state : Int) : Bool := state == 0
def IsClosed (state : Int) : Bool := state == 9

/-- The wording of the specification for a priority mode: the named class
first, then the remaining classes in the base order A, B, C. -/
def promotedFirst (c : Category) : List Category :=
  c :: [CatA, CatB, CatC].filter (fun x => x != c)

/-- The preferred order as the specification words it. -/
def specPreferredOrder (state : Int) : List Category :=
  if state = 4 then promotedFirst CatA
  else if state = 5 then promotedFirst CatB
  else if state = 6 then promotedFirst CatC
  else [CatA, CatB, CatC]

/-! ## Channels -/

/-- A Go channel of capacity `cap`: the values it holds, oldest first, and
whether it has been closed. -/
structure Chan (α : Type) where
  cap : Nat
  buf : List α
  closed : Bool
deriving DecidableEq

/-- The channel `make(chan T, n)` returns. -/
def Chan.make {α : Type} (n : Nat) : Chan α := { cap := n, buf := [], closed := false }

/-- A receive `v, ok := <-ch` that can proceed: the oldest value with
`ok = true`, or the zero value with `ok = false` on a closed, drained channel.
`none` when the receive would block. -/
def Chan.recv {α : Type} (ch : Chan α) (zero : α) : Option ((α × Bool) × Chan α) :=
  match ch.buf with
  | v :: rest => some ((v, true), { ch with buf := rest })
  | [] => if ch.closed then some ((zero, false), ch) else none

/-- A send `ch <- v` that can proceed, on a channel nobody is known to be
receiving from: the value joins the buffer when there is room.  `none` when
the send would block. -/
def Chan.send {α : Type} (ch : Chan α) (v : α) : Option (Chan α) :=
  if ch.buf.length < ch.cap then some { ch with buf := ch.buf ++ [v] } else none

/-- A send `ch <- v` on a queue that a dispatcher receives from.  With a
buffer it is `Chan.send`.  On an unbuffered queue the send completes by
handing the value to the receiver: the channel then holds that one value
until the receiver takes it, so that an unbuffered queue holds at most the
value of one sender.  A stage that sends stays inside its send until the
receiver has taken the value (`StagePC.handing`, `GenPC.handing`). -/
def Chan.sendTo {α : Type} (ch : Chan α) (v : α) : Option (Chan α) :=
  if ch.buf.length < max ch.cap 1 then some { ch with buf := ch.buf ++ [v] } else none

/-! ## simulacion.go: the dispatcher -/

structure stageInput where
  A : Chan Car
  B : Chan Car
  C : Chan Car
deriving DecidableEq

/-- A channel variable of `pickNext` and `reflectSelect`: it holds one of the
three channels of the stage (`in.A`, `in.B`, `in.C`). -/
inductive ChanRef where
  | inA
  | inB
  | inC
deriving DecidableEq

def stageInput.get (inp : stageInput) : ChanRef → Chan Car
  | .inA => inp.A
  | .inB => inp.B
  | .inC => inp.C

def stageInput.set (inp : stageInput) : ChanRef → Chan Car → stageInput
  | .inA, ch => { inp with A := ch }
  | .inB, ch => { inp with B := ch }
  | .inC, ch => { inp with C := ch }

/-- The channel the `switch cat` of `pickNext` reads for a class; no case
matches a value that is not one of the three classes. -/
def chanOf (cat : Category) : Option ChanRef :=
  if cat = CatA then some .inA
  else if cat = CatB then some .inB
  else if cat = CatC then some .inC
  else none

/-- The `select { case c, ok := <-ch: if !ok { break }; return c, true; default: }`
of the non-blocking pass: the car and the input afterwards when a car was
received, `none` when the pass goes on to the next class. -/
def tryRecv (r : ChanRef) (inp : stageInput) : Option (Car × stageInput) :=
  match (inp.get r).recv Car.zero with
  | some ((c, true), ch) => some (c, inp.set r ch)
  | _ => none

/-- The first `for _, cat := range order` of `pickNext`. -/
def nonBlockingPass (state : Int) : List Category → stageInput → Option (Car × stageInput)
  | [], _ => none
  | cat :: rest, inp =>
    if !AllowedOnly state cat then nonBlockingPass state rest inp
    else
      match chanOf cat with
      | none => nonBlockingPass state rest inp
      | some r =>
        match tryRecv r inp with
        | some res => some res
        | none => nonBlockingPass state rest inp

structure reflectCase where
  cat : Category
  recv : ChanRef
deriving DecidableEq

def rcRecv (ch : ChanRef) (cat : Category) : reflectCase := { cat := cat, recv := ch }

/-- The second `for _, cat := range order` of `pickNext`, which builds `cases`. -/
def pickCases (state : Int) : List Category → List reflectCase
  | [] => []
  | cat :: rest =>
    if !AllowedOnly state cat then pickCases state rest
    else
      match chanOf cat with
      | none => pickCases state rest
      | some r => rcRecv r cat :: pickCases state rest

/-- The case of a `select` that fires. -/
inductive SelChoice where
  | recvA
  | recvB
  | recvC
  | tick
  | done
deriving DecidableEq

/-- What one iteration of the loop of `pickNext` observes of its environment:
the value `sm.GetState(ctx)` returned, whether `tick.C` holds a tick, whether
`ctx.Done()` is closed when a `select` runs, whether `ctx.Err() != nil` after
`reflectSelect`, and which ready case the `select` takes. -/
structure Env where
  state : Int
  tick : Bool
  ctxDone : Bool
  ctxErr : Bool
  choice : SelChoice
deriving DecidableEq

/-- The variables `a, b, c, haveA, haveB, haveC` of `reflectSelect`; a `nil`
channel is `none`. -/
structure SelVars where
  a : Option ChanRef
  b : Option ChanRef
  c : Option ChanRef
  haveA : Bool
  haveB : Bool
  haveC : Bool
deriving DecidableEq

/-- The body of `for _, cs := range cases` in `reflectSelect`. -/
def assignCase (v : SelVars) (cs : reflectCase) : SelVars :=
  if cs.cat = CatA then { v with a := some cs.recv, haveA := true }
  else if cs.cat = CatB then { v with b := some cs.recv, haveB := true }
  else if cs.cat = CatC then { v with c := some cs.recv, haveC := true }
  else v

/-- A receive `v, ok := <-ch` in a blocking `select`, on a channel variable
that may be `nil`: a `nil` channel is never ready. -/
def recvFrom (r : Option ChanRef) (inp : stageInput) : Option ((Car × Bool) × stageInput) :=
  match r with
  | none => none
  | some r =>
    match (inp.get r).recv Car.zero with
    | none => none
    | some (vo, ch) => some (vo, inp.set r ch)

/-- The result `(int, Car, bool)` of `reflectSelect` and the input afterwards;
`none` when the chosen case is not ready. -/
def reflectSelect (e : Env) (cases : List reflectCase) (inp : stageInput) :
    Option ((Int × Car × Bool) × stageInput) :=
  let v := cases.foldl assignCase ⟨none, none, none, false, false, false⟩
  match e.choice with
  | .recvA =>
    match recvFrom v.a inp with
    | none => none
    | some ((c, ok), inp1) =>
      if v.haveA then some ((0, c, ok), inp1) else some ((-1, Car.zero, false), inp1)
  | .recvB =>
    match recvFrom v.b inp with
    | none => none
    | some ((c, ok), inp1) =>
      if v.haveB then some ((1, c, ok), inp1) else some ((-1, Car.zero, false), inp1)
  | .recvC =>
    match recvFrom v.c inp with
    | none => none
    | some ((c, ok), inp1) =>
      if v.haveC then some ((2, c, ok), inp1) else some ((-1, Car.zero, false), inp1)
  | .tick => if e.tick then some ((-1, Car.zero, false), inp) else none
  | .done => if e.ctxDone then some ((-1, Car.zero, false), inp) else none

/-- How one iteration of the `for` of `pickNext` ends: `return c, ok` or
`continue`. -/
inductive Iter where
  | ret (c : Car) (ok : Bool)
  | again
deriving DecidableEq

/-- The `select { case <-tick.C: continue; case <-ctx.Done(): return Car{}, false }`
of `pickNext`. -/
def idleSelect (e : Env) : Option Iter :=
  match e.choice with
  | .tick => if e.tick then some .again else none
  | .done => if e.ctxDone then some (.ret Car.zero false) else none
  | _ => none

/-- How the first part of an iteration of `pickNext` ends: the iteration is
over, or it goes on to `reflectSelect` with the `cases` it built. -/
inductive Poll where
  | done (it : Iter)
  | wait (cases : List reflectCase)
deriving DecidableEq

/-- The first part of an iteration of the `for` of `pickNext`, up to the call
of `reflectSelect`: the snapshot of the state, the idle wait, the non-blocking
pass and the building of `cases`.  `none` when it is blocked in a `select`
whose chosen case is not ready. -/
def pickNextPoll (e : Env) (inp : stageInput) : Option (Poll × stageInput) :=
  if IsInactive e.state || IsClosed e.state then
    match idleSelect e with
    | none => none
    | some it => some (.done it, inp)
  else
    let order := PreferredOrder e.state
    match nonBlockingPass e.state order inp with
    | some (c, inp1) => some (.done (.ret c true), inp1)
    | none =>
      let cases := pickCases e.state order
      if cases.length = 0 then
        match idleSelect e with
        | none => none
        | some it => some (.done it, inp)
      else some (.wait cases, inp)

/-- The second part of an iteration of `pickNext`: the call of `reflectSelect`
on the queues as they are by then, and what follows it. -/
def pickNextWait (e : Env) (cases : List reflectCase) (inp : stageInput) :
    Option (Iter × stageInput) :=
  match reflectSelect e cases inp with
  | none => none
  | some ((_, val, ok), inp1) =>
    if !ok then
      if e.ctxErr then some (.ret Car.zero false, inp1) else some (.again, inp1)
    else some (.ret val true, inp1)

/-- One iteration of the `for` of `pickNext` with nobody else touching the
queues meanwhile. -/
def pickNextIter (e : Env) (inp : stageInput) : Option (Iter × stageInput) :=
  match pickNextPoll e inp with
  | none => none
  | some (.done it, inp1) => some (it, inp1)
  | some (.wait cases, inp1) => pickNextWait e cases inp1

/-- The function `pickNext` over the observations of its successive
iterations, with nobody else touching the queues meanwhile: what it returns
and the queues afterwards; `none` while it has not returned. -/
def pickNext : List Env → stageInput → Option ((Car × Bool) × stageInput)
  | [], _ => none
  | e :: es, inp =>
    match pickNextIter e inp with
    | none => none
    | some (.ret c ok, inp1) => some ((c, ok), inp1)
    | some (.again, inp1) => pickNext es inp1

/-- The channel `sendByCategory` sends a car to: the `default` of its
`switch` is the queue of A. -/
def dstOf (car : Car) : ChanRef :=
  if car.Category = CatA then .inA
  else if car.Category = CatB then .inB
  else if car.Category = CatC then .inC
  else .inA

/-- The function `sendByCategory`, with the case its `select` takes (`true`:
the send, `false`: `ctx.Done()`); `none` when that case is not ready. -/
def sendByCategory (ctxDone : Bool) (takeSend : Bool) (car : Car) (out : stageInput) :
    Option stageInput :=
  if takeSend then
    match (out.get (dstOf car)).sendTo car with
    | none => none
    | some ch => some (out.set (dstOf car) ch)
  else if ctxDone then some out else none

/-- Whether the queue of a class holds a car. -/
def ready (inp : stageInput) (cat : Category) : Bool :=
  match chanOf cat with
  | none => false
  | some r => !(inp.get r).buf.isEmpty

/-- The class an "only" state names. -/
def onlyRef (state : Int) : Option ChanRef :=
  if state = 1 then some .inA
  else if state = 2 then some .inB
  else if state = 3 then some .inC
  else none

/-- A dispatcher on the queues of its stage: the queues, and the `cases` it
is waiting on when it is inside `reflectSelect`. -/
structure Disp where
  inp : stageInput
  waiting : Option (List reflectCase)
deriving DecidableEq

/-- An event at the queues of one stage: the upstream `sendByCategory`
completes its send of a car, or the dispatcher runs the next part of its
iteration. -/
inductive QEvent where
  | send (car : Car)
  | step (e : Env)
deriving DecidableEq

/-- One part of an iteration of the dispatcher, with the car `pickNext`
returned if it returned one. -/
def dispStep (e : Env) (d : Disp) : Option (Disp × Option Car) :=
  match d.waiting with
  | none =>
    match pickNextPoll e d.inp with
    | none => none
    | some (.wait cases, inp1) => some ({ inp := inp1, waiting := some cases }, none)
    | some (.done (.ret c true), inp1) => some ({ inp := inp1, waiting := none }, some c)
    | some (.done _, inp1) => some ({ inp := inp1, waiting := none }, none)
  | some cases =>
    match pickNextWait e cases d.inp with
    | none => none
    | some (.ret c true, inp1) => some ({ inp := inp1, waiting := none }, some c)
    | some (_, inp1) => some ({ inp := inp1, waiting := none }, none)

/-- The queues of a stage under a sequence of events: the dispatcher
afterwards, the cars `pickNext` returned (oldest first) and the cars that
were sent (oldest first). -/
def queueRun : List QEvent → Disp → Option (Disp × List Car × List Car)
  | [], d => some (d, [], [])
  | .send car :: evs, d =>
    match sendByCategory false true car d.inp with
    | none => none
    | some inp1 =>
      match queueRun evs { d with inp := inp1 } with
      | none => none
      | some (d2, got, sent) => some (d2, got, car :: sent)
  | .step e :: evs, d =>
    match dispStep e d with
    | none => none
    | some (d1, oc) =>
      match queueRun evs d1 with
      | none => none
      | some (d2, got, sent) => some (d2, oc.toList ++ got, sent)

/-- Every queued car sits in the queue `sendByCategory` sends it to. -/
def WellRouted (inp : stageInput) : Prop :=
  ∀ r : ChanRef, ∀ c ∈ (inp.get r).buf, dstOf c = r

/-- The input `inp1` is `inp` with the oldest car `c` of queue `r` taken out:
the rest of that queue keeps its order and the other two queues are the same. -/
def Popped (inp : stageInput) (r : ChanRef) (c : Car) (inp1 : stageInput) : Prop :=
  (inp.get r).buf = c :: (inp1.get r).buf ∧
  inp1 = inp.set r { inp.get r with buf := (inp1.get r).buf } ∧
  ∀ r2 : ChanRef, r2 ≠ r → inp1.get r2 = inp.get r2

/-- The variables of `reflectSelect` name only admitted queues, each under
its own class. -/
def VarsOK (S : Int) (v : SelVars) : Prop :=
  (∀ r, v.a = some r → r = ChanRef.inA ∧ AllowedOnly S CatA = true ∧ v.haveA = true) ∧
  (∀ r, v.b = some r → r = ChanRef.inB ∧ AllowedOnly S CatB = true ∧ v.haveB = true) ∧
  (∀ r, v.c = some r → r = ChanRef.inC ∧ AllowedOnly S CatC = true ∧ v.haveC = true)

/-! ## simulacion.go: the permit pool -/

structure chanSem where
  ch : Chan Unit
deriving DecidableEq

/-- The `for i := 0; i < n; i++ { s.ch <- struct{}{} }` of `newChanSem`. -/
def fillSem : Nat → Chan Unit → Option (Chan Unit)
  | 0, ch => some ch
  | k + 1, ch =>
    match ch.send () with
    | none => none
    | some ch1 => fillSem k ch1

/-- The function `newChanSem`; `none` when it does not return (`make` panics
on a negative size). -/
def newChanSem (n : Int) : Option chanSem :=
  if n < 0 then none
  else
    match fillSem n.toNat (Chan.make n.toNat) with
    | none => none
    | some ch => some { ch := ch }

/-- The method `Acquire`, with whether `ctx.Done()` is closed and the case its
`select` takes (`true`: the receive); `none` when that case is not ready. -/
def chanSem.Acquire (ctxDone : Bool) (takeRecv : Bool) (s : chanSem) : Option (Bool × chanSem) :=
  if takeRecv then
    match s.ch.recv () with
    | none => none
    | some (_, ch1) => some (true, { ch := ch1 })
  else if ctxDone then some (false, s) else none

/-- The method `Release`; `none` when the send blocks. -/
def chanSem.Release (s : chanSem) : Option chanSem :=
  match s.ch.send () with
  | none => none
  | some ch1 => some { ch := ch1 }

/-- The permits in the pool. -/
def chanSem.available (s : chanSem) : Int := s.ch.buf.length

/-- The permits currently acquired from a pool created with `n` permits. -/
def chanSem.acquired (n : Int) (s : chanSem) : Int := n - s.available

/-- A completed operation on a pool: an `Acquire` (with the case its `select`
took), a `Release`, or a `Release` handing its permit directly to an `Acquire`
that was waiting on the empty pool, which completes both. -/
inductive SemOp where
  | acquire (ctxDone : Bool) (takeRecv : Bool)
  | release
  | handoff
deriving DecidableEq

/-- What a completed operation returned: the `bool` of an `Acquire`, nothing
for a `Release`; a direct hand-over completes a `Release` and an `Acquire`
that returns `true`. -/
inductive SemRes where
  | acquired (got : Bool)
  | released
  | handedOver
deriving DecidableEq

/-- One operation on the pool: the pool afterwards and what the operation
returned; `none` when the operation does not complete. -/
def semStep (s : chanSem) : SemOp → Option (chanSem × SemRes)
  | .acquire cd tr =>
    match s.Acquire cd tr with
    | none => none
    | some (got, s1) => some (s1, .acquired got)
  | .release =>
    match s.Release with
    | none => none
    | some s1 => some (s1, .released)
  | .handoff => if s.ch.buf.isEmpty then some (s, .handedOver) else none

/-- A sequence of operations, each completing before the next: the pool
afterwards and what the operations returned, in order. -/
def semRun : List SemOp → chanSem → Option (chanSem × List SemRes)
  | [], s => some (s, [])
  | op :: ops, s =>
    match semStep s op with
    | none => none
    | some (s1, r) =>
      match semRun ops s1 with
      | none => none
      | some (s2, rs) => some (s2, r :: rs)

/-- The `Acquire`s that returned `true`. -/
def acquires : List SemRes → Int
  | [] => 0
  | .acquired true :: rs => acquires rs + 1
  | .handedOver :: rs => acquires rs + 1
  | _ :: rs => acquires rs

/-- The `Release`s that completed. -/
def releases : List SemRes → Int
  | [] => 0
  | .released :: rs => releases rs + 1
  | .handedOver :: rs => releases rs + 1
  | _ :: rs => releases rs

/-- A pool of two permits, as `newChanSem 2` returns it. -/
def exSem : chanSem := { ch := { cap := 2, buf := [(), ()], closed := false } }

/-- The pool keeps its capacity, stays open and never holds more permits than
its capacity. -/
def SemInv (n : Int) (s : chanSem) : Prop :=
  (s.ch.cap : Int) = n ∧ s.ch.closed = false ∧ s.ch.buf.length ≤ s.ch.cap

/-! ## metricas.go -/

/-- The run metrics; the Go map `ByCategory` is its list of entries. -/
structure Metrics where
  TotalProcessed : Int
  ByCategory : List (Category × Int)
deriving DecidableEq

def NewMetrics : Metrics :=
  { TotalProcessed := 0, ByCategory := [(CatA, 0), (CatB, 0), (CatC, 0)] }

/-- The read `m[k]` of a Go map: the zero value for an absent key. -/
def mapGet : List (Category × Int) → Category → Int
  | [], _ => 0
  | (k1, v) :: rest, k => if k1 = k then v else mapGet rest k

/-- The update `m[k]++` of a Go map. -/
def mapInc : List (Category × Int) → Category → List (Category × Int)
  | [], k => [(k, 1)]
  | (k1, v) :: rest, k => if k1 = k then (k1, v + 1) :: rest else (k1, v) :: mapInc rest k

/-! ## simulacion.go: the pipeline -/

inductive StageId where
  | s1
  | s2
  | s3
  | s4
deriving DecidableEq

/-- Where the goroutine of a stage is: in `pickNext` (before an iteration, or
inside `reflectSelect`), in its handler with the car it was given (at the
closed check of stage 1, at `Acquire`, in `sleepWithJitter`, at the `Release`
of its own pool, at `plazas.Release()` of stage 4, at the send that forwards
the car, or blocked inside that send on an unbuffered queue until the
dispatcher of the next stage has taken the car), or returned from
`dispatchStage`. -/
inductive StagePC where
  | picking
  | waiting (cases : List reflectCase)
  | checking (car : Car)
  | acquiring (car : Car)
  | serving (car : Car)
  | releasing (car : Car)
  | releasingPlaza (car : Car)
  | sending (car : Car)
  | handing (car : Car)
  | exited
deriving DecidableEq

/-- What a step of a stage observes besides the shared state: the case its
`select` takes, whether a tick is available, and whether `GetState` returned
through `ctx.Done()` (it then returns 0). -/
structure Obs where
  choice : SelChoice
  tick : Bool
  getDone : Bool
deriving DecidableEq

/-- The observation of `pickNext` for a step: `GetState` returns the current
value of the cell, or 0 through `ctx.Done()`. -/
def obsEnv (cur : Int) (cancelled : Bool) (o : Obs) : Env :=
  { state := if o.getDone then 0 else cur, tick := o.tick, ctxDone := cancelled,
    ctxErr := cancelled, choice := o.choice }

/-- What the goroutine of one stage touches: its queues, its place in the
code, the pool it acquires from (plazas for stage 1, mecanicos, cleaners,
reviewers for stages 2 to 4), the pool of plazas that stage 4 releases, the
queues of the next stage and the channel `done`. -/
structure StageView where
  inp : stageInput
  pc : StagePC
  sem : chanSem
  plazas : chanSem
  out : stageInput
  done : Chan Car
deriving DecidableEq

/-- A Go `int` sum, wrapped to 64 bits. -/
def wrapInt64 (x : Int) : Int := (x + 2 ^ 63) % 2 ^ 64 - 2 ^ 63

/-- The function `sleepWithJitter`: it returns when its timer fires or on
cancellation, and reads the state of nothing else.  With
`maxJitterSeconds > 0` it first calls `rng.Int63n(maxJitterSeconds+1)`, which
panics when its argument is not positive, as the wrapped sum is for
`maxJitterSeconds = 2^63 - 1`: `none` is that panic. -/
def sleepWithJitter (maxJitterSeconds : Int) : Option Unit :=
  if maxJitterSeconds > 0 then
    if wrapInt64 (maxJitterSeconds + 1) ≤ 0 then none else some ()
  else some ()

/-- Where the handler of stage `k` starts. -/
def handlerEntry (k : StageId) (car : Car) : StagePC :=
  if k = .s1 then .checking car else .acquiring car

/-- The body of the `for` of `dispatchStage` after `pickNext` returned or went
round its loop. -/
def afterPick (k : StageId) : Iter → StagePC
  | .ret c true => handlerEntry k c
  | .ret _ false => .exited
  | .again => .picking

/-- One step of the goroutine of stage `k`, with `jit` the
`cfg.MaxJitterSeconds` it passes to `sleepWithJitter`; `none` when it is
blocked, has returned, has panicked, or the observation is impossible
(`GetState` only returns through `ctx.Done()` once the context is cancelled).
A send of `sendByCategory` on an unbuffered queue leaves the car in the queue
for the receiver and the goroutine at `handing`, still inside the send: it
goes on once the dispatcher of the next stage has taken the car, or takes
the car back on cancellation. -/
def stageStep (k : StageId) (jit : Int) (cur : Int) (cancelled : Bool) (o : Obs)
    (v : StageView) : Option StageView :=
  if o.getDone && !cancelled then none
  else
    match v.pc with
    | .picking =>
      match pickNextPoll (obsEnv cur cancelled o) v.inp with
      | none => none
      | some (.done it, inp1) => some { v with inp := inp1, pc := afterPick k it }
      | some (.wait cases, inp1) => some { v with inp := inp1, pc := .waiting cases }
    | .waiting cases =>
      match pickNextWait (obsEnv cur cancelled o) cases v.inp with
      | none => none
      | some (it, inp1) => some { v with inp := inp1, pc := afterPick k it }
    | .checking car =>
      if IsClosed (obsEnv cur cancelled o).state then some { v with pc := .exited }
      else some { v with pc := .acquiring car }
    | .acquiring car =>
      match v.sem.Acquire cancelled (o.choice != .done) with
      | none => none
      | some (true, sem1) => some { v with sem := sem1, pc := .serving car }
      | some (false, sem1) => some { v with sem := sem1, pc := .exited }
    | .serving car =>
      match sleepWithJitter jit with
      | none => none
      | some _ => some { v with pc := if k = .s1 then .sending car else .releasing car }
    | .releasing car =>
      match v.sem.Release with
      | none => none
      | some sem1 =>
        some { v with sem := sem1, pc := if k = .s4 then .releasingPlaza car else .sending car }
    | .releasingPlaza car =>
      match v.plazas.Release with
      | none => none
      | some p1 => some { v with plazas := p1, pc := .sending car }
    | .sending car =>
      if k = .s4 then
        match v.done.send car with
        | none => none
        | some d1 => some { v with done := d1, pc := .picking }
      else
        match sendByCategory cancelled (o.choice != .done) car v.out with
        | none => none
        | some out1 =>
          some { v with out := out1,
                        pc := if (o.choice != .done) && (v.out.get (dstOf car)).cap == 0
                              then .handing car else .picking }
    | .handing car =>
      if k = .s4 then none
      else if (v.out.get (dstOf car)).buf.isEmpty then some { v with pc := .picking }
      else if cancelled && (o.choice == .done)
          && decide ((v.out.get (dstOf car)).buf = [car]) then
        some { v with out := v.out.set (dstOf car) { v.out.get (dstOf car) with buf := [] },
                      pc := .picking }
      else none
    | .exited => none

/-- Where a goroutine of `generateCars` is: at the head of its `for`, in the
`select` on `time.After` with the car it made, in the `select` that sends the
car, before the send (`sending`) or with the car offered on an unbuffered
queue and not yet taken (`handing`), or returned. -/
inductive GenPC where
  | top
  | sleeping (car : Car)
  | sending (car : Car)
  | handing (car : Car)
  | exited
deriving DecidableEq

structure Gen where
  i : Int
  pc : GenPC
deriving DecidableEq

/-- One step of `generateCars(ctx, rng, cat, n, out)`, on the generator, the
counter `globalCarID` and the channel `out`; `viaDone` is the case
`<-ctx.Done()` of its `select`s. -/
def genStep (cat : Category) (n : Int) (cancelled viaDone : Bool) (g : Gen) (id : Int)
    (out : Chan Car) : Option (Gen × Int × Chan Car) :=
  match g.pc with
  | .top =>
    if g.i < n then some ({ g with pc := .sleeping { ID := id + 1, Category := cat } }, id + 1, out)
    else some ({ g with pc := .exited }, id, out)
  | .sleeping car =>
    if viaDone then
      if cancelled then some ({ g with pc := .exited }, id, out) else none
    else some ({ g with pc := .sending car }, id, out)
  | .sending car =>
    if viaDone then
      if cancelled then some ({ g with pc := .exited }, id, out) else none
    else
      match out.sendTo car with
      | none => none
      | some out1 =>
        if out.cap == 0 then some ({ g with pc := .handing car }, id, out1)
        else some ({ i := g.i + 1, pc := .top }, id, out1)
  | .handing car =>
    if out.buf.isEmpty then some ({ i := g.i + 1, pc := .top }, id, out)
    else if cancelled && viaDone && decide (out.buf = [car]) then
      some ({ g with pc := .exited }, id, { out with buf := [] })
    else none
  | .exited => none

/-- The variable `total` of `RunSimulation`. -/
def totalOf (cfg : Config) : Int := wrapInt64 (cfg.NumA + cfg.NumB + cfg.NumC)

/-- The call `make(chan T, n)`; `none` when it panics on a negative size. -/
def makeChan {α : Type} (n : Int) : Option (Chan α) :=
  if n < 0 then none else some (Chan.make n.toNat)

/-- The three queues of one phase. -/
def makeQueues (n : Int) : Option stageInput :=
  match makeChan n with
  | none => none
  | some ch => some ⟨ch, ch, ch⟩

/-- The state of a run of `RunSimulation`: the context, the state cell, the
counter of car ids, the three generators, the queues of the four phases, the
four stage goroutines, the four pools, the channel `done`, and the loop of
`RunSimulation` that collects the metrics (`returned` once it has returned
them). -/
structure Sys where
  cancelled : Bool
  sm : StateManager
  globalCarID : Int
  genA : Gen
  genB : Gen
  genC : Gen
  p1 : stageInput
  p2 : stageInput
  p3 : stageInput
  p4 : stageInput
  st1 : StagePC
  st2 : StagePC
  st3 : StagePC
  st4 : StagePC
  plazas : chanSem
  mecanicos : chanSem
  cleaners : chanSem
  reviewers : chanSem
  done : Chan Car
  i : Int
  metrics : Metrics
  returned : Bool
deriving DecidableEq

/-- The state `RunSimulation` sets up before its collecting loop, for a state
cell `sm` and a counter of ids `id`; `none` when a `make` panics. -/
def simInit (cfg : Config) (sm : StateManager) (id : Int) : Option Sys :=
  match newChanSem cfg.NumPlazas, newChanSem cfg.NumMecanicos, newChanSem cfg.NumCleaners,
      newChanSem cfg.NumReviewers with
  | some plazas, some mecanicos, some cleaners, some reviewers =>
    match makeQueues cfg.MaxWaitP1, makeQueues cfg.MaxWaitP2, makeQueues cfg.MaxWaitP3,
        makeQueues cfg.MaxWaitP4, makeChan (totalOf cfg) with
    | some p1, some p2, some p3, some p4, some done =>
      some { cancelled := false, sm := sm, globalCarID := id,
             genA := ⟨0, .top⟩, genB := ⟨0, .top⟩, genC := ⟨0, .top⟩,
             p1 := p1, p2 := p2, p3 := p3, p4 := p4,
             st1 := .picking, st2 := .picking, st3 := .picking, st4 := .picking,
             plazas := plazas, mecanicos := mecanicos, cleaners := cleaners,
             reviewers := reviewers, done := done, i := 0, metrics := NewMetrics,
             returned := false }
    | _, _, _, _, _ => none
  | _, _, _, _ => none

/-- What stage `k` touches in the state of the run. -/
def getView (k : StageId) (s : Sys) : StageView :=
  match k with
  | .s1 => ⟨s.p1, s.st1, s.plazas, s.plazas, s.p2, s.done⟩
  | .s2 => ⟨s.p2, s.st2, s.mecanicos, s.plazas, s.p3, s.done⟩
  | .s3 => ⟨s.p3, s.st3, s.cleaners, s.plazas, s.p4, s.done⟩
  | .s4 => ⟨s.p4, s.st4, s.reviewers, s.plazas, s.p4, s.done⟩

/-- The state of the run after stage `k` has changed what it touches.  Stage 1
uses only `sem` (the plazas) and its output queues; stages 2 and 3 their pool
and output queues; stage 4 its pool, the plazas and `done`. -/
def putView (k : StageId) (v : StageView) (s : Sys) : Sys :=
  match k with
  | .s1 => { s with p1 := v.inp, st1 := v.pc, plazas := v.sem, p2 := v.out }
  | .s2 => { s with p2 := v.inp, st2 := v.pc, mecanicos := v.sem, p3 := v.out }
  | .s3 => { s with p3 := v.inp, st3 := v.pc, cleaners := v.sem, p4 := v.out }
  | .s4 => { s with p4 := v.inp, st4 := v.pc, reviewers := v.sem, plazas := v.plazas,
                    done := v.done }

/-- An event of a run: the context is cancelled, the state cell takes a posted
value, a generator, a stage or the collecting loop of `RunSimulation` takes
its next step. -/
inductive Ev where
  | cancel
  | setState (v : Int)
  | gen (g : ChanRef) (viaDone : Bool)
  | stage (k : StageId) (o : Obs)
  | collect (viaDone : Bool)
deriving DecidableEq

/-- One step of the collecting loop at the end of `RunSimulation`. -/
def collectStep (cfg : Config) (viaDone : Bool) (s : Sys) : Option Sys :=
  if s.returned then none
  else if s.i < totalOf cfg then
    if viaDone then
      if s.cancelled then some { s with returned := true } else none
    else
      match s.done.recv Car.zero with
      | none => none
      | some ((car, _), d1) =>
        some { s with done := d1, i := s.i + 1,
                      metrics := { TotalProcessed := s.metrics.TotalProcessed + 1,
                                   ByCategory := mapInc s.metrics.ByCategory car.Category } }
  else some { s with returned := true }

/-- One event of a run. -/
def simStep (cfg : Config) (s : Sys) : Ev → Option Sys
  | .cancel => some { s with cancelled := true }
  | .setState v => some { s with sm := (loopStep s.sm (.set v)).1 }
  | .gen .inA viaDone =>
    match genStep CatA cfg.NumA s.cancelled viaDone s.genA s.globalCarID s.p1.A with
    | none => none
    | some (g, id, out) => some { s with genA := g, globalCarID := id, p1 := { s.p1 with A := out } }
  | .gen .inB viaDone =>
    match genStep CatB cfg.NumB s.cancelled viaDone s.genB s.globalCarID s.p1.B with
    | none => none
    | some (g, id, out) => some { s with genB := g, globalCarID := id, p1 := { s.p1 with B := out } }
  | .gen .inC viaDone =>
    match genStep CatC cfg.NumC s.cancelled viaDone s.genC s.globalCarID s.p1.C with
    | none => none
    | some (g, id, out) => some { s with genC := g, globalCarID := id, p1 := { s.p1 with C := out } }
  | .stage k o =>
    match stageStep k cfg.MaxJitterSeconds s.sm.current s.cancelled o (getView k s) with
    | none => none
    | some v => some (putView k v s)
  | .collect viaDone => collectStep cfg viaDone s

/-- A run: the events in order. -/
def simRun (cfg : Config) : List Ev → Sys → Option Sys
  | [], s => some s
  | ev :: evs, s =>
    match simStep cfg s ev with
    | none => none
    | some s1 => simRun cfg evs s1

/-- The function `RunSimulation` along a run: the metrics it returns and
whether the context is cancelled by the end of `evs` (the metrics do not
change after the return, so `evs` may stop at the return); `none` when it
has not returned. -/
def RunSimulation (cfg : Config) (sm : StateManager) (id : Int) (evs : List Ev) :
    Option (Metrics × Bool) :=
  match simInit cfg sm id with
  | none => none
  | some s0 =>
    match simRun cfg evs s0 with
    | none => none
    | some s => if s.returned then some (s.metrics, s.cancelled) else none

/-- An observation that takes the main case of every `select`. -/
def obsGo : Obs := { choice := .tick, tick := false, getDone := false }

/-- The events that take one car of the class of `g` from its generator
through the four stages to the metrics, when nothing is in its way. -/
def carEvents (g : ChanRef) : List Ev :=
  [.gen g false, .gen g false, .gen g false] ++
  List.replicate 5 (.stage .s1 obsGo) ++ List.replicate 5 (.stage .s2 obsGo) ++
  List.replicate 5 (.stage .s3 obsGo) ++ List.replicate 6 (.stage .s4 obsGo) ++
  [.collect false]

/-- The events by which the three generators and the collecting loop return
once every car is through. -/
def endEvents : List Ev :=
  [.gen .inA false, .gen .inB false, .gen .inC false, .collect false]

/-! ### Counting the cars of a run -/

/-- The car a stage goroutine holds. -/
def StagePC.held : StagePC → Option Car
  | .checking c => some c
  | .acquiring c => some c
  | .serving c => some c
  | .releasing c => some c
  | .releasingPlaza c => some c
  | .sending c => some c
  | _ => none

/-- The car a generator holds. -/
def GenPC.held : GenPC → Option Car
  | .sleeping c => some c
  | .sending c => some c
  | _ => none

/-- The car a generator is in charge of: the car it holds, or the car it
offers on an unbuffered queue. -/
def GenPC.item : GenPC → Option Car
  | .handing c => some c
  | pc => pc.held

def cntO (p : Car → Bool) : Option Car → Nat
  | some c => if p c then 1 else 0
  | none => 0

def cntQ (p : Car → Bool) (q : stageInput) : Nat :=
  q.A.buf.countP p + q.B.buf.countP p + q.C.buf.countP p

/-- The cars satisfying `p` among those a stage can reach. -/
def cntView (p : Car → Bool) (v : StageView) : Nat :=
  cntQ p v.inp + cntO p v.pc.held + cntQ p v.out + v.done.buf.countP p

/-- The cars satisfying `p` that are somewhere in the run: held by a
generator or a stage, queued, or in `done`. -/
def cntSys (p : Car → Bool) (s : Sys) : Nat :=
  cntO p s.genA.pc.held + cntO p s.genB.pc.held + cntO p s.genC.pc.held +
  cntQ p s.p1 + cntQ p s.p2 + cntQ p s.p3 + cntQ p s.p4 +
  cntO p s.st1.held + cntO p s.st2.held + cntO p s.st3.held + cntO p s.st4.held +
  s.done.buf.countP p

def isCat (X : Category) (c : Car) : Bool := c.Category == X

/-- A car of none of the three classes. -/
def isOther (c : Car) : Bool :=
  !(c.Category == CatA || c.Category == CatB || c.Category == CatC)

/-- The cars a generator has made and not lost to a cancellation. -/
def Gen.made (g : Gen) : Int := g.i + (if g.pc.item.isSome then 1 else 0)

/-- A generator of `n` cars of class `cat` is inside its loop bounds and
holds a car of its class. -/
def GenOK (cat : Category) (n : Int) (g : Gen) : Prop :=
  0 ≤ g.i ∧ (g.i ≤ n ∨ g.i = 0) ∧ (g.pc.item.isSome = true → g.i < n) ∧
  ∀ c, g.pc.item = some c → c.Category = cat

/-- The invariant of a run: every car counted in the metrics or present in
the run was made by the generator of its class, only cars of the three
classes exist, `TotalProcessed` is the loop index and the sum of the three
class counts, and the collecting loop has returned only on cancellation or
at the end of its loop; `done` is never closed. -/
structure SimInv (cfg : Config) (s : Sys) : Prop where
  okA : GenOK CatA cfg.NumA s.genA
  okB : GenOK CatB cfg.NumB s.genB
  okC : GenOK CatC cfg.NumC s.genC
  cntA : mapGet s.metrics.ByCategory CatA + cntSys (isCat CatA) s ≤ s.genA.made
  cntB : mapGet s.metrics.ByCategory CatB + cntSys (isCat CatB) s ≤ s.genB.made
  cntC : mapGet s.metrics.ByCategory CatC + cntSys (isCat CatC) s ≤ s.genC.made
  others : cntSys isOther s = 0
  tot : s.metrics.TotalProcessed = s.i
  sum : s.i = mapGet s.metrics.ByCategory CatA + mapGet s.metrics.ByCategory CatB +
    mapGet s.metrics.ByCategory CatC
  ret : s.returned = true → s.cancelled = true ∨ ¬ (s.i < totalOf cfg)
  doneOpen : s.done.closed = false

/-- The state of a run after the events `evs`. -/
def simFrom (cfg : Config) (sm : StateManager) (id : Int) (evs : List Ev) : Option Sys :=
  match simInit cfg sm id with
  | none => none
  | some s0 => simRun cfg evs s0

/-- The scenario of the tests: 10 cars of each class, 6 plazas, 3 mecanicos,
no jitter. -/
def scenarioCfg : Config := { DefaultConfig with MaxJitterSeconds := 0 }

/-- A run of the scenario: the state is set to 4 (priority A) once, then the
cars go through one at a time, A, B, C in turn. -/
def scenarioRun : List Ev :=
  .setState 4 ::
    ((List.replicate 10 (carEvents .inA ++ carEvents .inB ++ carEvents .inC)).flatten
      ++ endEvents)

/-- A configuration with a negative count, as the flags `-a -1 -b 1 -c 0` give. -/
def negCfg : Config := { DefaultConfig with NumA := -1, NumB := 1, NumC := 0 }

/-- A configuration whose counts are non-negative and sum to `2 ^ 64`. -/
def bigCfg : Config :=
  { DefaultConfig with NumA := 2 ^ 63 - 1, NumB := 2 ^ 63 - 1, NumC := 2 }

/-- One car of class A. -/
def oneCfg : Config := { DefaultConfig with NumA := 1, NumB := 0, NumC := 0 }

/-- The car a handler is in charge of: the car it holds, or the car it has
left in an unbuffered queue and is waiting to see taken. -/
def StagePC.item : StagePC → Option Car
  | .handing c => some c
  | pc => pc.held

/-- How many steps a handler still has at most before it is back in
`pickNext`. -/
def handlerRank : StagePC → Nat
  | .checking _ => 7
  | .acquiring _ => 6
  | .serving _ => 5
  | .releasing _ => 4
  | .releasingPlaza _ => 3
  | .sending _ => 2
  | .handing _ => 1
  | _ => 0

/-- The send of stage `k` has put the car `c` where the next stage receives
it: the car is the newest of the queue `sendByCategory` chose among the
queues of the next stage, whose other queues are untouched, or, for stage 4,
the newest value of `done`. -/
def Put (k : StageId) (c : Car) (v : StageView) (out1 : stageInput) (done1 : Chan Car) : Prop :=
  if k = .s4 then done1.buf = v.done.buf ++ [c] ∧ out1 = v.out
  else
    (out1.get (dstOf c)).buf = (v.out.get (dstOf c)).buf ++ [c] ∧
    (∀ r2, r2 ≠ dstOf c → out1.get r2 = v.out.get r2) ∧ done1 = v.done

/-- What a step of the handler in charge of `c` does, from the view `v` to the
place `pc1` in the code, the output queues `out1` and `done1`.  At its send it
puts the car and is back in `pickNext`, or, on an unbuffered queue, stays in
the send.  Blocked in the send, it goes on only once the car has been taken
from the queue.  Anywhere else it keeps the car and leaves the queues. -/
def StepEffect (k : StageId) (c : Car) (v : StageView) (pc1 : StagePC) (out1 : stageInput)
    (done1 : Chan Car) : Prop :=
  match v.pc with
  | .sending _ =>
    Put k c v out1 done1 ∧
    pc1 = (if k ≠ .s4 ∧ (v.out.get (dstOf c)).cap = 0 then .handing c else .picking)
  | .handing _ =>
    (v.out.get (dstOf c)).buf = [] ∧ out1 = v.out ∧ done1 = v.done ∧ pc1 = .picking
  | _ => out1 = v.out ∧ done1 = v.done ∧ pc1.held = some c

/-- What a handler can be waiting for: a permit of an empty pool, room in a
full pool for its `Release`, room in the full queue it sends to, or the
dispatcher of the next stage to take the car it has left in an unbuffered
queue. -/
def Waits (k : StageId) (v : StageView) : Prop :=
  (∃ c, v.pc = .acquiring c ∧ v.sem.ch.buf = []) ∨
  (∃ c, v.pc = .releasing c ∧ ¬ v.sem.ch.buf.length < v.sem.ch.cap) ∨
  (∃ c, v.pc = .releasingPlaza c ∧ ¬ v.plazas.ch.buf.length < v.plazas.ch.cap) ∨
  (∃ c, v.pc = .sending c ∧ k = .s4 ∧ ¬ v.done.buf.length < v.done.cap) ∨
  (∃ c, v.pc = .sending c ∧ k ≠ .s4 ∧
    ¬ (v.out.get (dstOf c)).buf.length < max (v.out.get (dstOf c)).cap 1) ∨
  (∃ c, v.pc = .handing c ∧ (v.out.get (dstOf c)).buf ≠ [])

/-- Only stage 1 has the closed check in its handler, and stage 4, which sends
to `done`, is never blocked in `sendByCategory`. -/
def PcInv (s : Sys) : Prop :=
  (∀ c, s.st2 ≠ .checking c) ∧ (∀ c, s.st3 ≠ .checking c) ∧ (∀ c, s.st4 ≠ .checking c) ∧
  (∀ c, s.st4 ≠ .handing c)

/-- A configuration whose jitter bound is the largest `int64`. -/
def jitCfg : Config := { oneCfg with MaxJitterSeconds := 2 ^ 63 - 1 }

/-- One car of class A, unbuffered queues between stage 1 and stage 2. -/
def unbufCfg : Config := { oneCfg with MaxWaitP2 := 0 }

/-- The events up to the closed check of stage 1 on the only car: the state
is 4, generator A makes car 1 and queues it, stage 1 takes it from its queue. -/
def closedRunA : List Ev :=
  [.setState 4, .gen .inA false, .gen .inA false, .gen .inA false, .stage .s1 obsGo]

/-- The state cell then becomes 9 and the handler of stage 1 runs its check. -/
def closedRunB : List Ev := [.setState 9, .stage .s1 obsGo]

/-- The variable of `reflectSelect` for a queue, with its flag. -/
def SelVars.varOf (v : SelVars) : ChanRef → Option ChanRef × Bool
  | .inA => (v.a, v.haveA)
  | .inB => (v.b, v.haveB)
  | .inC => (v.c, v.haveC)

/-- The case of the `select` of `reflectSelect` that receives from a queue. -/
def choiceOf : ChanRef → SelChoice
  | .inA => .recvA
  | .inB => .recvB
  | .inC => .recvC

/-- One car of class A and one of class C. -/
def twoCfg : Config := { DefaultConfig with NumA := 1, NumB := 0, NumC := 1 }

/-- A step of a stage whose `select` takes the receive from the queue of A. -/
def obsRecvA : Obs := { choice := .recvA, tick := false, getDone := false }

/-- The state is 6 (priority C); stage 1 finds its queues empty and goes to
its blocking wait; car 1 of class A and car 2 of class C are then queued. -/
def waitRunA : List Ev :=
  [.setState 6, .stage .s1 obsGo,
   .gen .inA false, .gen .inA false, .gen .inA false,
   .gen .inC false, .gen .inC false, .gen .inC false]

/-- The `select` of the blocking wait of stage 1 then takes the receive from
the queue of A. -/
def waitRunB : List Ev := [.stage .s1 obsRecvA]

/-- In `reflectSelect` a channel variable is set together with its flag. -/
def VarsHave (v : SelVars) : Prop :=
  (v.a ≠ none → v.haveA = true) ∧ (v.b ≠ none → v.haveB = true) ∧
  (v.c ≠ none → v.haveC = true)

/-! ### Example inputs -/

def exA : Chan Car := { cap := 3, buf := [⟨1, CatA⟩, ⟨2, CatA⟩], closed := false }
def exB : Chan Car := { cap := 3, buf := [⟨3, CatB⟩], closed := false }
def exC : Chan Car := { cap := 3, buf := [⟨4, CatC⟩, ⟨5, CatC⟩], closed := false }
def exEmpty : Chan Car := { cap := 3, buf := [], closed := false }

/-- The three queues all hold cars. -/
def exFull : stageInput := ⟨exA, exB, exC⟩

/-- The queues of A and C hold cars, the queue of B is empty. -/
def exNoB : stageInput := ⟨exA, exEmpty, exC⟩

/-- An observation with a tick available, no cancellation. -/
def exEnv (S : Int) (ch : SelChoice) : Env :=
  { state := S, tick := true, ctxDone := false, ctxErr := false, choice := ch }

/-- No car queued, the dispatcher at the top of its loop. -/
def exDisp : Disp :=
  { inp := ⟨exEmpty, exEmpty, exEmpty⟩, waiting := none }

/-- Cars 1 (A), 2 (C), 3 (A) are sent, the dispatcher serves under states 6
and 1, car 4 (C) is sent, and the dispatcher serves under state 4. -/
def exRun : List QEvent :=
  [.send ⟨1, CatA⟩, .send ⟨2, CatC⟩, .send ⟨3, CatA⟩, .step (exEnv 6 .tick),
   .step (exEnv 1 .tick), .send ⟨4, CatC⟩, .step (exEnv 4 .tick)]

/-- A posted value that the cell keeps: anything but 7 and 8. -/
def effective : Msg → Bool
  | .set v => !(v == 7 || v == 8)
  | _ => true

/-! ## Theorems -/

theorem loopStep_current_ne (sm : StateManager) (m : Msg)
    (h : sm.current ≠ 7 ∧ sm.current ≠ 8) :
    (loopStep sm m).1.current ≠ 7 ∧ (loopStep sm m).1.current ≠ 8 := by
  cases m with
  | set v =>
    by_cases hv : v = 7 ∨ v = 8
    · simpa [loopStep, hv] using h
    · have hv2 := hv
      simp only [not_or] at hv2
      simpa [loopStep, hv] using hv2
  | get => exact h
  | done => exact h

theorem loopStep_reply (sm : StateManager) (m : Msg) (r : Int)
    (hr : (loopStep sm m).2.1 = some r) : r = sm.current := by
  cases m with
  | set v =>
    by_cases hv : v = 7 ∨ v = 8 <;> simp [loopStep, hv] at hr
  | get =>
    simp [loopStep] at hr
    exact hr.symm
  | done => simp [loopStep] at hr

theorem loop_invariant (ms : List Msg) :
    ∀ sm : StateManager, (sm.current ≠ 7 ∧ sm.current ≠ 8) →
      ((loop sm ms).1.current ≠ 7 ∧ (loop sm ms).1.current ≠ 8) ∧
      ∀ r ∈ (loop sm ms).2, r ≠ 7 ∧ r ≠ 8 := by
  induction ms with
  | nil =>
    intro sm h
    exact ⟨h, by simp [loop]⟩
  | cons m ms ih =>
    intro sm h
    have h1 := loopStep_current_ne sm m h
    have h2 := loopStep_reply sm m
    rcases hstep : loopStep sm m with ⟨sm1, r, b⟩
    rw [hstep] at h1 h2
    simp only at h1 h2
    have hr : ∀ x ∈ r.toList, x ≠ 7 ∧ x ≠ 8 := by
      intro x hx
      cases r with
      | none => simp at hx
      | some y =>
        simp at hx
        have := h2 y rfl
        subst hx
        rw [this]
        exact h
    cases b with
    | true =>
      simp only [loop, hstep]
      exact ⟨h1, hr⟩
    | false =>
      simp only [loop, hstep]
      refine ⟨(ih sm1 h1).1, ?_⟩
      intro x hx
      rcases List.mem_append.mp hx with hx | hx
      · exact hr x hx
      · exact (ih sm1 h1).2 x hx

theorem loopStep_not_effective (sm : StateManager) (m : Msg) (h : effective m = false) :
    loopStep sm m = (sm, none, false) := by
  cases m with
  | set v =>
    have hv : v = 7 ∨ v = 8 := by
      simp [effective] at h
      by_cases h7 : v = 7
      · exact Or.inl h7
      · exact Or.inr (h h7)
    simp [loopStep, hv]
  | get => simp [effective] at h
  | done => simp [effective] at h

theorem loop_filter (ms : List Msg) :
    ∀ sm : StateManager, loop sm ms = loop sm (ms.filter effective) := by
  induction ms with
  | nil => intro sm; rfl
  | cons m ms ih =>
    intro sm
    cases hm : effective m with
    | false =>
      rw [List.filter_cons_of_neg (by simp [hm])]
      rw [← ih sm]
      simp [loop, loopStep_not_effective sm m hm]
    | true =>
      rw [List.filter_cons_of_pos (by simp [hm])]
      rcases hstep : loopStep sm m with ⟨sm1, r, b⟩
      cases b with
      | true => simp [loop, hstep]
      | false => simp [loop, hstep, ← ih sm1]

/-! ### The dispatcher -/

theorem get_set_same (inp : stageInput) (r : ChanRef) (ch : Chan Car) :
    (inp.set r ch).get r = ch := by
  cases r <;> rfl

theorem get_set_other (inp : stageInput) (r r2 : ChanRef) (ch : Chan Car) (h : r2 ≠ r) :
    (inp.set r ch).get r2 = inp.get r2 := by
  cases r <;> cases r2 <;> first | rfl | exact absurd rfl h

theorem set_get_self (inp : stageInput) (r : ChanRef) : inp.set r (inp.get r) = inp := by
  cases r <;> rfl

theorem popped_of_buf (inp : stageInput) (r : ChanRef) (c : Car) (rest : List Car)
    (h : (inp.get r).buf = c :: rest) :
    Popped inp r c (inp.set r { inp.get r with buf := rest }) := by
  refine ⟨?_, ?_, ?_⟩
  · rw [get_set_same]
    exact h
  · rw [get_set_same]
  · intro r2 h2
    exact get_set_other inp r r2 _ h2

theorem recv_cons (ch : Chan Car) (c : Car) (rest : List Car) (h : ch.buf = c :: rest) :
    ch.recv Car.zero = some ((c, true), { ch with buf := rest }) := by
  simp [Chan.recv, h]

theorem recv_true (ch ch1 : Chan Car) (c : Car) (h : ch.recv Car.zero = some ((c, true), ch1)) :
    ∃ rest, ch.buf = c :: rest ∧ ch1 = { ch with buf := rest } := by
  unfold Chan.recv at h
  cases hb : ch.buf with
  | nil =>
    rw [hb] at h
    by_cases hc : ch.closed = true <;> simp [hc] at h
  | cons v rest =>
    rw [hb] at h
    simp at h
    exact ⟨rest, by rw [h.1], h.2.symm⟩

theorem recv_false (ch ch1 : Chan Car) (c : Car) (h : ch.recv Car.zero = some ((c, false), ch1)) :
    ch1 = ch := by
  unfold Chan.recv at h
  cases hb : ch.buf with
  | nil =>
    rw [hb] at h
    by_cases hc : ch.closed = true <;> simp [hc] at h
    exact h.2.symm
  | cons v rest =>
    rw [hb] at h
    simp at h

theorem tryRecv_ready (inp : stageInput) (r : ChanRef) (c : Car) (rest : List Car)
    (h : (inp.get r).buf = c :: rest) :
    tryRecv r inp = some (c, inp.set r { inp.get r with buf := rest }) := by
  simp [tryRecv, recv_cons _ c rest h]

theorem tryRecv_some (inp inp1 : stageInput) (r : ChanRef) (c : Car)
    (h : tryRecv r inp = some (c, inp1)) : Popped inp r c inp1 := by
  unfold tryRecv at h
  split at h
  · rename_i c1 ch hrecv
    simp only [Option.some.injEq, Prod.mk.injEq] at h
    obtain ⟨rest, hb, hch⟩ := recv_true _ _ _ hrecv
    rw [← h.1, ← h.2, hch]
    exact popped_of_buf inp r c1 rest hb
  · simp at h

theorem tryRecv_empty (inp : stageInput) (r : ChanRef) (h : (inp.get r).buf = []) :
    tryRecv r inp = none := by
  unfold tryRecv Chan.recv
  rw [h]
  by_cases hc : (inp.get r).closed = true <;> simp [hc]

theorem ready_iff (inp : stageInput) (cat : Category) :
    ready inp cat = true ↔ ∃ r c rest, chanOf cat = some r ∧ (inp.get r).buf = c :: rest := by
  unfold ready
  cases hc : chanOf cat with
  | none => simp
  | some r =>
    cases hb : (inp.get r).buf with
    | nil => simp [hb]
    | cons c rest => simp [hb]

/-- The non-blocking pass serves the first class of the order that is
admitted and has a car. -/
theorem nonBlockingPass_eq_find (S : Int) (inp : stageInput) (order : List Category) :
    nonBlockingPass S order inp =
      match order.find? (fun x => AllowedOnly S x && ready inp x) with
      | none => none
      | some cat =>
        match chanOf cat with
        | none => none
        | some r => tryRecv r inp := by
  induction order with
  | nil => rfl
  | cons cat rest ih =>
    unfold nonBlockingPass
    cases ha : AllowedOnly S cat with
    | false => simp [List.find?, ha, ih]
    | true =>
      cases hc : chanOf cat with
      | none =>
        have hr : ready inp cat = false := by simp [ready, hc]
        simp [List.find?, ha, hr, ih]
      | some r =>
        cases hb : (inp.get r).buf with
        | nil =>
          have hr : ready inp cat = false := by simp [ready, hc, hb]
          simp [List.find?, ha, hr, ih, tryRecv_empty inp r hb]
        | cons c tl =>
          have hr : ready inp cat = true := by simp [ready, hc, hb]
          simp [List.find?, ha, hr, hc, tryRecv_ready inp r c tl hb]

theorem nonBlockingPass_some (S : Int) (inp inp1 : stageInput) (c : Car) (order : List Category)
    (h : nonBlockingPass S order inp = some (c, inp1)) :
    ∃ cat r, cat ∈ order ∧ AllowedOnly S cat = true ∧ chanOf cat = some r ∧
      Popped inp r c inp1 := by
  rw [nonBlockingPass_eq_find] at h
  cases hf : order.find? (fun x => AllowedOnly S x && ready inp x) with
  | none => simp [hf] at h
  | some cat =>
    rw [hf] at h
    simp only at h
    cases hc : chanOf cat with
    | none => simp [hc] at h
    | some r =>
      rw [hc] at h
      simp only at h
      have hp := List.find?_some hf
      simp only [Bool.and_eq_true] at hp
      exact ⟨cat, r, List.mem_of_find?_eq_some hf, hp.1, hc, tryRecv_some inp inp1 r c h⟩

theorem pickCases_ok (S : Int) (order : List Category) :
    ∀ cs ∈ pickCases S order, chanOf cs.cat = some cs.recv ∧ AllowedOnly S cs.cat = true := by
  induction order with
  | nil => intro cs h; simp [pickCases] at h
  | cons cat rest ih =>
    intro cs h
    unfold pickCases at h
    cases ha : AllowedOnly S cat with
    | false =>
      simp [ha] at h
      exact ih cs h
    | true =>
      cases hc : chanOf cat with
      | none =>
        simp [ha, hc] at h
        exact ih cs h
      | some r =>
        simp [ha, hc] at h
        rcases h with h | h
        · subst h
          exact ⟨hc, ha⟩
        · exact ih cs h

theorem chanOf_cases (cat : Category) (r : ChanRef) (h : chanOf cat = some r) :
    (cat = CatA ∧ r = .inA) ∨ (cat = CatB ∧ r = .inB) ∨ (cat = CatC ∧ r = .inC) := by
  unfold chanOf at h
  by_cases h1 : cat = CatA
  · simp [h1] at h
    exact Or.inl ⟨h1, h.symm⟩
  · by_cases h2 : cat = CatB
    · rw [if_neg h1, if_pos h2] at h
      simp at h
      exact Or.inr (Or.inl ⟨h2, h.symm⟩)
    · by_cases h3 : cat = CatC
      · rw [if_neg h1, if_neg h2, if_pos h3] at h
        simp at h
        exact Or.inr (Or.inr ⟨h3, h.symm⟩)
      · simp [h1, h2, h3] at h

theorem assignCase_ok (S : Int) (v : SelVars) (cs : reflectCase)
    (hcs : chanOf cs.cat = some cs.recv ∧ AllowedOnly S cs.cat = true) (hv : VarsOK S v) :
    VarsOK S (assignCase v cs) := by
  obtain ⟨ha, hb, hc⟩ := hv
  rcases chanOf_cases _ _ hcs.1 with ⟨h1, h2⟩ | ⟨h1, h2⟩ | ⟨h1, h2⟩
  · have hA : AllowedOnly S CatA = true := h1 ▸ hcs.2
    refine ⟨?_, ?_, ?_⟩
    · intro r hr
      simp [assignCase, h1] at hr ⊢
      exact ⟨by rw [← hr, h2], hA⟩
    · intro r hr
      simp [assignCase, h1] at hr ⊢
      exact hb r hr
    · intro r hr
      simp [assignCase, h1] at hr ⊢
      exact hc r hr
  · have hB : AllowedOnly S CatB = true := h1 ▸ hcs.2
    have hne : ¬ (CatB = CatA) := by decide
    refine ⟨?_, ?_, ?_⟩
    · intro r hr
      simp [assignCase, h1, hne] at hr ⊢
      exact ha r hr
    · intro r hr
      simp [assignCase, h1, hne] at hr ⊢
      exact ⟨by rw [← hr, h2], hB⟩
    · intro r hr
      simp [assignCase, h1, hne] at hr ⊢
      exact hc r hr
  · have hC : AllowedOnly S CatC = true := h1 ▸ hcs.2
    have hne : ¬ (CatC = CatA) := by decide
    have hne2 : ¬ (CatC = CatB) := by decide
    refine ⟨?_, ?_, ?_⟩
    · intro r hr
      simp [assignCase, h1, hne, hne2] at hr ⊢
      exact ha r hr
    · intro r hr
      simp [assignCase, h1, hne, hne2] at hr ⊢
      exact hb r hr
    · intro r hr
      simp [assignCase, h1, hne, hne2] at hr ⊢
      exact ⟨by rw [← hr, h2], hC⟩

theorem foldl_assignCase_ok (S : Int) (cases : List reflectCase) :
    ∀ v : SelVars, (∀ cs ∈ cases, chanOf cs.cat = some cs.recv ∧ AllowedOnly S cs.cat = true) →
      VarsOK S v → VarsOK S (cases.foldl assignCase v) := by
  induction cases with
  | nil => intro v _ hv; exact hv
  | cons cs rest ih =>
    intro v hall hv
    simp only [List.foldl]
    apply ih
    · intro x hx
      exact hall x (List.mem_cons_of_mem _ hx)
    · exact assignCase_ok S v cs (hall cs (List.mem_cons_self _ _)) hv

/-- C3: `PreferredOrder` is the order the specification words: for 4, 5, 6 the
named class (A, B, C) first and the two remaining classes after it in base
order, for every other state the base order A, B, C; it always returns a
permutation of the three classes. -/
theorem C3_preferredOrder (state : Int) :
    PreferredOrder state = specPreferredOrder state ∧
    PreferredOrder 4 = [CatA, CatB, CatC] ∧
    PreferredOrder 5 = [CatB, CatA, CatC] ∧
    PreferredOrder 6 = [CatC, CatA, CatB] ∧
    ((state = 4 ∨ state = 5 ∨ state = 6) ∨ PreferredOrder state = [CatA, CatB, CatC]) ∧
    (PreferredOrder state).Perm [CatA, CatB, CatC] := by
  refine ⟨?_, by decide, by decide, by decide, ?_, ?_⟩
  · unfold PreferredOrder specPreferredOrder
    split
    · decide
    · split
      · decide
      · split
        · decide
        · rfl
  · by_cases h4 : state = 4
    · exact Or.inl (Or.inl h4)
    · by_cases h5 : state = 5
      · exact Or.inl (Or.inr (Or.inl h5))
      · by_cases h6 : state = 6
        · exact Or.inl (Or.inr (Or.inr h6))
        · right
          simp [PreferredOrder, h4, h5, h6]
  · unfold PreferredOrder
    split
    · exact List.Perm.refl _
    · split
      · exact List.Perm.swap _ _ _
      · split
        · decide
        · exact List.Perm.refl _

/-- C4: starting from the initial cell (current = 0), after the loop of the
StateManager has processed any finite sequence of messages (posted values,
reads, close) the stored value is neither 7 nor 8, and so is every value it
answered to a read; in particular after any sequence of posted integers. -/
theorem C4_current_never_keep (ms : List Msg) (vs : List Int) :
    ((loop NewStateManager ms).1.current ≠ 7 ∧ (loop NewStateManager ms).1.current ≠ 8) ∧
    (∀ r ∈ (loop NewStateManager ms).2, r ≠ 7 ∧ r ≠ 8) ∧
    ((loop NewStateManager (posted vs)).1.current ≠ 7 ∧
      (loop NewStateManager (posted vs)).1.current ≠ 8) := by
  have h0 : NewStateManager.current ≠ 7 ∧ NewStateManager.current ≠ 8 := by decide
  exact ⟨(loop_invariant ms _ h0).1, (loop_invariant ms _ h0).2,
    (loop_invariant (posted vs) _ h0).1⟩

/-- C5: for any cell and any sequence of messages, the final value and every
answer to a read are those of the same sequence with the posted 7s and 8s
deleted, hence so are the PreferredOrder and AllowedOnly decisions; a posted 7
or 8 leaves any cell unchanged. -/
theorem C5_keep_is_noop (sm : StateManager) (ms : List Msg) (vs : List Int) (cat : Category) :
    loop sm ms = loop sm (ms.filter effective) ∧
    (loop sm (posted vs)).1.current
      = (loop sm (posted (vs.filter (fun v => !(v == 7 || v == 8))))).1.current ∧
    PreferredOrder (loop sm (posted vs)).1.current
      = PreferredOrder (loop sm (posted (vs.filter (fun v => !(v == 7 || v == 8))))).1.current ∧
    AllowedOnly (loop sm (posted vs)).1.current cat
      = AllowedOnly (loop sm (posted (vs.filter (fun v => !(v == 7 || v == 8))))).1.current cat ∧
    loopStep sm (.set 7) = (sm, none, false) ∧
    loopStep sm (.set 8) = (sm, none, false) := by
  have hp : (posted vs).filter effective
      = posted (vs.filter (fun v => !(v == 7 || v == 8))) := by
    unfold posted
    rw [List.filter_map]
    rfl
  have hc : (loop sm (posted vs)).1.current
      = (loop sm (posted (vs.filter (fun v => !(v == 7 || v == 8))))).1.current := by
    rw [loop_filter (posted vs) sm, hp]
  refine ⟨loop_filter ms sm, hc, by rw [hc], by rw [hc], ?_, ?_⟩
  · simp [loopStep]
  · simp [loopStep]

theorem recvFrom_some (inp inp1 : stageInput) (r : ChanRef) (c : Car) (ok : Bool)
    (h : recvFrom (some r) inp = some ((c, ok), inp1)) :
    (ok = true → Popped inp r c inp1) ∧ (ok = false → inp1 = inp) := by
  unfold recvFrom at h
  simp only at h
  cases hr : (inp.get r).recv Car.zero with
  | none => simp [hr] at h
  | some res =>
    obtain ⟨⟨c1, ok1⟩, ch⟩ := res
    rw [hr] at h
    simp only [Option.some.injEq, Prod.mk.injEq] at h
    obtain ⟨⟨hc, hok⟩, hinp⟩ := h
    subst hc hok hinp
    constructor
    · intro ht
      subst ht
      obtain ⟨rest, hb, hch⟩ := recv_true _ _ _ hr
      rw [hch]
      exact popped_of_buf inp r c1 rest hb
    · intro hf
      subst hf
      rw [recv_false _ _ _ hr, set_get_self]

theorem select_recv_case (S : Int) (inp inp1 : stageInput) (ro : Option ChanRef) (hv : Bool)
    (r0 : ChanRef) (cat : Category) (i idx : Int) (c : Car) (ok : Bool)
    (hcat : chanOf cat = some r0)
    (hro : ∀ r, ro = some r → r = r0 ∧ AllowedOnly S cat = true ∧ hv = true)
    (h : (match recvFrom ro inp with
          | none => none
          | some ((c, ok), inp1) =>
            if hv then some ((i, c, ok), inp1) else some ((-1, Car.zero, false), inp1))
        = some ((idx, c, ok), inp1)) :
    (ok = true → ∃ cat r, chanOf cat = some r ∧ AllowedOnly S cat = true ∧ Popped inp r c inp1) ∧
    (ok = false → inp1 = inp) := by
  cases hro2 : ro with
  | none =>
    rw [hro2] at h
    simp [recvFrom] at h
  | some r =>
    obtain ⟨hr, hal, hhv⟩ := hro r hro2
    subst hr hhv
    rw [hro2] at h
    cases hrf : recvFrom (some r) inp with
    | none => simp [hrf] at h
    | some res =>
      obtain ⟨⟨c1, ok1⟩, inp2⟩ := res
      rw [hrf] at h
      simp only [if_true, Option.some.injEq, Prod.mk.injEq] at h
      obtain ⟨⟨_, hc, hok⟩, hinp⟩ := h
      subst hc hok hinp
      have := recvFrom_some inp inp2 r c1 ok1 hrf
      exact ⟨fun ht => ⟨cat, r, hcat, hal, this.1 ht⟩, this.2⟩

theorem reflectSelect_spec (S : Int) (e : Env) (cases : List reflectCase) (inp inp1 : stageInput)
    (idx : Int) (c : Car) (ok : Bool)
    (hall : ∀ cs ∈ cases, chanOf cs.cat = some cs.recv ∧ AllowedOnly S cs.cat = true)
    (h : reflectSelect e cases inp = some ((idx, c, ok), inp1)) :
    (ok = true → ∃ cat r, chanOf cat = some r ∧ AllowedOnly S cat = true ∧ Popped inp r c inp1) ∧
    (ok = false → inp1 = inp) := by
  have hv : VarsOK S (cases.foldl assignCase ⟨none, none, none, false, false, false⟩) := by
    apply foldl_assignCase_ok S cases _ hall
    refine ⟨?_, ?_, ?_⟩ <;> intro r hr <;> simp at hr
  unfold reflectSelect at h
  simp only at h
  obtain ⟨ha, hb, hc⟩ := hv
  cases hch : e.choice with
  | recvA =>
    rw [hch] at h
    exact select_recv_case S inp inp1 _ _ .inA CatA 0 idx c ok (by decide) ha h
  | recvB =>
    rw [hch] at h
    exact select_recv_case S inp inp1 _ _ .inB CatB 1 idx c ok (by decide) hb h
  | recvC =>
    rw [hch] at h
    exact select_recv_case S inp inp1 _ _ .inC CatC 2 idx c ok (by decide) hc h
  | tick =>
    rw [hch] at h
    by_cases ht : e.tick = true <;> simp [ht] at h
    obtain ⟨⟨_, _, hok⟩, hinp⟩ := h
    subst hok hinp
    exact ⟨by simp, fun _ => rfl⟩
  | done =>
    rw [hch] at h
    by_cases ht : e.ctxDone = true <;> simp [ht] at h
    obtain ⟨⟨_, _, hok⟩, hinp⟩ := h
    subst hok hinp
    exact ⟨by simp, fun _ => rfl⟩

theorem idleSelect_spec (e : Env) (res : Iter) (h : idleSelect e = some res) :
    (res = .again ∧ e.choice = .tick ∧ e.tick = true) ∨
    (res = .ret Car.zero false ∧ e.choice = .done ∧ e.ctxDone = true) := by
  unfold idleSelect at h
  cases hch : e.choice with
  | tick =>
    rw [hch] at h
    by_cases ht : e.tick = true <;> simp [ht] at h
    exact Or.inl ⟨h.symm, rfl, ht⟩
  | done =>
    rw [hch] at h
    by_cases ht : e.ctxDone = true <;> simp [ht] at h
    exact Or.inr ⟨h.symm, rfl, ht⟩
  | recvA => rw [hch] at h; simp at h
  | recvB => rw [hch] at h; simp at h
  | recvC => rw [hch] at h; simp at h

theorem idleSelect_no_car (e : Env) (res : Iter) (h : idleSelect e = some res) (c : Car) :
    res ≠ .ret c true := by
  rcases idleSelect_spec e res h with ⟨h1, _⟩ | ⟨h1, _⟩ <;> rw [h1] <;> simp

/-- The first part of an iteration: a returned car is the oldest car of the
queue of an admitted class, and otherwise the queues are as they were. -/
theorem pickNextPoll_spec (e : Env) (inp inp1 : stageInput) (p : Poll)
    (h : pickNextPoll e inp = some (p, inp1)) :
    (∀ c, p = .done (.ret c true) →
      (IsInactive e.state || IsClosed e.state) = false ∧
      ∃ cat r, chanOf cat = some r ∧ AllowedOnly e.state cat = true ∧ Popped inp r c inp1) ∧
    ((∀ c, p ≠ .done (.ret c true)) → inp1 = inp) ∧
    (∀ cases, p = .wait cases → cases = pickCases e.state (PreferredOrder e.state)) := by
  unfold pickNextPoll at h
  by_cases hidle : (IsInactive e.state || IsClosed e.state) = true
  · rw [if_pos hidle] at h
    cases hi : idleSelect e with
    | none => simp [hi] at h
    | some it =>
      rw [hi] at h
      simp only [Option.some.injEq, Prod.mk.injEq] at h
      obtain ⟨hp, hinp⟩ := h
      subst hp hinp
      refine ⟨?_, fun _ => rfl, by intro cases hc; simp at hc⟩
      intro c hc
      simp only [Poll.done.injEq] at hc
      exact absurd hc (idleSelect_no_car e it hi c)
  · rw [if_neg hidle] at h
    simp only [Bool.not_eq_true] at hidle
    simp only at h
    cases hnb : nonBlockingPass e.state (PreferredOrder e.state) inp with
    | some r1 =>
      obtain ⟨c1, inp2⟩ := r1
      rw [hnb] at h
      simp only [Option.some.injEq, Prod.mk.injEq] at h
      obtain ⟨hres, hinp⟩ := h
      subst hres hinp
      obtain ⟨cat, r, _, hal, hc, hp⟩ := nonBlockingPass_some _ _ _ _ _ hnb
      refine ⟨?_, ?_, by intro cases hc; simp at hc⟩
      · intro c hc2
        simp only [Poll.done.injEq, Iter.ret.injEq, and_true] at hc2
        subst hc2
        exact ⟨hidle, cat, r, hc, hal, hp⟩
      · intro hno
        exact absurd rfl (hno c1)
    | none =>
      rw [hnb] at h
      simp only at h
      by_cases hlen : (pickCases e.state (PreferredOrder e.state)).length = 0
      · rw [if_pos hlen] at h
        cases hi : idleSelect e with
        | none => simp [hi] at h
        | some it =>
          rw [hi] at h
          simp only [Option.some.injEq, Prod.mk.injEq] at h
          obtain ⟨hp, hinp⟩ := h
          subst hp hinp
          refine ⟨?_, fun _ => rfl, by intro cases hc; simp at hc⟩
          intro c hc
          simp only [Poll.done.injEq] at hc
          exact absurd hc (idleSelect_no_car e it hi c)
      · rw [if_neg hlen] at h
        simp only [Option.some.injEq, Prod.mk.injEq] at h
        obtain ⟨hp, hinp⟩ := h
        subst hp hinp
        refine ⟨by intro c hc; simp at hc, fun _ => rfl, ?_⟩
        intro cases hc
        simp only [Poll.wait.injEq] at hc
        exact hc.symm

/-- The blocking wait, on any contents of the queues: a returned car is the
oldest car of the queue of a class admitted when `cases` was built, and
otherwise the queues are as they were. -/
theorem pickNextWait_spec (S : Int) (e : Env) (cases : List reflectCase)
    (inp inp1 : stageInput) (res : Iter)
    (hall : ∀ cs ∈ cases, chanOf cs.cat = some cs.recv ∧ AllowedOnly S cs.cat = true)
    (h : pickNextWait e cases inp = some (res, inp1)) :
    (∀ c, res = .ret c true →
      ∃ cat r, chanOf cat = some r ∧ AllowedOnly S cat = true ∧ Popped inp r c inp1) ∧
    ((∀ c, res ≠ .ret c true) → inp1 = inp) := by
  unfold pickNextWait at h
  cases hrs : reflectSelect e cases inp with
  | none => simp [hrs] at h
  | some rr =>
    obtain ⟨⟨idx, val, ok⟩, inp2⟩ := rr
    rw [hrs] at h
    simp only at h
    have hsp := reflectSelect_spec S e _ inp inp2 idx val ok hall hrs
    cases ok with
    | true =>
      simp only [Bool.not_true, Bool.false_eq_true, if_false, Option.some.injEq,
        Prod.mk.injEq] at h
      obtain ⟨hres, hinp⟩ := h
      subst hres hinp
      refine ⟨?_, ?_⟩
      · intro c hc2
        simp only [Iter.ret.injEq, and_true] at hc2
        subst hc2
        exact hsp.1 rfl
      · intro hno
        exact absurd rfl (hno val)
    | false =>
      have hinp2 := hsp.2 rfl
      subst hinp2
      simp only [Bool.not_false, if_true] at h
      by_cases herr : e.ctxErr = true
      · simp [herr] at h
        obtain ⟨hres, hinp⟩ := h
        subst hres hinp
        exact ⟨by intro c hc; simp at hc, fun _ => rfl⟩
      · simp [herr] at h
        obtain ⟨hres, hinp⟩ := h
        subst hres hinp
        exact ⟨by intro c hc; simp at hc, fun _ => rfl⟩

/-- What one iteration of `pickNext` does to the queues: a returned car is the
oldest car of the queue of an admitted class, and an iteration that returns
no car leaves the three queues as they were. -/
theorem pickNextIter_spec (e : Env) (inp inp1 : stageInput) (res : Iter)
    (h : pickNextIter e inp = some (res, inp1)) :
    (∀ c, res = .ret c true →
      (IsInactive e.state || IsClosed e.state) = false ∧
      ∃ cat r, chanOf cat = some r ∧ AllowedOnly e.state cat = true ∧ Popped inp r c inp1) ∧
    ((∀ c, res ≠ .ret c true) → inp1 = inp) := by
  unfold pickNextIter at h
  cases hp : pickNextPoll e inp with
  | none => simp [hp] at h
  | some pr =>
    obtain ⟨p, inp2⟩ := pr
    rw [hp] at h
    have hps := pickNextPoll_spec e inp inp2 p hp
    cases p with
    | done it =>
      simp only [Option.some.injEq, Prod.mk.injEq] at h
      obtain ⟨hres, hinp⟩ := h
      subst hres hinp
      refine ⟨?_, ?_⟩
      · intro c hc
        subst hc
        exact hps.1 c rfl
      · intro hno
        apply hps.2.1
        intro c hc
        simp only [Poll.done.injEq] at hc
        exact hno c hc
    | wait cases =>
      simp only at h
      have hcs := hps.2.2 cases rfl
      have hinp2 : inp2 = inp := hps.2.1 (by intro c hc; simp at hc)
      subst hinp2
      have hw := pickNextWait_spec e.state e cases inp2 inp1 res
        (by rw [hcs]; exact pickCases_ok e.state _) h
      refine ⟨?_, hw.2⟩
      intro c hc
      have hidle : (IsInactive e.state || IsClosed e.state) = false := by
        unfold pickNextPoll at hp
        by_cases hid : (IsInactive e.state || IsClosed e.state) = true
        · rw [if_pos hid] at hp
          cases hi : idleSelect e <;> simp [hi] at hp
        · simpa using hid
      exact ⟨hidle, hw.1 c hc⟩

theorem assignCase_have (v : SelVars) (cs : reflectCase) (hv : VarsHave v) :
    VarsHave (assignCase v cs) := by
  obtain ⟨ha, hb, hc⟩ := hv
  unfold assignCase
  by_cases h1 : cs.cat = CatA
  · rw [if_pos h1]
    exact ⟨fun _ => rfl, hb, hc⟩
  · rw [if_neg h1]
    by_cases h2 : cs.cat = CatB
    · rw [if_pos h2]
      exact ⟨ha, fun _ => rfl, hc⟩
    · rw [if_neg h2]
      by_cases h3 : cs.cat = CatC
      · rw [if_pos h3]
        exact ⟨ha, hb, fun _ => rfl⟩
      · rw [if_neg h3]
        exact ⟨ha, hb, hc⟩

theorem foldl_assignCase_have (cases : List reflectCase) :
    ∀ v : SelVars, VarsHave v → VarsHave (cases.foldl assignCase v) := by
  induction cases with
  | nil => intro v hv; exact hv
  | cons cs rest ih =>
    intro v hv
    simp only [List.foldl]
    exact ih _ (assignCase_have v cs hv)

theorem select_recv_any (inp inp1 : stageInput) (ro : Option ChanRef) (hv : Bool)
    (i idx : Int) (c : Car) (ok : Bool)
    (hro : ro ≠ none → hv = true)
    (h : (match recvFrom ro inp with
          | none => none
          | some ((c, ok), inp1) =>
            if hv then some ((i, c, ok), inp1) else some ((-1, Car.zero, false), inp1))
        = some ((idx, c, ok), inp1)) :
    (ok = true → ∃ r, Popped inp r c inp1) ∧ (ok = false → inp1 = inp) := by
  cases hro2 : ro with
  | none =>
    rw [hro2] at h
    simp [recvFrom] at h
  | some r =>
    have hhv := hro (by rw [hro2]; simp)
    subst hhv
    rw [hro2] at h
    cases hrf : recvFrom (some r) inp with
    | none => simp [hrf] at h
    | some res =>
      obtain ⟨⟨c1, ok1⟩, inp2⟩ := res
      rw [hrf] at h
      simp only [if_true, Option.some.injEq, Prod.mk.injEq] at h
      obtain ⟨⟨_, hc, hok⟩, hinp⟩ := h
      subst hc hok hinp
      have := recvFrom_some inp inp2 r c1 ok1 hrf
      exact ⟨fun ht => ⟨r, this.1 ht⟩, this.2⟩

/-- Whatever `cases` holds, a car `reflectSelect` returns is the oldest car of
one of the three queues. -/
theorem reflectSelect_popped (e : Env) (cases : List reflectCase) (inp inp1 : stageInput)
    (idx : Int) (c : Car) (ok : Bool)
    (h : reflectSelect e cases inp = some ((idx, c, ok), inp1)) :
    (ok = true → ∃ r, Popped inp r c inp1) ∧ (ok = false → inp1 = inp) := by
  have hv : VarsHave (cases.foldl assignCase ⟨none, none, none, false, false, false⟩) := by
    apply foldl_assignCase_have cases
    refine ⟨?_, ?_, ?_⟩ <;> intro hr <;> simp at hr
  unfold reflectSelect at h
  simp only at h
  obtain ⟨ha, hb, hc⟩ := hv
  cases hch : e.choice with
  | recvA =>
    rw [hch] at h
    exact select_recv_any inp inp1 _ _ 0 idx c ok ha h
  | recvB =>
    rw [hch] at h
    exact select_recv_any inp inp1 _ _ 1 idx c ok hb h
  | recvC =>
    rw [hch] at h
    exact select_recv_any inp inp1 _ _ 2 idx c ok hc h
  | tick =>
    rw [hch] at h
    by_cases ht : e.tick = true <;> simp [ht] at h
    obtain ⟨⟨_, _, hok⟩, hinp⟩ := h
    subst hok hinp
    exact ⟨by simp, fun _ => rfl⟩
  | done =>
    rw [hch] at h
    by_cases ht : e.ctxDone = true <;> simp [ht] at h
    obtain ⟨⟨_, _, hok⟩, hinp⟩ := h
    subst hok hinp
    exact ⟨by simp, fun _ => rfl⟩

theorem pickNextWait_popped (e : Env) (cases : List reflectCase)
    (inp inp1 : stageInput) (res : Iter)
    (h : pickNextWait e cases inp = some (res, inp1)) :
    (∀ c, res = .ret c true → ∃ r, Popped inp r c inp1) ∧
    ((∀ c, res ≠ .ret c true) → inp1 = inp) := by
  unfold pickNextWait at h
  cases hrs : reflectSelect e cases inp with
  | none => simp [hrs] at h
  | some rr =>
    obtain ⟨⟨idx, val, ok⟩, inp2⟩ := rr
    rw [hrs] at h
    simp only at h
    have hsp := reflectSelect_popped e _ inp inp2 idx val ok hrs
    cases ok with
    | true =>
      simp only [Bool.not_true, Bool.false_eq_true, if_false, Option.some.injEq,
        Prod.mk.injEq] at h
      obtain ⟨hres, hinp⟩ := h
      subst hres hinp
      refine ⟨?_, ?_⟩
      · intro c hc2
        simp only [Iter.ret.injEq, and_true] at hc2
        subst hc2
        exact hsp.1 rfl
      · intro hno
        exact absurd rfl (hno val)
    | false =>
      have hinp2 := hsp.2 rfl
      subst hinp2
      simp only [Bool.not_false, if_true] at h
      by_cases herr : e.ctxErr = true
      · simp [herr] at h
        obtain ⟨hres, hinp⟩ := h
        subst hres hinp
        exact ⟨by intro c hc; simp at hc, fun _ => rfl⟩
      · simp [herr] at h
        obtain ⟨hres, hinp⟩ := h
        subst hres hinp
        exact ⟨by intro c hc; simp at hc, fun _ => rfl⟩

/-- A step of the dispatcher either leaves the queues alone or returns the
oldest car of one queue. -/
theorem dispStep_spec (e : Env) (d d1 : Disp) (oc : Option Car)
    (h : dispStep e d = some (d1, oc)) :
    (oc = none ∧ d1.inp = d.inp) ∨ (∃ c r, oc = some c ∧ Popped d.inp r c d1.inp) := by
  unfold dispStep at h
  cases hw : d.waiting with
  | none =>
    rw [hw] at h
    simp only at h
    cases hp : pickNextPoll e d.inp with
    | none => simp [hp] at h
    | some pr =>
      obtain ⟨p, inp1⟩ := pr
      have hps := pickNextPoll_spec e d.inp inp1 p hp
      rw [hp] at h
      cases p with
      | wait cases =>
        simp only [Option.some.injEq, Prod.mk.injEq] at h
        obtain ⟨hd, ho⟩ := h
        subst hd ho
        exact Or.inl ⟨rfl, hps.2.1 (by intro c hc; simp at hc)⟩
      | done it =>
        cases it with
        | again =>
          simp only [Option.some.injEq, Prod.mk.injEq] at h
          obtain ⟨hd, ho⟩ := h
          subst hd ho
          exact Or.inl ⟨rfl, hps.2.1 (by intro c hc; simp at hc)⟩
        | ret c ok =>
          cases ok with
          | false =>
            simp only [Option.some.injEq, Prod.mk.injEq] at h
            obtain ⟨hd, ho⟩ := h
            subst hd ho
            exact Or.inl ⟨rfl, hps.2.1 (by intro c hc; simp at hc)⟩
          | true =>
            simp only [Option.some.injEq, Prod.mk.injEq] at h
            obtain ⟨hd, ho⟩ := h
            subst hd ho
            obtain ⟨_, cat, r, _, _, hpop⟩ := hps.1 c rfl
            exact Or.inr ⟨c, r, rfl, hpop⟩
  | some cases =>
    rw [hw] at h
    simp only at h
    cases hp : pickNextWait e cases d.inp with
    | none => simp [hp] at h
    | some pr =>
      obtain ⟨it, inp1⟩ := pr
      have hps := pickNextWait_popped e cases d.inp inp1 it hp
      rw [hp] at h
      cases it with
      | again =>
        simp only [Option.some.injEq, Prod.mk.injEq] at h
        obtain ⟨hd, ho⟩ := h
        subst hd ho
        exact Or.inl ⟨rfl, hps.2 (by intro c hc; simp at hc)⟩
      | ret c ok =>
        cases ok with
        | false =>
          simp only [Option.some.injEq, Prod.mk.injEq] at h
          obtain ⟨hd, ho⟩ := h
          subst hd ho
          exact Or.inl ⟨rfl, hps.2 (by intro c hc; simp at hc)⟩
        | true =>
          simp only [Option.some.injEq, Prod.mk.injEq] at h
          obtain ⟨hd, ho⟩ := h
          subst hd ho
          obtain ⟨r, hpop⟩ := hps.1 c rfl
          exact Or.inr ⟨c, r, rfl, hpop⟩

theorem sendTo_spec (ch ch1 : Chan Car) (c : Car) (h : ch.sendTo c = some ch1) :
    ch1.buf = ch.buf ++ [c] ∧ ch1.cap = ch.cap ∧ ch1.closed = ch.closed := by
  unfold Chan.sendTo at h
  split at h
  · simp only [Option.some.injEq] at h
    subst h
    exact ⟨rfl, rfl, rfl⟩
  · simp at h

/-- A completed `sendByCategory` puts the car at the back of the queue
`dstOf` names and leaves the other two queues alone. -/
theorem sendByCategory_spec (cd : Bool) (car : Car) (out out1 : stageInput)
    (h : sendByCategory cd true car out = some out1) :
    (out1.get (dstOf car)).buf = (out.get (dstOf car)).buf ++ [car] ∧
    ∀ r2, r2 ≠ dstOf car → out1.get r2 = out.get r2 := by
  unfold sendByCategory at h
  simp only [if_true] at h
  cases hs : (out.get (dstOf car)).sendTo car with
  | none => simp [hs] at h
  | some ch =>
    rw [hs] at h
    simp only [Option.some.injEq] at h
    subst h
    refine ⟨?_, ?_⟩
    · rw [get_set_same]
      exact (sendTo_spec _ _ _ hs).1
    · intro r2 h2
      exact get_set_other _ _ _ _ h2

theorem wellRouted_popped (inp inp1 : stageInput) (r : ChanRef) (c : Car)
    (hwr : WellRouted inp) (hp : Popped inp r c inp1) :
    WellRouted inp1 ∧ dstOf c = r := by
  obtain ⟨hb, _, hother⟩ := hp
  refine ⟨?_, ?_⟩
  · intro r2 x hx
    by_cases h2 : r2 = r
    · subst h2
      apply hwr r2 x
      rw [hb]
      exact List.mem_cons_of_mem _ hx
    · rw [hother r2 h2] at hx
      exact hwr r2 x hx
  · apply hwr r c
    rw [hb]
    exact List.mem_cons_self _ _

theorem queueRun_fifo (evs : List QEvent) :
    ∀ (d d2 : Disp) (got sent : List Car), WellRouted d.inp →
      queueRun evs d = some (d2, got, sent) →
      WellRouted d2.inp ∧
      ∀ r : ChanRef, got.filter (fun x => decide (dstOf x = r)) ++ (d2.inp.get r).buf
        = (d.inp.get r).buf ++ sent.filter (fun x => decide (dstOf x = r)) := by
  induction evs with
  | nil =>
    intro d d2 got sent hwr h
    simp only [queueRun, Option.some.injEq, Prod.mk.injEq] at h
    obtain ⟨hd, hg, hs⟩ := h
    subst hd hg hs
    exact ⟨hwr, by intro r; simp⟩
  | cons ev evs ih =>
    intro d d2 got sent hwr h
    cases ev with
    | send car =>
      simp only [queueRun] at h
      cases hs : sendByCategory false true car d.inp with
      | none => simp [hs] at h
      | some inp1 =>
        rw [hs] at h
        simp only at h
        cases hq : queueRun evs { d with inp := inp1 } with
        | none => simp [hq] at h
        | some res =>
          obtain ⟨d3, got3, sent3⟩ := res
          rw [hq] at h
          simp only [Option.some.injEq, Prod.mk.injEq] at h
          obtain ⟨hd, hg, hse⟩ := h
          subst hd hg hse
          obtain ⟨hbuf, hother⟩ := sendByCategory_spec false car d.inp inp1 hs
          have hwr1 : WellRouted inp1 := by
            intro r2 x hx
            by_cases h2 : r2 = dstOf car
            · subst h2
              rw [hbuf] at hx
              rcases List.mem_append.mp hx with hx | hx
              · exact hwr _ x hx
              · simp at hx
                rw [hx]
            · rw [hother r2 h2] at hx
              exact hwr r2 x hx
          obtain ⟨hwr3, hfifo⟩ := ih { d with inp := inp1 } d3 got3 sent3 hwr1 hq
          refine ⟨hwr3, ?_⟩
          intro r
          rw [hfifo r]
          by_cases h2 : r = dstOf car
          · subst h2
            simp only [hbuf]
            simp
          · simp only [hother r h2]
            have : ¬ (dstOf car = r) := fun hh => h2 hh.symm
            simp [List.filter_cons, this]
    | step e =>
      simp only [queueRun] at h
      cases hs : dispStep e d with
      | none => simp [hs] at h
      | some res1 =>
        obtain ⟨d1, oc⟩ := res1
        rw [hs] at h
        simp only at h
        cases hq : queueRun evs d1 with
        | none => simp [hq] at h
        | some res =>
          obtain ⟨d3, got3, sent3⟩ := res
          rw [hq] at h
          simp only [Option.some.injEq, Prod.mk.injEq] at h
          obtain ⟨hd, hg, hse⟩ := h
          subst hd hg hse
          rcases dispStep_spec e d d1 oc hs with ⟨hoc, hinp⟩ | ⟨c, r0, hoc, hpop⟩
          · subst hoc
            obtain ⟨hwr3, hfifo⟩ := ih d1 d3 got3 sent3 (by rw [hinp]; exact hwr) hq
            refine ⟨hwr3, ?_⟩
            intro r
            simp only [Option.toList, List.nil_append]
            rw [hfifo r, hinp]
          · subst hoc
            obtain ⟨hwr1, hdst⟩ := wellRouted_popped _ _ _ _ hwr hpop
            obtain ⟨hwr3, hfifo⟩ := ih d1 d3 got3 sent3 hwr1 hq
            refine ⟨hwr3, ?_⟩
            intro r
            obtain ⟨hb, _, hother⟩ := hpop
            by_cases h2 : r = r0
            · subst h2
              simp only [Option.toList, List.singleton_append]
              rw [List.filter_cons_of_pos (by simpa using hdst)]
              rw [List.cons_append, hfifo r, hb, List.cons_append]
            · have : ¬ (dstOf c = r) := by rw [hdst]; exact fun hh => h2 hh.symm
              simp only [Option.toList, List.singleton_append]
              rw [List.filter_cons_of_neg (by simpa using this)]
              rw [hfifo r, hother r h2]

theorem preferredOrder_perm (state : Int) : (PreferredOrder state).Perm [CatA, CatB, CatC] := by
  unfold PreferredOrder
  split
  · exact List.Perm.refl _
  · split
    · exact List.Perm.swap _ _ _
    · split
      · decide
      · exact List.Perm.refl _
theorem not_idle_of_ne (S : Int) (h0 : S ≠ 0) (h9 : S ≠ 9) :
    (IsInactive S || IsClosed S) = false := by
  simp [IsInactive, IsClosed, h0, h9]

theorem pickNext_first (e : Env) (es : List Env) (inp inp1 : stageInput) (c : Car) (ok : Bool)
    (h : pickNextIter e inp = some (.ret c ok, inp1)) :
    pickNext (e :: es) inp = some ((c, ok), inp1) := by
  simp [pickNext, h]

/-- C1: for a control value other than 0 and 9 and queues in which an
admitted class has a car, the non-blocking pass returns the oldest car of the
first class of PreferredOrder that is admitted and has a car, so `pickNext`
returns it in its first iteration; with state 6 and three non-empty queues
that is the oldest car of C. -/
theorem C1_nonblocking_pass_first_ready (S : Int) (inp : stageInput) (e : Env) (es : List Env)
    (h0 : S ≠ 0) (h9 : S ≠ 9) (he : e.state = S)
    (hready : ∃ cat ∈ [CatA, CatB, CatC], AllowedOnly S cat = true ∧ ready inp cat = true) :
    (∃ cat r c rest,
      (PreferredOrder S).find? (fun x => AllowedOnly S x && ready inp x) = some cat ∧
      chanOf cat = some r ∧ (inp.get r).buf = c :: rest ∧
      nonBlockingPass S (PreferredOrder S) inp
        = some (c, inp.set r { inp.get r with buf := rest }) ∧
      pickNextPoll e inp
        = some (.done (.ret c true), inp.set r { inp.get r with buf := rest }) ∧
      pickNext (e :: es) inp = some ((c, true), inp.set r { inp.get r with buf := rest })) ∧
    (S = 6 → ∀ a ra b rb c rc,
      inp.A.buf = a :: ra → inp.B.buf = b :: rb → inp.C.buf = c :: rc →
      pickNext (e :: es) inp = some ((c, true), { inp with C := { inp.C with buf := rc } })) := by
  have hidle := not_idle_of_ne S h0 h9
  have key : ∀ cat r c rest,
      (PreferredOrder S).find? (fun x => AllowedOnly S x && ready inp x) = some cat →
      chanOf cat = some r → (inp.get r).buf = c :: rest →
      nonBlockingPass S (PreferredOrder S) inp
        = some (c, inp.set r { inp.get r with buf := rest }) ∧
      pickNextPoll e inp
        = some (.done (.ret c true), inp.set r { inp.get r with buf := rest }) ∧
      pickNext (e :: es) inp = some ((c, true), inp.set r { inp.get r with buf := rest }) := by
    intro cat r c rest hf hc hb
    have hnb : nonBlockingPass S (PreferredOrder S) inp
        = some (c, inp.set r { inp.get r with buf := rest }) := by
      rw [nonBlockingPass_eq_find, hf]
      simp only [hc]
      exact tryRecv_ready inp r c rest hb
    have hpoll : pickNextPoll e inp
        = some (.done (.ret c true), inp.set r { inp.get r with buf := rest }) := by
      unfold pickNextPoll
      rw [he, hidle]
      simp [hnb]
    refine ⟨hnb, hpoll, ?_⟩
    apply pickNext_first
    simp [pickNextIter, hpoll]
  constructor
  · obtain ⟨cat1, hmem, hal, hrd⟩ := hready
    have hin : cat1 ∈ PreferredOrder S :=
      ((preferredOrder_perm S).mem_iff).mpr hmem
    have hsome : ((PreferredOrder S).find? (fun x => AllowedOnly S x && ready inp x)).isSome := by
      rw [List.find?_isSome]
      exact ⟨cat1, hin, by simp [hal, hrd]⟩
    obtain ⟨cat, hf⟩ := Option.isSome_iff_exists.mp hsome
    have hp := List.find?_some hf
    simp only [Bool.and_eq_true] at hp
    obtain ⟨r, c, rest, hc, hb⟩ := (ready_iff inp cat).mp hp.2
    exact ⟨cat, r, c, rest, hf, hc, hb, key cat r c rest hf hc hb⟩
  · intro h6 a ra b rb c rc hA hB hC
    subst h6
    have hrd : ready inp CatC = true := (ready_iff inp CatC).mpr ⟨.inC, c, rc, by decide, hC⟩
    have hf : (PreferredOrder 6).find? (fun x => AllowedOnly 6 x && ready inp x) = some CatC := by
      have hal : AllowedOnly 6 CatC = true := by decide
      simp [PreferredOrder, List.find?, hal, hrd]
    exact (key CatC .inC c rc hf (by decide) hC).2.2

/-- C1 at state 6 with cars in the three queues: the car returned is car 4,
the oldest car of C, and only the queue of C changes. -/
theorem C1_witness :
    pickNext [exEnv 6 .tick] exFull
      = some ((⟨4, CatC⟩, true), { exFull with C := { exC with buf := [⟨5, CatC⟩] } }) :=
  (C1_nonblocking_pass_first_ready 6 exFull (exEnv 6 .tick) [] (by decide) (by decide) rfl
    ⟨CatA, by decide, by decide, by decide⟩).2 rfl ⟨1, CatA⟩ [⟨2, CatA⟩] ⟨3, CatB⟩ []
    ⟨4, CatC⟩ [⟨5, CatC⟩] rfl rfl rfl

theorem only_named (S : Int) (hS : S = 1 ∨ S = 2 ∨ S = 3) :
    ∃ cat r, chanOf cat = some r ∧ cat = S - 1 ∧ onlyRef S = some r ∧
      (∀ x, AllowedOnly S x = true ↔ x = cat) := by
  rcases hS with h | h | h
  · subst h
    exact ⟨CatA, .inA, by decide, by decide, by decide, by intro x; simp [AllowedOnly]⟩
  · subst h
    exact ⟨CatB, .inB, by decide, by decide, by decide, by intro x; simp [AllowedOnly]⟩
  · subst h
    exact ⟨CatC, .inC, by decide, by decide, by decide, by intro x; simp [AllowedOnly]⟩

theorem chanOf_inj (cat1 cat2 : Category) (r1 r2 : ChanRef)
    (h1 : chanOf cat1 = some r1) (h2 : chanOf cat2 = some r2) (h : cat1 = cat2) : r1 = r2 := by
  subst h
  rw [h1] at h2
  exact Option.some.inj h2

theorem popped_head_mem (inp inp1 : stageInput) (r : ChanRef) (c : Car)
    (hp : Popped inp r c inp1) : c ∈ (inp.get r).buf := by
  rw [hp.1]
  exact List.mem_cons_self _ _

theorem popped_nonempty (inp inp1 : stageInput) (r : ChanRef) (c : Car)
    (hp : Popped inp r c inp1) : (inp.get r).buf ≠ [] := by
  rw [hp.1]
  simp

/-- The function `pickNext` with every snapshot equal to `S`: a returned car
is the oldest car of the queue of a class `S` admits, and nothing else
changes. -/
theorem pickNext_spec (S : Int) (es : List Env) :
    ∀ (inp inp1 : stageInput) (c : Car) (ok : Bool), (∀ e ∈ es, e.state = S) →
      pickNext es inp = some ((c, ok), inp1) →
      (ok = true → ∃ cat r, chanOf cat = some r ∧ AllowedOnly S cat = true ∧
        Popped inp r c inp1) ∧
      (ok = false → inp1 = inp) := by
  induction es with
  | nil => intro inp inp1 c ok _ h; simp [pickNext] at h
  | cons e es ih =>
    intro inp inp1 c ok hes h
    have heS : e.state = S := hes e (List.mem_cons_self _ _)
    simp only [pickNext] at h
    cases hit : pickNextIter e inp with
    | none => simp [hit] at h
    | some pr =>
      obtain ⟨it, inp2⟩ := pr
      rw [hit] at h
      have hsp := pickNextIter_spec e inp inp2 it hit
      cases it with
      | again =>
        simp only at h
        have h2 : inp2 = inp := hsp.2 (by intro c hc; simp at hc)
        subst h2
        exact ih inp2 inp1 c ok (fun x hx => hes x (List.mem_cons_of_mem _ hx)) h
      | ret c1 ok1 =>
        simp only [Option.some.injEq, Prod.mk.injEq] at h
        obtain ⟨⟨hc, hok⟩, hinp⟩ := h
        subst hc hok hinp
        constructor
        · intro ht
          subst ht
          obtain ⟨_, cat, r, h1, h2, h3⟩ := hsp.1 c1 rfl
          rw [heS] at h2
          exact ⟨cat, r, h1, h2, h3⟩
        · intro hf
          subst hf
          exact hsp.2 (by intro c hc; simp at hc)

/-- C2: in an "only" state (1, 2, 3) whatever `pickNext` returns, from its
non-blocking pass or from the blocking wait in `reflectSelect` on any contents
of the queues, is the oldest car of the queue of the class the state names,
the other two queues are untouched, and the car is of that class when the
queue holds cars of its class; with the named queue empty nothing is
returned and the three queues stay as they are. -/
theorem C2_only_modes (S : Int) (hS : S = 1 ∨ S = 2 ∨ S = 3) :
    ∃ cat r, chanOf cat = some r ∧ cat = S - 1 ∧ (∀ x, AllowedOnly S x = true ↔ x = cat) ∧
      (∀ (es : List Env) (inp inp1 : stageInput) (c : Car) (ok : Bool),
        (∀ e ∈ es, e.state = S) → pickNext es inp = some ((c, ok), inp1) →
        (ok = true → Popped inp r c inp1 ∧
          ((∀ x ∈ (inp.get r).buf, x.Category = cat) → c.Category = cat)) ∧
        (ok = false → inp1 = inp) ∧
        ((inp.get r).buf = [] → ok = false ∧ inp1 = inp)) ∧
      (∀ (e : Env) (inp inp1 : stageInput) (res : Iter),
        pickNextWait e (pickCases S (PreferredOrder S)) inp = some (res, inp1) →
        (∀ c, res = .ret c true → Popped inp r c inp1 ∧
          ((∀ x ∈ (inp.get r).buf, x.Category = cat) → c.Category = cat)) ∧
        ((∀ c, res ≠ .ret c true) → inp1 = inp) ∧
        ((inp.get r).buf = [] → (∀ c, res ≠ .ret c true) ∧ inp1 = inp)) := by
  obtain ⟨cat, r, hc, hcat, _, hal⟩ := only_named S hS
  refine ⟨cat, r, hc, hcat, hal, ?_, ?_⟩
  · intro es inp inp1 c ok hes h
    have hsp := pickNext_spec S es inp inp1 c ok hes h
    have hpop : ok = true → Popped inp r c inp1 := by
      intro ht
      obtain ⟨cat2, r2, h1, h2, h3⟩ := hsp.1 ht
      have := (hal cat2).mp h2
      rw [chanOf_inj cat2 cat r2 r h1 hc this] at h3
      exact h3
    refine ⟨?_, hsp.2, ?_⟩
    · intro ht
      exact ⟨hpop ht, fun hall => hall c (popped_head_mem _ _ _ _ (hpop ht))⟩
    · intro hemp
      cases ok with
      | true => exact absurd hemp (popped_nonempty _ _ _ _ (hpop rfl))
      | false => exact ⟨rfl, hsp.2 rfl⟩
  · intro e inp inp1 res h
    have hsp := pickNextWait_spec S e _ inp inp1 res (pickCases_ok S _) h
    have hpop : ∀ c, res = .ret c true → Popped inp r c inp1 := by
      intro c hres
      obtain ⟨cat2, r2, h1, h2, h3⟩ := hsp.1 c hres
      have := (hal cat2).mp h2
      rw [chanOf_inj cat2 cat r2 r h1 hc this] at h3
      exact h3
    refine ⟨?_, hsp.2, ?_⟩
    · intro c hres
      exact ⟨hpop c hres, fun hall => hall c (popped_head_mem _ _ _ _ (hpop c hres))⟩
    · intro hemp
      have hno : ∀ c, res ≠ .ret c true :=
        fun c hres => popped_nonempty _ _ _ _ (hpop c hres) hemp
      exact ⟨hno, hsp.2 hno⟩

/-- C2 at state 2 with cars of A and C queued and none of B: whatever the
`select` takes, an iteration returns no car and leaves the queues as they
are; with a car of B arriving before the `select`, the wait returns it. -/
theorem C2_witness :
    (∀ (e : Env) (c : Car) (ok : Bool) (inp1 : stageInput), e.state = 2 →
      pickNext [e] exNoB = some ((c, ok), inp1) → ok = false ∧ inp1 = exNoB) ∧
    pickNextWait (exEnv 2 .recvB) (pickCases 2 (PreferredOrder 2)) exFull
      = some (.ret ⟨3, CatB⟩ true, { exFull with B := exEmpty }) := by
  obtain ⟨cat, r, hc, hcat, _, hpick, _⟩ := C2_only_modes 2 (Or.inr (Or.inl rfl))
  have hr : r = .inB := by
    have h2 : chanOf CatB = some ChanRef.inB := by decide
    have hcb : cat = CatB := by rw [hcat]; decide
    exact chanOf_inj cat CatB r .inB hc h2 hcb
  subst hr
  refine ⟨?_, by decide⟩
  intro e c ok inp1 he h
  exact (hpick [e] exNoB inp1 c ok (by intro x hx; simp at hx; rw [hx]; exact he) h).2.2 rfl

/-- C6: with a snapshot of 0 (inactive) or 9 (closed) an iteration of
`pickNext` does not reach the queues: its result is that of the idle
`select` alone, the three queues stay as they are, and it ends in `continue`
on the tick or in `return Car{}, false` on cancellation, returning no car. -/
theorem C6_idle_states (e : Env) (inp : stageInput) (hS : e.state = 0 ∨ e.state = 9) :
    pickNextPoll e inp = (idleSelect e).map (fun it => (Poll.done it, inp)) ∧
    pickNextIter e inp = (idleSelect e).map (fun it => (it, inp)) ∧
    (∀ res inp1, pickNextIter e inp = some (res, inp1) →
      inp1 = inp ∧ (∀ c, res ≠ .ret c true) ∧
      ((res = .again ∧ e.choice = .tick ∧ e.tick = true) ∨
       (res = .ret Car.zero false ∧ e.choice = .done ∧ e.ctxDone = true))) ∧
    (e.choice = .tick → e.tick = true → pickNextIter e inp = some (.again, inp)) ∧
    (e.choice = .done → e.ctxDone = true →
      pickNextIter e inp = some (.ret Car.zero false, inp)) := by
  have hidle : (IsInactive e.state || IsClosed e.state) = true := by
    rcases hS with h | h <;> simp [IsInactive, IsClosed, h]
  have hpoll : pickNextPoll e inp = (idleSelect e).map (fun it => (Poll.done it, inp)) := by
    unfold pickNextPoll
    rw [if_pos hidle]
    cases idleSelect e <;> rfl
  have hiter : pickNextIter e inp = (idleSelect e).map (fun it => (it, inp)) := by
    unfold pickNextIter
    rw [hpoll]
    cases idleSelect e <;> rfl
  refine ⟨hpoll, hiter, ?_, ?_, ?_⟩
  · intro res inp1 h
    rw [hiter] at h
    cases hi : idleSelect e with
    | none => simp [hi] at h
    | some it =>
      rw [hi] at h
      simp only [Option.map_some', Option.some.injEq, Prod.mk.injEq] at h
      obtain ⟨h1, h2⟩ := h
      subst h1 h2
      exact ⟨rfl, idleSelect_no_car e it hi, idleSelect_spec e it hi⟩
  · intro hch ht
    rw [hiter]
    simp [idleSelect, hch, ht]
  · intro hch ht
    rw [hiter]
    simp [idleSelect, hch, ht]

/-- C6 at state 9 with cars in the three queues: on the tick the iteration
ends in `continue` and the queues are untouched. -/
theorem C6_witness : pickNextIter (exEnv 9 .tick) exFull = some (.again, exFull) :=
  (C6_idle_states (exEnv 9 .tick) exFull (Or.inr rfl)).2.2.2.1 rfl rfl

/-- C7: whatever the control value, a car `pickNext` returns (from the
non-blocking pass or from the blocking wait) is the oldest car of one queue,
the rest of that queue keeps its order and the other two queues are
unchanged; hence over any interleaving of completed `sendByCategory` sends and
dispatcher steps, starting from queues that hold each car in its own queue,
the cars returned from a class followed by those still queued are the cars
first queued followed by the cars sent, in order. -/
theorem C7_fifo_per_class (evs : List QEvent) (d d2 : Disp) (got sent : List Car)
    (hwr : WellRouted d.inp) (h : queueRun evs d = some (d2, got, sent)) :
    (∀ r : ChanRef, got.filter (fun x => decide (dstOf x = r)) ++ (d2.inp.get r).buf
        = (d.inp.get r).buf ++ sent.filter (fun x => decide (dstOf x = r))) ∧
    WellRouted d2.inp ∧
    (∀ (e : Env) (inp inp1 : stageInput) (c : Car),
      pickNextIter e inp = some (.ret c true, inp1) →
      ∃ r, Popped inp r c inp1 ∧ (WellRouted inp → dstOf c = r)) ∧
    (∀ (e : Env) (inp inp1 : stageInput) (c : Car),
      pickNextPoll e inp = some (.done (.ret c true), inp1) →
      ∃ r, Popped inp r c inp1 ∧ (WellRouted inp → dstOf c = r)) ∧
    (∀ (e : Env) (cases : List reflectCase) (inp inp1 : stageInput) (c : Car),
      pickNextWait e cases inp = some (.ret c true, inp1) →
      ∃ r, Popped inp r c inp1 ∧ (WellRouted inp → dstOf c = r)) := by
  obtain ⟨h1, h2⟩ := queueRun_fifo evs d d2 got sent hwr h
  refine ⟨h2, h1, ?_, ?_, ?_⟩
  · intro e inp inp1 c hit
    obtain ⟨_, _, r, _, _, hp⟩ := (pickNextIter_spec e inp inp1 _ hit).1 c rfl
    exact ⟨r, hp, fun hw => (wellRouted_popped _ _ _ _ hw hp).2⟩
  · intro e inp inp1 c hit
    obtain ⟨_, _, r, _, _, hp⟩ := (pickNextPoll_spec e inp inp1 _ hit).1 c rfl
    exact ⟨r, hp, fun hw => (wellRouted_popped _ _ _ _ hw hp).2⟩
  · intro e cases inp inp1 c hit
    obtain ⟨r, hp⟩ := (pickNextWait_popped e cases inp inp1 _ hit).1 c rfl
    exact ⟨r, hp, fun hw => (wellRouted_popped _ _ _ _ hw hp).2⟩

/-- C7 on a run from empty queues: cars 1 (A), 2 (C), 3 (A), 4 (C) are sent
and the dispatcher returns 2, 1, 3 under states 6, 1, 4; for each class the
cars returned and then those still queued are the cars sent, in order. -/
theorem C7_witness :
    queueRun exRun exDisp
      = some ({ inp := ⟨exEmpty, exEmpty, { exEmpty with buf := [⟨4, CatC⟩] }⟩, waiting := none },
          [⟨2, CatC⟩, ⟨1, CatA⟩, ⟨3, CatA⟩],
          [⟨1, CatA⟩, ⟨2, CatC⟩, ⟨3, CatA⟩, ⟨4, CatC⟩]) ∧
    ∀ r : ChanRef,
      ([⟨2, CatC⟩, ⟨1, CatA⟩, ⟨3, CatA⟩] : List Car).filter (fun x => decide (dstOf x = r))
        ++ ((⟨exEmpty, exEmpty, { exEmpty with buf := [⟨4, CatC⟩] }⟩ : stageInput).get r).buf
      = (exDisp.inp.get r).buf
        ++ ([⟨1, CatA⟩, ⟨2, CatC⟩, ⟨3, CatA⟩, ⟨4, CatC⟩] : List Car).filter
            (fun x => decide (dstOf x = r)) := by
  have hrun : queueRun exRun exDisp
      = some ({ inp := ⟨exEmpty, exEmpty, { exEmpty with buf := [⟨4, CatC⟩] }⟩, waiting := none },
          [⟨2, CatC⟩, ⟨1, CatA⟩, ⟨3, CatA⟩],
          [⟨1, CatA⟩, ⟨2, CatC⟩, ⟨3, CatA⟩, ⟨4, CatC⟩]) := by decide
  have hwr : WellRouted exDisp.inp := by
    intro r c hc
    cases r <;> simp [exDisp, exEmpty, stageInput.get] at hc
  exact ⟨hrun, (C7_fifo_per_class exRun exDisp _ _ _ hwr hrun).1⟩

theorem fillSem_spec (k : Nat) :
    ∀ ch : Chan Unit, ch.buf.length + k ≤ ch.cap →
      ∃ ch1, fillSem k ch = some ch1 ∧ ch1.buf.length = ch.buf.length + k ∧
        ch1.cap = ch.cap ∧ ch1.closed = ch.closed := by
  induction k with
  | zero => intro ch _; exact ⟨ch, rfl, rfl, rfl, rfl⟩
  | succ k ih =>
    intro ch h
    have hlt : ch.buf.length < ch.cap := by omega
    obtain ⟨ch1, h1, h2, h3, h4⟩ := ih { ch with buf := ch.buf ++ [()] }
      (by simp only [List.length_append, List.length_singleton]; omega)
    refine ⟨ch1, ?_, ?_, h3, h4⟩
    · simp only [fillSem, Chan.send, if_pos hlt]
      exact h1
    · rw [h2]
      simp only [List.length_append, List.length_singleton]
      omega

theorem newChanSem_spec (n : Int) (hn : 0 ≤ n) :
    ∃ s0, newChanSem n = some s0 ∧ SemInv n s0 ∧ s0.available = n := by
  obtain ⟨ch1, h1, h2, h3, h4⟩ := fillSem_spec n.toNat (Chan.make n.toNat)
    (by simp [Chan.make])
  refine ⟨{ ch := ch1 }, ?_, ?_, ?_⟩
  · unfold newChanSem
    rw [if_neg (by omega), h1]
  · refine ⟨?_, ?_, ?_⟩
    · simp only [h3, Chan.make]
      omega
    · simp only [h4, Chan.make]
    · simp only [h2, h3, Chan.make, List.length_nil]
      omega
  · simp only [chanSem.available, h2, Chan.make, List.length_nil]
    omega

theorem release_spec (n : Int) (s : chanSem) (hinv : SemInv n s) :
    (s.available < n → ∃ s1, s.Release = some s1 ∧ SemInv n s1 ∧
      s1.available = s.available + 1) ∧
    (∀ s1, s.Release = some s1 → SemInv n s1 ∧ s1.available = s.available + 1) := by
  obtain ⟨hcap, hcl, hle⟩ := hinv
  have hsome : ∀ s1, s.Release = some s1 → SemInv n s1 ∧ s1.available = s.available + 1 := by
    intro s1 h
    unfold chanSem.Release Chan.send at h
    by_cases hlt : s.ch.buf.length < s.ch.cap
    · rw [if_pos hlt] at h
      simp only [Option.some.injEq] at h
      subst h
      refine ⟨⟨hcap, hcl, ?_⟩, ?_⟩
      · simp only [List.length_append, List.length_singleton]
        omega
      · simp only [chanSem.available, List.length_append, List.length_singleton]
        omega
    · rw [if_neg hlt] at h
      simp at h
  refine ⟨?_, hsome⟩
  intro hav
  have hlt : s.ch.buf.length < s.ch.cap := by
    simp only [chanSem.available] at hav
    omega
  have hrel : s.Release = some { ch := { s.ch with buf := s.ch.buf ++ [()] } } := by
    simp [chanSem.Release, Chan.send, hlt]
  exact ⟨_, hrel, hsome _ hrel⟩

theorem acquire_spec (n : Int) (s s1 : chanSem) (cd tr got : Bool) (hinv : SemInv n s)
    (h : s.Acquire cd tr = some (got, s1)) :
    SemInv n s1 ∧ got = tr ∧ s1.available = s.available - (if tr then 1 else 0) := by
  obtain ⟨hcap, hcl, hle⟩ := hinv
  unfold chanSem.Acquire at h
  cases tr with
  | true =>
    simp only [if_true] at h
    unfold Chan.recv at h
    cases hb : s.ch.buf with
    | nil =>
      rw [hb] at h
      simp [hcl] at h
    | cons u rest =>
      rw [hb] at h
      simp only [Option.some.injEq, Prod.mk.injEq] at h
      obtain ⟨hg, hs⟩ := h
      subst hg hs
      refine ⟨⟨hcap, hcl, ?_⟩, rfl, ?_⟩
      · simp only
        rw [hb] at hle
        simp only [List.length_cons] at hle
        omega
      · simp only [chanSem.available, hb, List.length_cons, if_true]
        omega
  | false =>
    simp only [Bool.false_eq_true, if_false] at h
    by_cases hcd : cd = true
    · rw [if_pos hcd] at h
      simp only [Option.some.injEq, Prod.mk.injEq] at h
      obtain ⟨hg, hs⟩ := h
      subst hg hs
      exact ⟨⟨hcap, hcl, hle⟩, rfl, by simp⟩
    · rw [if_neg hcd] at h
      simp at h

theorem semStep_spec (n : Int) (s s1 : chanSem) (op : SemOp) (r : SemRes) (hinv : SemInv n s)
    (h : semStep s op = some (s1, r)) :
    SemInv n s1 ∧ s1.available = s.available - acquires [r] + releases [r] := by
  cases op with
  | acquire cd tr =>
    simp only [semStep] at h
    cases ha : s.Acquire cd tr with
    | none => simp [ha] at h
    | some res =>
      obtain ⟨got, s2⟩ := res
      rw [ha] at h
      simp only [Option.some.injEq, Prod.mk.injEq] at h
      obtain ⟨hs, hr⟩ := h
      subst hs hr
      obtain ⟨h1, h2, h3⟩ := acquire_spec n s s2 cd tr got hinv ha
      refine ⟨h1, ?_⟩
      rw [h3, h2]
      cases tr <;> simp [acquires, releases]
  | release =>
    simp only [semStep] at h
    cases hr : s.Release with
    | none => simp [hr] at h
    | some s2 =>
      rw [hr] at h
      simp only [Option.some.injEq, Prod.mk.injEq] at h
      obtain ⟨hs, hres⟩ := h
      subst hs hres
      obtain ⟨h1, h2⟩ := (release_spec n s hinv).2 s2 hr
      refine ⟨h1, ?_⟩
      rw [h2]
      simp [acquires, releases]
  | handoff =>
    simp only [semStep] at h
    by_cases he : s.ch.buf.isEmpty = true
    · rw [if_pos he] at h
      simp only [Option.some.injEq, Prod.mk.injEq] at h
      obtain ⟨hs, hres⟩ := h
      subst hs hres
      exact ⟨hinv, by simp [acquires, releases]⟩
    · rw [if_neg he] at h
      simp at h

theorem acquires_cons (r : SemRes) (rs : List SemRes) :
    acquires (r :: rs) = acquires [r] + acquires rs := by
  cases r with
  | acquired got =>
    cases got
    · simp [acquires]
    · simp [acquires]; omega
  | released => simp [acquires]
  | handedOver => simp [acquires]; omega

theorem releases_cons (r : SemRes) (rs : List SemRes) :
    releases (r :: rs) = releases [r] + releases rs := by
  cases r with
  | acquired got => simp [releases]
  | released => simp [releases]; omega
  | handedOver => simp [releases]; omega

theorem semRun_spec (n : Int) (ops : List SemOp) :
    ∀ (s s1 : chanSem) (rs : List SemRes), SemInv n s → semRun ops s = some (s1, rs) →
      SemInv n s1 ∧ s1.available = s.available - acquires rs + releases rs := by
  induction ops with
  | nil =>
    intro s s1 rs hinv h
    simp only [semRun, Option.some.injEq, Prod.mk.injEq] at h
    obtain ⟨hs, hr⟩ := h
    subst hs hr
    exact ⟨hinv, by simp [acquires, releases]⟩
  | cons op ops ih =>
    intro s s1 rs hinv h
    simp only [semRun] at h
    cases hs : semStep s op with
    | none => simp [hs] at h
    | some res =>
      obtain ⟨s2, r⟩ := res
      rw [hs] at h
      simp only at h
      cases hrun : semRun ops s2 with
      | none => simp [hrun] at h
      | some res2 =>
        obtain ⟨s3, rs3⟩ := res2
        rw [hrun] at h
        simp only [Option.some.injEq, Prod.mk.injEq] at h
        obtain ⟨hs3, hrs⟩ := h
        subst hs3 hrs
        obtain ⟨h1, h2⟩ := semStep_spec n s s2 op r hinv hs
        obtain ⟨h3, h4⟩ := ih s2 s3 rs3 h1 hrun
        refine ⟨h3, ?_⟩
        rw [h4, h2, acquires_cons r rs3, releases_cons r rs3]
        omega

/-- A run followed by one more operation that completes. -/
theorem semRun_snoc (ops : List SemOp) (op : SemOp) :
    ∀ (s s1 s2 : chanSem) (rs : List SemRes) (r : SemRes),
      semRun ops s = some (s1, rs) → semStep s1 op = some (s2, r) →
      semRun (ops ++ [op]) s = some (s2, rs ++ [r]) := by
  induction ops with
  | nil =>
    intro s s1 s2 rs r h hstep
    simp only [semRun, Option.some.injEq, Prod.mk.injEq] at h
    obtain ⟨hs, hr⟩ := h
    subst hs hr
    simp [semRun, hstep]
  | cons op0 ops ih =>
    intro s s1 s2 rs r h hstep
    simp only [semRun] at h
    cases hs : semStep s op0 with
    | none => simp [hs] at h
    | some res =>
      obtain ⟨s3, r0⟩ := res
      rw [hs] at h
      simp only at h
      cases hrun : semRun ops s3 with
      | none => simp [hrun] at h
      | some res2 =>
        obtain ⟨s4, rs4⟩ := res2
        rw [hrun] at h
        simp only [Option.some.injEq, Prod.mk.injEq] at h
        obtain ⟨hs4, hrs⟩ := h
        subst hs4 hrs
        have := ih s3 s4 s2 rs4 r hrun hstep
        simp [semRun, hs, this]

/-- C8: for `n >= 0`, `newChanSem n` returns a pool with no permit acquired.
After any sequence of completed `Acquire` and `Release` operations the
permits acquired (`n` minus the permits in the pool) are the `Acquire`s that
returned `true` minus the `Release`s, and lie between 0 and `n`.  From there:
with an acquired permit outstanding `Release` completes and returns it; with
a permit in the pool `Acquire` completes, returns `true` and takes it; with no
permit in the pool `Acquire` does not take one; and an `Acquire` that returns
`true` has taken a permit, one that returns `false` has taken none and saw
the cancellation. -/
theorem C8_permits_bounded (n : Int) (hn : 0 ≤ n) :
    ∃ s0, newChanSem n = some s0 ∧ s0.acquired n = 0 ∧
      ∀ (ops : List SemOp) (s : chanSem) (rs : List SemRes), semRun ops s0 = some (s, rs) →
        0 ≤ s.acquired n ∧ s.acquired n ≤ n ∧
        s.acquired n = acquires rs - releases rs ∧
        (0 < acquires rs - releases rs →
          ∃ s1, s.Release = some s1 ∧ s1.acquired n = s.acquired n - 1 ∧
            semRun (ops ++ [.release]) s0 = some (s1, rs ++ [.released])) ∧
        (s.acquired n < n → ∀ cd : Bool,
          ∃ s1, s.Acquire cd true = some (true, s1) ∧ s1.acquired n = s.acquired n + 1 ∧
            semRun (ops ++ [.acquire cd true]) s0 = some (s1, rs ++ [.acquired true])) ∧
        (s.acquired n = n → ∀ cd : Bool, s.Acquire cd true = none) ∧
        (∀ (cd tr got : Bool) (s1 : chanSem), s.Acquire cd tr = some (got, s1) →
          (got = true → s1.acquired n = s.acquired n + 1) ∧
          (got = false → s1 = s ∧ cd = true)) := by
  obtain ⟨s0, h0, hinv0, hav0⟩ := newChanSem_spec n hn
  refine ⟨s0, h0, by simp [chanSem.acquired, hav0], ?_⟩
  intro ops s rs hrun
  obtain ⟨hinv, hav⟩ := semRun_spec n ops s0 s rs hinv0 hrun
  have hinv2 := hinv
  obtain ⟨hcap, hcl, hle⟩ := hinv2
  have hnn : (0 : Int) ≤ s.available := by simp [chanSem.available]
  have hup : s.available ≤ n := by
    simp only [chanSem.available]
    omega
  refine ⟨?_, ?_, ?_, ?_, ?_, ?_, ?_⟩
  · simp only [chanSem.acquired]; omega
  · simp only [chanSem.acquired]; omega
  · simp only [chanSem.acquired]; omega
  · intro hpos
    obtain ⟨s1, h1, _, h3⟩ := (release_spec n s hinv).1 (by omega)
    refine ⟨s1, h1, by simp only [chanSem.acquired]; omega, ?_⟩
    exact semRun_snoc ops .release s0 s s1 rs .released hrun (by simp [semStep, h1])
  · intro hlt cd
    have hpos : 0 < s.ch.buf.length := by
      simp only [chanSem.acquired, chanSem.available] at hlt
      omega
    cases hb : s.ch.buf with
    | nil => rw [hb] at hpos; simp at hpos
    | cons u rest =>
      have hacq : s.Acquire cd true
          = some (true, { ch := { s.ch with buf := rest } }) := by
        simp [chanSem.Acquire, Chan.recv, hb]
      refine ⟨_, hacq, ?_, ?_⟩
      · obtain ⟨_, _, h3⟩ := acquire_spec n s _ cd true true hinv hacq
        simp only [chanSem.acquired, h3, if_true]
        omega
      · exact semRun_snoc ops (.acquire cd true) s0 s _ rs (.acquired true) hrun
          (by simp [semStep, hacq])
  · intro heq cd
    have hz : s.ch.buf = [] := by
      simp only [chanSem.acquired, chanSem.available] at heq
      have : s.ch.buf.length = 0 := by omega
      exact List.length_eq_zero.mp this
    simp [chanSem.Acquire, Chan.recv, hz, hcl]
  · intro cd tr got s1 hacq
    obtain ⟨_, h2, h3⟩ := acquire_spec n s s1 cd tr got hinv hacq
    constructor
    · intro hg
      rw [hg] at h2
      rw [← h2] at h3
      simp only [chanSem.acquired, h3, if_true]
      omega
    · intro hg
      rw [hg] at h2
      rw [← h2] at hacq
      simp only [chanSem.Acquire, Bool.false_eq_true, if_false] at hacq
      by_cases hcd : cd = true
      · rw [if_pos hcd] at hacq
        simp only [Option.some.injEq, Prod.mk.injEq] at hacq
        exact ⟨hacq.2.symm, hcd⟩
      · rw [if_neg hcd] at hacq
        simp at hacq

/-- C8 for a pool of 2 permits: `newChanSem 2` returns the pool with its two
permits; two `Acquire`s and a `Release` complete, the `Acquire`s return
`true`, one permit is then acquired, and a further `Release` completes and
leaves none acquired. -/
theorem C8_witness :
    newChanSem 2 = some exSem ∧
    semRun [.acquire false true, .acquire false true, .release] exSem
      = some ({ ch := { cap := 2, buf := [()], closed := false } },
          [.acquired true, .acquired true, .released]) ∧
    (({ ch := { cap := 2, buf := [()], closed := false } } : chanSem).acquired 2 = 1) ∧
    ∃ s1, ({ ch := { cap := 2, buf := [()], closed := false } } : chanSem).Release = some s1 ∧
      s1.acquired 2 = 0 := by
  have hnew : newChanSem 2 = some exSem := by decide
  have hrun : semRun [.acquire false true, .acquire false true, .release] exSem
      = some ({ ch := { cap := 2, buf := [()], closed := false } },
          [.acquired true, .acquired true, .released]) := by decide
  obtain ⟨s0, h0, _, hall⟩ := C8_permits_bounded 2 (by decide)
  have hs0 : s0 = exSem := by
    rw [hnew] at h0
    exact (Option.some.inj h0).symm
  subst hs0
  obtain ⟨_, _, h3, h4, _⟩ := hall _ _ _ hrun
  have hval : acquires [.acquired true, .acquired true, .released]
      - releases [.acquired true, .acquired true, .released] = 1 := by decide
  rw [hval] at h3 h4
  obtain ⟨s1, h5, h6, _⟩ := h4 (by decide)
  exact ⟨hnew, hrun, h3, s1, h5, by rw [h6, h3]; rfl⟩

theorem popped_cnt (p : Car → Bool) (inp inp1 : stageInput) (r : ChanRef) (c : Car)
    (hp : Popped inp r c inp1) : cntQ p inp = cntQ p inp1 + cntO p (some c) := by
  obtain ⟨hb, _, hother⟩ := hp
  cases r with
  | inA =>
    have hB := hother .inB (by decide)
    have hC := hother .inC (by decide)
    simp only [stageInput.get] at hb hB hC
    simp only [cntQ, cntO, hb, hB, hC, List.countP_cons]
    omega
  | inB =>
    have hA := hother .inA (by decide)
    have hC := hother .inC (by decide)
    simp only [stageInput.get] at hb hA hC
    simp only [cntQ, cntO, hb, hA, hC, List.countP_cons]
    omega
  | inC =>
    have hA := hother .inA (by decide)
    have hB := hother .inB (by decide)
    simp only [stageInput.get] at hb hA hB
    simp only [cntQ, cntO, hb, hA, hB, List.countP_cons]
    omega

theorem send_cnt (p : Car → Bool) (cd ts : Bool) (car : Car) (out out1 : stageInput)
    (h : sendByCategory cd ts car out = some out1) :
    cntQ p out1 ≤ cntQ p out + cntO p (some car) ∧
    (ts = true → cntQ p out1 = cntQ p out + cntO p (some car)) := by
  cases ts with
  | false =>
    unfold sendByCategory at h
    simp only [Bool.false_eq_true, if_false] at h
    by_cases hcd : cd = true
    · rw [if_pos hcd] at h
      simp only [Option.some.injEq] at h
      subst h
      exact ⟨Nat.le_add_right _ _, by intro hh; simp at hh⟩
    · rw [if_neg hcd] at h
      simp at h
  | true =>
    obtain ⟨hb, hother⟩ := sendByCategory_spec cd car out out1 h
    have : cntQ p out1 = cntQ p out + cntO p (some car) := by
      cases hd : dstOf car with
      | inA =>
        rw [hd] at hb hother
        have hB := hother .inB (by decide)
        have hC := hother .inC (by decide)
        simp only [stageInput.get] at hb hB hC
        simp only [cntQ, cntO, hb, hB, hC, List.countP_append, List.countP_cons,
          List.countP_nil]
        omega
      | inB =>
        rw [hd] at hb hother
        have hA := hother .inA (by decide)
        have hC := hother .inC (by decide)
        simp only [stageInput.get] at hb hA hC
        simp only [cntQ, cntO, hb, hA, hC, List.countP_append, List.countP_cons,
          List.countP_nil]
        omega
      | inC =>
        rw [hd] at hb hother
        have hA := hother .inA (by decide)
        have hB := hother .inB (by decide)
        simp only [stageInput.get] at hb hA hB
        simp only [cntQ, cntO, hb, hA, hB, List.countP_append, List.countP_cons,
          List.countP_nil]
        omega
    exact ⟨Nat.le_of_eq this, fun _ => this⟩

theorem held_handlerEntry (k : StageId) (c : Car) : (handlerEntry k c).held = some c := by
  unfold handlerEntry
  split <;> rfl

theorem afterPick_cnt (p : Car → Bool) (k : StageId) (it : Iter) :
    (∀ c, it = .ret c true → cntO p (afterPick k it).held = cntO p (some c)) ∧
    ((∀ c, it ≠ .ret c true) → cntO p (afterPick k it).held = 0) := by
  cases it with
  | again => exact ⟨by intro c hc; simp at hc, fun _ => rfl⟩
  | ret c ok =>
    cases ok with
    | false => exact ⟨by intro c hc; simp at hc, fun _ => rfl⟩
    | true =>
      refine ⟨?_, fun hno => absurd rfl (hno c)⟩
      intro c1 hc
      simp only [Iter.ret.injEq, and_true] at hc
      subst hc
      simp only [afterPick, held_handlerEntry]

theorem set_empty_cnt (p : Car → Bool) (q : stageInput) (r : ChanRef) :
    cntQ p (q.set r { q.get r with buf := [] }) ≤ cntQ p q := by
  cases r <;> simp [cntQ, stageInput.set, stageInput.get]

/-- A step of a stage makes no car: the cars within its reach never grow in
number; stages 1 to 3 leave `done` alone and stage 4 the output queues. -/
theorem stageStep_cnt (p : Car → Bool) (k : StageId) (jit : Int) (cur : Int) (cancelled : Bool)
    (o : Obs) (v v1 : StageView) (h : stageStep k jit cur cancelled o v = some v1) :
    cntView p v1 ≤ cntView p v ∧ (k ≠ .s4 → v1.done = v.done) ∧ (k = .s4 → v1.out = v.out) ∧
    v1.done.closed = v.done.closed := by
  unfold stageStep at h
  by_cases hg : (o.getDone && !cancelled) = true
  · rw [if_pos hg] at h
    simp at h
  · rw [if_neg hg] at h
    cases hpc : v.pc with
    | picking =>
      rw [hpc] at h
      simp only at h
      cases hp : pickNextPoll (obsEnv cur cancelled o) v.inp with
      | none => simp [hp] at h
      | some pr =>
        obtain ⟨pl, inp1⟩ := pr
        rw [hp] at h
        have hps := pickNextPoll_spec _ _ _ _ hp
        cases pl with
        | wait cases =>
          simp only [Option.some.injEq] at h
          subst h
          have hinp : inp1 = v.inp := hps.2.1 (by intro c hc; simp at hc)
          subst hinp
          refine ⟨?_, fun _ => rfl, fun _ => rfl, rfl⟩
          simp [cntView, StagePC.held, cntO]
        | done it =>
          simp only [Option.some.injEq] at h
          subst h
          refine ⟨?_, fun _ => rfl, fun _ => rfl, rfl⟩
          have hap := afterPick_cnt p k it
          by_cases hcar : ∃ c, it = .ret c true
          · obtain ⟨c, hc⟩ := hcar
            obtain ⟨_, cat, r, _, _, hpop⟩ := hps.1 c (by rw [hc])
            have := popped_cnt p _ _ _ _ hpop
            have h2 := hap.1 c hc
            have h0 : cntO p v.pc.held = 0 := by rw [hpc]; rfl
            simp only [cntView]
            omega
          · have hno : ∀ c, it ≠ .ret c true := fun c hc => hcar ⟨c, hc⟩
            have hinp : inp1 = v.inp := hps.2.1 (by
              intro c hc
              simp only [Poll.done.injEq] at hc
              exact hno c hc)
            subst hinp
            have h2 := hap.2 hno
            have h0 : cntO p v.pc.held = 0 := by rw [hpc]; rfl
            simp only [cntView]
            omega
    | waiting cases =>
      rw [hpc] at h
      simp only at h
      cases hp : pickNextWait (obsEnv cur cancelled o) cases v.inp with
      | none => simp [hp] at h
      | some pr =>
        obtain ⟨it, inp1⟩ := pr
        rw [hp] at h
        have hps := pickNextWait_popped _ _ _ _ _ hp
        simp only [Option.some.injEq] at h
        subst h
        refine ⟨?_, fun _ => rfl, fun _ => rfl, rfl⟩
        have hap := afterPick_cnt p k it
        by_cases hcar : ∃ c, it = .ret c true
        · obtain ⟨c, hc⟩ := hcar
          obtain ⟨r, hpop⟩ := hps.1 c hc
          have := popped_cnt p _ _ _ _ hpop
          have h2 := hap.1 c hc
          have h0 : cntO p v.pc.held = 0 := by rw [hpc]; rfl
          simp only [cntView]
          omega
        · have hno : ∀ c, it ≠ .ret c true := fun c hc => hcar ⟨c, hc⟩
          have hinp : inp1 = v.inp := hps.2 hno
          subst hinp
          have h2 := hap.2 hno
          have h0 : cntO p v.pc.held = 0 := by rw [hpc]; rfl
          simp only [cntView]
          omega
    | checking car =>
      rw [hpc] at h
      simp only at h
      split at h <;>
      · simp only [Option.some.injEq] at h
        subst h
        refine ⟨?_, fun _ => rfl, fun _ => rfl, rfl⟩
        simp [cntView, hpc, StagePC.held, cntO]
        try omega
    | acquiring car =>
      rw [hpc] at h
      simp only at h
      cases ha : v.sem.Acquire cancelled (o.choice != .done) with
      | none => simp [ha] at h
      | some res =>
        obtain ⟨got, sem1⟩ := res
        rw [ha] at h
        cases got <;>
        · simp only [Option.some.injEq] at h
          subst h
          refine ⟨?_, fun _ => rfl, fun _ => rfl, rfl⟩
          simp [cntView, hpc, StagePC.held, cntO]
          try omega
    | serving car =>
      rw [hpc] at h
      simp only at h
      cases hj : sleepWithJitter jit with
      | none => simp [hj] at h
      | some u =>
        rw [hj] at h
        simp only [Option.some.injEq] at h
        subst h
        refine ⟨?_, fun _ => rfl, fun _ => rfl, rfl⟩
        by_cases hk : k = .s1 <;> simp [cntView, hpc, StagePC.held, hk]
    | releasing car =>
      rw [hpc] at h
      simp only at h
      cases hr : v.sem.Release with
      | none => simp [hr] at h
      | some sem1 =>
        rw [hr] at h
        simp only [Option.some.injEq] at h
        subst h
        refine ⟨?_, fun _ => rfl, fun _ => rfl, rfl⟩
        by_cases hk : k = .s4 <;> simp [cntView, hpc, StagePC.held, hk]
    | releasingPlaza car =>
      rw [hpc] at h
      simp only at h
      cases hr : v.plazas.Release with
      | none => simp [hr] at h
      | some sem1 =>
        rw [hr] at h
        simp only [Option.some.injEq] at h
        subst h
        refine ⟨?_, fun _ => rfl, fun _ => rfl, rfl⟩
        simp [cntView, hpc, StagePC.held]
    | sending car =>
      rw [hpc] at h
      simp only at h
      by_cases hk : k = .s4
      · rw [if_pos hk] at h
        cases hs : v.done.send car with
        | none => simp [hs] at h
        | some d1 =>
          rw [hs] at h
          simp only [Option.some.injEq] at h
          subst h
          unfold Chan.send at hs
          split at hs
          · simp only [Option.some.injEq] at hs
            subst hs
            refine ⟨?_, fun hne => absurd hk hne, fun _ => rfl, rfl⟩
            simp only [cntView, hpc, StagePC.held, cntO, List.countP_append, List.countP_cons,
              List.countP_nil]
            omega
          · simp at hs
      · rw [if_neg hk] at h
        cases hs : sendByCategory cancelled (o.choice != .done) car v.out with
        | none => simp [hs] at h
        | some out1 =>
          rw [hs] at h
          simp only [Option.some.injEq] at h
          subst h
          refine ⟨?_, fun _ => rfl, fun hh => absurd hh hk, rfl⟩
          have := (send_cnt p _ _ _ _ _ hs).1
          have hz : ∀ b : Bool, cntO p
              (StagePC.held (if b = true then StagePC.handing car else StagePC.picking)) = 0 := by
            intro b
            cases b <;> rfl
          have h0 : cntO p v.pc.held = cntO p (some car) := by rw [hpc]; rfl
          simp only [cntView, hz]
          omega
    | handing car =>
      rw [hpc] at h
      simp only at h
      by_cases hk : k = .s4
      · rw [if_pos hk] at h
        simp at h
      · rw [if_neg hk] at h
        by_cases he : (v.out.get (dstOf car)).buf.isEmpty = true
        · rw [if_pos he] at h
          simp only [Option.some.injEq] at h
          subst h
          refine ⟨?_, fun _ => rfl, fun _ => rfl, rfl⟩
          have h0 : cntO p v.pc.held = 0 := by rw [hpc]; rfl
          have h1 : cntO p StagePC.picking.held = 0 := rfl
          simp only [cntView]
          omega
        · rw [if_neg he] at h
          split at h
          · simp only [Option.some.injEq] at h
            subst h
            refine ⟨?_, fun _ => rfl, fun hh => absurd hh hk, rfl⟩
            have := set_empty_cnt p v.out (dstOf car)
            dsimp only at this
            have h0 : cntO p v.pc.held = 0 := by rw [hpc]; rfl
            have h1 : cntO p StagePC.picking.held = 0 := rfl
            simp only [cntView]
            omega
          · simp at h
    | exited =>
      rw [hpc] at h
      simp at h

theorem mapGet_mapInc (m : List (Category × Int)) (k k2 : Category) :
    mapGet (mapInc m k) k2 = mapGet m k2 + (if k = k2 then 1 else 0) := by
  induction m with
  | nil =>
    simp only [mapInc, mapGet]
    split <;> simp
  | cons kv rest ih =>
    obtain ⟨k1, v⟩ := kv
    simp only [mapInc]
    by_cases h1 : k1 = k
    · rw [if_pos h1]
      simp only [mapGet]
      by_cases h2 : k1 = k2
      · have : k = k2 := h1 ▸ h2
        simp [h2, this]
      · have : ¬ k = k2 := fun hh => h2 (h1.trans hh)
        simp [h2, this]
    · rw [if_neg h1]
      simp only [mapGet]
      by_cases h2 : k1 = k2
      · have : ¬ k = k2 := fun hh => h1 (h2.trans hh.symm)
        simp [h2, this]
      · simp [h2, ih]

/-- A step of a generator keeps it within its loop, and the cars it holds or
has queued change as the cars it has made. -/
theorem genStep_spec (cat : Category) (n : Int) (cancelled vd : Bool) (g g1 : Gen)
    (id id1 : Int) (out out1 : Chan Car) (hok : GenOK cat n g)
    (h : genStep cat n cancelled vd g id out = some (g1, id1, out1)) :
    GenOK cat n g1 ∧
    (∀ p : Car → Bool, (∀ c, c.Category = cat → p c = true) →
      ((cntO p g1.pc.held + out1.buf.countP p : Nat) : Int)
        - ((cntO p g.pc.held + out.buf.countP p : Nat) : Int) = g1.made - g.made) ∧
    (∀ p : Car → Bool, (∀ c, c.Category = cat → p c = false) →
      cntO p g1.pc.held + out1.buf.countP p = cntO p g.pc.held + out.buf.countP p) := by
  obtain ⟨h0, hle, hheld, hcat⟩ := hok
  unfold genStep at h
  cases hpc : g.pc with
  | top =>
    rw [hpc] at h
    simp only at h
    by_cases hlt : g.i < n
    · rw [if_pos hlt] at h
      simp only [Option.some.injEq, Prod.mk.injEq] at h
      obtain ⟨hg, _, hout⟩ := h
      subst hg hout
      refine ⟨⟨h0, hle, fun _ => hlt, ?_⟩, ?_, ?_⟩
      · intro c hc
        simp only [GenPC.item, GenPC.held, Option.some.injEq] at hc
        rw [← hc]
      · intro p hp
        have hpc1 : p { ID := id + 1, Category := cat } = true := hp _ rfl
        simp [Gen.made, hpc, GenPC.item, GenPC.held, cntO, hpc1]
      · intro p hp
        have hpc1 : p { ID := id + 1, Category := cat } = false := hp _ rfl
        simp [hpc, GenPC.held, cntO, hpc1]
    · rw [if_neg hlt] at h
      simp only [Option.some.injEq, Prod.mk.injEq] at h
      obtain ⟨hg, _, hout⟩ := h
      subst hg hout
      refine ⟨⟨h0, hle, by simp [GenPC.item, GenPC.held], by simp [GenPC.item, GenPC.held]⟩,
        ?_, ?_⟩
      · intro p _
        simp [Gen.made, hpc, GenPC.item, GenPC.held, cntO]
      · intro p _
        simp [hpc, GenPC.held, cntO]
  | sleeping car =>
    rw [hpc] at h
    simp only at h
    have hlt : g.i < n := hheld (by rw [hpc]; rfl)
    have hcar : car.Category = cat := hcat car (by rw [hpc]; rfl)
    by_cases hvd : vd = true
    · rw [if_pos hvd] at h
      by_cases hcd : cancelled = true
      · rw [if_pos hcd] at h
        simp only [Option.some.injEq, Prod.mk.injEq] at h
        obtain ⟨hg, _, hout⟩ := h
        subst hg hout
        refine ⟨⟨h0, hle, by simp [GenPC.item, GenPC.held], by simp [GenPC.item, GenPC.held]⟩,
          ?_, ?_⟩
        · intro p hp
          have hpc1 : p car = true := hp _ hcar
          simp [Gen.made, hpc, GenPC.item, GenPC.held, cntO, hpc1]
        · intro p hp
          have hpc1 : p car = false := hp _ hcar
          simp [hpc, GenPC.held, cntO, hpc1]
      · rw [if_neg hcd] at h
        simp at h
    · rw [if_neg hvd] at h
      simp only [Option.some.injEq, Prod.mk.injEq] at h
      obtain ⟨hg, _, hout⟩ := h
      subst hg hout
      refine ⟨⟨h0, hle, fun _ => hlt, ?_⟩, ?_, ?_⟩
      · intro c hc
        simp only [GenPC.item, GenPC.held, Option.some.injEq] at hc
        rw [← hc]
        exact hcar
      · intro p _
        simp [Gen.made, hpc, GenPC.item, GenPC.held, cntO]
      · intro p _
        simp [hpc, GenPC.held, cntO]
  | sending car =>
    rw [hpc] at h
    simp only at h
    have hlt : g.i < n := hheld (by rw [hpc]; rfl)
    have hcar : car.Category = cat := hcat car (by rw [hpc]; rfl)
    by_cases hvd : vd = true
    · rw [if_pos hvd] at h
      by_cases hcd : cancelled = true
      · rw [if_pos hcd] at h
        simp only [Option.some.injEq, Prod.mk.injEq] at h
        obtain ⟨hg, _, hout⟩ := h
        subst hg hout
        refine ⟨⟨h0, hle, by simp [GenPC.item, GenPC.held], by simp [GenPC.item, GenPC.held]⟩,
          ?_, ?_⟩
        · intro p hp
          have hpc1 : p car = true := hp _ hcar
          simp [Gen.made, hpc, GenPC.item, GenPC.held, cntO, hpc1]
        · intro p hp
          have hpc1 : p car = false := hp _ hcar
          simp [hpc, GenPC.held, cntO, hpc1]
      · rw [if_neg hcd] at h
        simp at h
    · rw [if_neg hvd] at h
      cases hs : out.sendTo car with
      | none => simp [hs] at h
      | some o1 =>
        rw [hs] at h
        have hbuf := (sendTo_spec _ _ _ hs).1
        by_cases hcap : (out.cap == 0) = true
        · simp only [hcap, if_true, Option.some.injEq, Prod.mk.injEq] at h
          obtain ⟨hg, _, hout⟩ := h
          subst hg hout
          refine ⟨⟨h0, hle, fun _ => hlt, ?_⟩, ?_, ?_⟩
          · intro c hc
            simp only [GenPC.item, Option.some.injEq] at hc
            rw [← hc]
            exact hcar
          · intro p hp
            have hpc1 : p car = true := hp _ hcar
            simp only [Gen.made, hpc, GenPC.item, GenPC.held, cntO, hpc1, hbuf,
              List.countP_append, List.countP_cons, List.countP_nil, Option.isSome]
            simp
            omega
          · intro p hp
            have hpc1 : p car = false := hp _ hcar
            simp [hpc, GenPC.held, cntO, hpc1, hbuf]
        · simp only [hcap, Bool.false_eq_true, if_false, Option.some.injEq, Prod.mk.injEq] at h
          obtain ⟨hg, _, hout⟩ := h
          subst hg hout
          refine ⟨⟨by simp only; omega, Or.inl (by simp only; omega),
            by simp [GenPC.item, GenPC.held], by simp [GenPC.item, GenPC.held]⟩, ?_, ?_⟩
          · intro p hp
            have hpc1 : p car = true := hp _ hcar
            simp only [Gen.made, hpc, GenPC.item, GenPC.held, cntO, hpc1, hbuf,
              List.countP_append, List.countP_cons, List.countP_nil, Option.isSome]
            simp
            omega
          · intro p hp
            have hpc1 : p car = false := hp _ hcar
            simp [hpc, GenPC.held, cntO, hpc1, hbuf]
  | handing car =>
    rw [hpc] at h
    simp only at h
    have hlt : g.i < n := hheld (by rw [hpc]; rfl)
    have hcar : car.Category = cat := hcat car (by rw [hpc]; rfl)
    by_cases he : out.buf.isEmpty = true
    · rw [if_pos he] at h
      simp only [Option.some.injEq, Prod.mk.injEq] at h
      obtain ⟨hg, _, hout⟩ := h
      subst hg hout
      refine ⟨⟨by simp only; omega, Or.inl (by simp only; omega),
        by simp [GenPC.item, GenPC.held], by simp [GenPC.item, GenPC.held]⟩, ?_, ?_⟩
      · intro p _
        simp [Gen.made, hpc, GenPC.item, GenPC.held, cntO]
      · intro p _
        simp [hpc, GenPC.held, cntO]
    · rw [if_neg he] at h
      split at h
      · rename_i hc
        simp only [Bool.and_eq_true, decide_eq_true_eq] at hc
        obtain ⟨_, hb⟩ := hc
        simp only [Option.some.injEq, Prod.mk.injEq] at h
        obtain ⟨hg, _, hout⟩ := h
        subst hg hout
        refine ⟨⟨h0, hle, by simp [GenPC.item, GenPC.held], by simp [GenPC.item, GenPC.held]⟩,
          ?_, ?_⟩
        · intro p hp
          have hpc1 : p car = true := hp _ hcar
          simp [Gen.made, hpc, GenPC.item, GenPC.held, cntO, hpc1, hb]
        · intro p hp
          have hpc1 : p car = false := hp _ hcar
          simp [hpc, GenPC.held, cntO, hpc1, hb]
      · simp at h
  | exited =>
    rw [hpc] at h
    simp at h

/-- A step of a stage leaves the generators and the collecting loop as they
are and makes no car. -/
theorem simStep_stage (cfg : Config) (s s1 : Sys) (k : StageId) (o : Obs)
    (h : simStep cfg s (.stage k o) = some s1) :
    (∀ p : Car → Bool, cntSys p s1 ≤ cntSys p s) ∧
    s1.genA = s.genA ∧ s1.genB = s.genB ∧ s1.genC = s.genC ∧ s1.metrics = s.metrics ∧
    s1.i = s.i ∧ s1.returned = s.returned ∧ s1.cancelled = s.cancelled ∧
    s1.done.closed = s.done.closed := by
  simp only [simStep] at h
  cases hs : stageStep k cfg.MaxJitterSeconds s.sm.current s.cancelled o (getView k s) with
  | none => simp [hs] at h
  | some v1 =>
    rw [hs] at h
    simp only [Option.some.injEq] at h
    subst h
    refine ⟨?_, ?_⟩
    · intro p
      obtain ⟨hc, hd, ho, _⟩ := stageStep_cnt p k _ _ _ _ _ _ hs
      cases k with
      | s1 =>
        have hd1 := hd (by decide)
        simp only [getView] at hd1
        simp only [cntView, getView] at hc
        simp only [cntSys, putView]
        rw [hd1] at hc
        omega
      | s2 =>
        have hd1 := hd (by decide)
        simp only [getView] at hd1
        simp only [cntView, getView] at hc
        simp only [cntSys, putView]
        rw [hd1] at hc
        omega
      | s3 =>
        have hd1 := hd (by decide)
        simp only [getView] at hd1
        simp only [cntView, getView] at hc
        simp only [cntSys, putView]
        rw [hd1] at hc
        omega
      | s4 =>
        have ho1 := ho rfl
        simp only [getView] at ho1
        simp only [cntView, getView] at hc
        simp only [cntSys, putView]
        rw [ho1] at hc
        omega
    · have hcl := (stageStep_cnt (fun _ => true) k _ _ _ _ _ _ hs).2.2.2
      cases k with
      | s1 => exact ⟨rfl, rfl, rfl, rfl, rfl, rfl, rfl, rfl⟩
      | s2 => exact ⟨rfl, rfl, rfl, rfl, rfl, rfl, rfl, rfl⟩
      | s3 => exact ⟨rfl, rfl, rfl, rfl, rfl, rfl, rfl, rfl⟩
      | s4 => exact ⟨rfl, rfl, rfl, rfl, rfl, rfl, rfl, hcl⟩

theorem simStep_genA (cfg : Config) (s s1 : Sys) (vd : Bool) (hinv : SimInv cfg s)
    (h : simStep cfg s (.gen .inA vd) = some s1) : SimInv cfg s1 := by
  simp only [simStep] at h
  cases hg : genStep CatA cfg.NumA s.cancelled vd s.genA s.globalCarID s.p1.A with
  | none => simp [hg] at h
  | some res =>
    obtain ⟨g1, id1, out1⟩ := res
    rw [hg] at h
    simp only [Option.some.injEq] at h
    subst h
    obtain ⟨hok1, hpos, hneg⟩ := genStep_spec _ _ _ _ _ _ _ _ _ _ hinv.okA hg
    have hA := hpos (isCat CatA) (by intro c hc; simp [isCat, hc])
    have hB := hneg (isCat CatB) (by intro c hc; rw [isCat, hc]; decide)
    have hC := hneg (isCat CatC) (by intro c hc; rw [isCat, hc]; decide)
    have hO := hneg isOther (by intro c hc; rw [isOther, hc]; decide)
    have iA := hinv.cntA
    have iB := hinv.cntB
    have iC := hinv.cntC
    have iO := hinv.others
    simp only [cntSys, cntQ] at iA iB iC iO
    exact {
      okA := hok1
      okB := hinv.okB
      okC := hinv.okC
      cntA := by simp only [cntSys, cntQ]; omega
      cntB := by simp only [cntSys, cntQ]; omega
      cntC := by simp only [cntSys, cntQ]; omega
      others := by simp only [cntSys, cntQ]; omega
      tot := hinv.tot
      sum := hinv.sum
      ret := hinv.ret
      doneOpen := hinv.doneOpen }

theorem simStep_genB (cfg : Config) (s s1 : Sys) (vd : Bool) (hinv : SimInv cfg s)
    (h : simStep cfg s (.gen .inB vd) = some s1) : SimInv cfg s1 := by
  simp only [simStep] at h
  cases hg : genStep CatB cfg.NumB s.cancelled vd s.genB s.globalCarID s.p1.B with
  | none => simp [hg] at h
  | some res =>
    obtain ⟨g1, id1, out1⟩ := res
    rw [hg] at h
    simp only [Option.some.injEq] at h
    subst h
    obtain ⟨hok1, hpos, hneg⟩ := genStep_spec _ _ _ _ _ _ _ _ _ _ hinv.okB hg
    have hA := hneg (isCat CatA) (by intro c hc; rw [isCat, hc]; decide)
    have hB := hpos (isCat CatB) (by intro c hc; simp [isCat, hc])
    have hC := hneg (isCat CatC) (by intro c hc; rw [isCat, hc]; decide)
    have hO := hneg isOther (by intro c hc; rw [isOther, hc]; decide)
    have iA := hinv.cntA
    have iB := hinv.cntB
    have iC := hinv.cntC
    have iO := hinv.others
    simp only [cntSys, cntQ] at iA iB iC iO
    exact {
      okA := hinv.okA
      okB := hok1
      okC := hinv.okC
      cntA := by simp only [cntSys, cntQ]; omega
      cntB := by simp only [cntSys, cntQ]; omega
      cntC := by simp only [cntSys, cntQ]; omega
      others := by simp only [cntSys, cntQ]; omega
      tot := hinv.tot
      sum := hinv.sum
      ret := hinv.ret
      doneOpen := hinv.doneOpen }

theorem simStep_genC (cfg : Config) (s s1 : Sys) (vd : Bool) (hinv : SimInv cfg s)
    (h : simStep cfg s (.gen .inC vd) = some s1) : SimInv cfg s1 := by
  simp only [simStep] at h
  cases hg : genStep CatC cfg.NumC s.cancelled vd s.genC s.globalCarID s.p1.C with
  | none => simp [hg] at h
  | some res =>
    obtain ⟨g1, id1, out1⟩ := res
    rw [hg] at h
    simp only [Option.some.injEq] at h
    subst h
    obtain ⟨hok1, hpos, hneg⟩ := genStep_spec _ _ _ _ _ _ _ _ _ _ hinv.okC hg
    have hA := hneg (isCat CatA) (by intro c hc; rw [isCat, hc]; decide)
    have hB := hneg (isCat CatB) (by intro c hc; rw [isCat, hc]; decide)
    have hC := hpos (isCat CatC) (by intro c hc; simp [isCat, hc])
    have hO := hneg isOther (by intro c hc; rw [isOther, hc]; decide)
    have iA := hinv.cntA
    have iB := hinv.cntB
    have iC := hinv.cntC
    have iO := hinv.others
    simp only [cntSys, cntQ] at iA iB iC iO
    exact {
      okA := hinv.okA
      okB := hinv.okB
      okC := hok1
      cntA := by simp only [cntSys, cntQ]; omega
      cntB := by simp only [cntSys, cntQ]; omega
      cntC := by simp only [cntSys, cntQ]; omega
      others := by simp only [cntSys, cntQ]; omega
      tot := hinv.tot
      sum := hinv.sum
      ret := hinv.ret
      doneOpen := hinv.doneOpen }

theorem simStep_collect (cfg : Config) (s s1 : Sys) (vd : Bool) (hinv : SimInv cfg s)
    (h : simStep cfg s (.collect vd) = some s1) : SimInv cfg s1 := by
  simp only [simStep, collectStep] at h
  by_cases hret : s.returned = true
  · rw [if_pos hret] at h
    simp at h
  · rw [if_neg hret] at h
    by_cases hlt : s.i < totalOf cfg
    · rw [if_pos hlt] at h
      by_cases hvd : vd = true
      · rw [if_pos hvd] at h
        by_cases hcd : s.cancelled = true
        · rw [if_pos hcd] at h
          simp only [Option.some.injEq] at h
          subst h
          exact { okA := hinv.okA, okB := hinv.okB, okC := hinv.okC, cntA := hinv.cntA,
                  cntB := hinv.cntB, cntC := hinv.cntC, others := hinv.others,
                  tot := hinv.tot, sum := hinv.sum, ret := fun _ => Or.inl hcd,
                  doneOpen := hinv.doneOpen }
        · rw [if_neg hcd] at h
          simp at h
      · rw [if_neg hvd] at h
        cases hr : s.done.recv Car.zero with
        | none => simp [hr] at h
        | some res =>
          obtain ⟨⟨car, ok⟩, d1⟩ := res
          rw [hr] at h
          simp only [Option.some.injEq] at h
          subst h
          have iO := hinv.others
          simp only [cntSys] at iO
          have hdone0 : s.done.buf.countP isOther = 0 := by omega
          cases ok with
          | false =>
            exfalso
            unfold Chan.recv at hr
            cases hb : s.done.buf with
            | nil =>
              rw [hb] at hr
              simp [hinv.doneOpen] at hr
            | cons x rest =>
              rw [hb] at hr
              simp at hr
          | true =>
            obtain ⟨rest, hb, hd1⟩ := recv_true _ _ _ hr
            subst hd1
            have hvalid : isOther car = false := by
              rw [hb, List.countP_cons] at hdone0
              by_cases hh : isOther car = true
              · rw [if_pos hh] at hdone0
                omega
              · simpa using hh
            have hcases : car.Category = CatA ∨ car.Category = CatB ∨ car.Category = CatC := by
              simp only [isOther, Bool.not_eq_false', Bool.or_eq_true, beq_iff_eq] at hvalid
              rcases hvalid with (h1 | h1) | h1
              · exact Or.inl h1
              · exact Or.inr (Or.inl h1)
              · exact Or.inr (Or.inr h1)
            have iA := hinv.cntA
            have iB := hinv.cntB
            have iC := hinv.cntC
            simp only [cntSys] at iA iB iC
            rw [hb, List.countP_cons] at iA iB iC
            have hAB : ¬ (CatA = CatB) := by decide
            have hAC : ¬ (CatA = CatC) := by decide
            have hBC : ¬ (CatB = CatC) := by decide
            have hBA : ¬ (CatB = CatA) := by decide
            have hCA : ¬ (CatC = CatA) := by decide
            have hCB : ¬ (CatC = CatB) := by decide
            have htot := hinv.tot
            have hsum := hinv.sum
            rcases hcases with hc | hc | hc
            all_goals
              simp only [isCat, hc, beq_self_eq_true, if_true, beq_iff_eq, hAB, hAC, hBC, hBA,
                hCA, hCB, if_false] at iA iB iC
              exact {
                okA := hinv.okA
                okB := hinv.okB
                okC := hinv.okC
                cntA := by
                  simp only [cntSys, mapGet_mapInc, hc, hAB, hAC, hBC, hBA, hCA, hCB, if_true,
                    if_false]
                  omega
                cntB := by
                  simp only [cntSys, mapGet_mapInc, hc, hAB, hAC, hBC, hBA, hCA, hCB, if_true,
                    if_false]
                  omega
                cntC := by
                  simp only [cntSys, mapGet_mapInc, hc, hAB, hAC, hBC, hBA, hCA, hCB, if_true,
                    if_false]
                  omega
                others := by
                  simp only [cntSys]
                  rw [hb, List.countP_cons] at iO
                  omega
                tot := by simp only; omega
                sum := by
                  simp only [mapGet_mapInc, hc, hAB, hAC, hBC, hBA, hCA, hCB, if_true, if_false]
                  omega
                ret := by intro hh; exact absurd hh hret
                doneOpen := hinv.doneOpen }
    · rw [if_neg hlt] at h
      simp only [Option.some.injEq] at h
      subst h
      exact { okA := hinv.okA, okB := hinv.okB, okC := hinv.okC, cntA := hinv.cntA,
              cntB := hinv.cntB, cntC := hinv.cntC, others := hinv.others,
              tot := hinv.tot, sum := hinv.sum, ret := fun _ => Or.inr hlt,
              doneOpen := hinv.doneOpen }

/-- Every event of a run keeps the invariant. -/
theorem simStep_inv (cfg : Config) (s s1 : Sys) (ev : Ev) (hinv : SimInv cfg s)
    (h : simStep cfg s ev = some s1) : SimInv cfg s1 := by
  cases ev with
  | cancel =>
    simp only [simStep, Option.some.injEq] at h
    subst h
    exact { okA := hinv.okA, okB := hinv.okB, okC := hinv.okC, cntA := hinv.cntA,
            cntB := hinv.cntB, cntC := hinv.cntC, others := hinv.others,
            tot := hinv.tot, sum := hinv.sum, ret := fun _ => Or.inl rfl,
            doneOpen := hinv.doneOpen }
  | setState v =>
    simp only [simStep, Option.some.injEq] at h
    subst h
    exact { okA := hinv.okA, okB := hinv.okB, okC := hinv.okC, cntA := hinv.cntA,
            cntB := hinv.cntB, cntC := hinv.cntC, others := hinv.others,
            tot := hinv.tot, sum := hinv.sum, ret := hinv.ret,
            doneOpen := hinv.doneOpen }
  | gen g vd =>
    cases g with
    | inA => exact simStep_genA cfg s s1 vd hinv h
    | inB => exact simStep_genB cfg s s1 vd hinv h
    | inC => exact simStep_genC cfg s s1 vd hinv h
  | stage k o =>
    obtain ⟨hc, hgA, hgB, hgC, hm, hi, hr, hcd, hcl⟩ := simStep_stage cfg s s1 k o h
    have iA := hinv.cntA
    have iB := hinv.cntB
    have iC := hinv.cntC
    have iO := hinv.others
    have cA := hc (isCat CatA)
    have cB := hc (isCat CatB)
    have cC := hc (isCat CatC)
    have cO := hc isOther
    exact {
      okA := by rw [hgA]; exact hinv.okA
      okB := by rw [hgB]; exact hinv.okB
      okC := by rw [hgC]; exact hinv.okC
      cntA := by rw [hgA, hm]; omega
      cntB := by rw [hgB, hm]; omega
      cntC := by rw [hgC, hm]; omega
      others := by omega
      tot := by rw [hm, hi]; exact hinv.tot
      sum := by rw [hm, hi]; exact hinv.sum
      ret := by rw [hr, hcd, hi]; exact hinv.ret
      doneOpen := by rw [hcl]; exact hinv.doneOpen }
  | collect vd => exact simStep_collect cfg s s1 vd hinv h

theorem simRun_inv (cfg : Config) (evs : List Ev) :
    ∀ s s1 : Sys, SimInv cfg s → simRun cfg evs s = some s1 → SimInv cfg s1 := by
  induction evs with
  | nil =>
    intro s s1 hinv h
    simp only [simRun, Option.some.injEq] at h
    subst h
    exact hinv
  | cons ev evs ih =>
    intro s s1 hinv h
    simp only [simRun] at h
    cases hs : simStep cfg s ev with
    | none => simp [hs] at h
    | some s2 =>
      rw [hs] at h
      exact ih s2 s1 (simStep_inv cfg s s2 ev hinv hs) h

theorem makeChan_spec {α : Type} (n : Int) (ch : Chan α) (h : makeChan n = some ch) :
    ch.buf = [] ∧ ch.closed = false := by
  unfold makeChan at h
  split at h
  · simp at h
  · simp only [Option.some.injEq] at h
    subst h
    exact ⟨rfl, rfl⟩

theorem makeQueues_spec (n : Int) (q : stageInput) (h : makeQueues n = some q) (p : Car → Bool) :
    cntQ p q = 0 := by
  unfold makeQueues at h
  cases hc : (makeChan n : Option (Chan Car)) with
  | none => simp [hc] at h
  | some ch =>
    rw [hc] at h
    simp only [Option.some.injEq] at h
    subst h
    simp [cntQ, (makeChan_spec n ch hc).1]

/-- The state `RunSimulation` starts its loop in satisfies the invariant. -/
theorem simInit_inv (cfg : Config) (sm : StateManager) (id : Int) (s0 : Sys)
    (h : simInit cfg sm id = some s0) : SimInv cfg s0 := by
  unfold simInit at h
  split at h
  · rename_i plazas mecanicos cleaners reviewers _ _ _ _
    split at h
    · rename_i p1 p2 p3 p4 done h1 h2 h3 h4 h5
      simp only [Option.some.injEq] at h
      subst h
      have q1 := makeQueues_spec _ _ h1
      have q2 := makeQueues_spec _ _ h2
      have q3 := makeQueues_spec _ _ h3
      have q4 := makeQueues_spec _ _ h4
      obtain ⟨hd, hcl⟩ := makeChan_spec _ _ h5
      have hok : ∀ cat n, GenOK cat n ⟨0, .top⟩ := by
        intro cat n
        exact ⟨le_refl _, Or.inr rfl, by simp [GenPC.item, GenPC.held],
          by simp [GenPC.item, GenPC.held]⟩
      exact {
        okA := hok _ _
        okB := hok _ _
        okC := hok _ _
        cntA := by
          simp [cntSys, q1, q2, q3, q4, hd, GenPC.held, GenPC.item, StagePC.held, cntO, Gen.made,
            NewMetrics, mapGet, CatA, CatB, CatC]
        cntB := by
          simp [cntSys, q1, q2, q3, q4, hd, GenPC.held, GenPC.item, StagePC.held, cntO, Gen.made,
            NewMetrics, mapGet, CatA, CatB, CatC]
        cntC := by
          simp [cntSys, q1, q2, q3, q4, hd, GenPC.held, GenPC.item, StagePC.held, cntO, Gen.made,
            NewMetrics, mapGet, CatA, CatB, CatC]
        others := by
          simp [cntSys, q1, q2, q3, q4, hd, GenPC.held, StagePC.held, cntO]
        tot := rfl
        sum := by simp [NewMetrics, mapGet, CatA, CatB, CatC]
        ret := by intro hh; simp at hh
        doneOpen := hcl }
    · simp at h
  · simp at h

theorem wrapInt64_id (x : Int) (h0 : 0 ≤ x) (h1 : x < 2 ^ 63) : wrapInt64 x = x := by
  unfold wrapInt64
  omega

theorem gen_made_le (cat : Category) (n : Int) (g : Gen) (hn : 0 ≤ n) (hok : GenOK cat n g) :
    g.made ≤ n := by
  obtain ⟨h0, hle, hheld, _⟩ := hok
  unfold Gen.made
  by_cases hh : g.pc.item.isSome = true
  · have := hheld hh
    rw [if_pos hh]
    omega
  · rw [if_neg hh]
    omega

theorem runSimulation_inv (cfg : Config) (sm : StateManager) (id : Int) (evs : List Ev)
    (m : Metrics) (cd : Bool) (h : RunSimulation cfg sm id evs = some (m, cd)) :
    ∃ s, SimInv cfg s ∧ s.returned = true ∧ s.metrics = m ∧ s.cancelled = cd := by
  unfold RunSimulation at h
  cases h0 : simInit cfg sm id with
  | none => simp [h0] at h
  | some s0 =>
    rw [h0] at h
    simp only at h
    cases h1 : simRun cfg evs s0 with
    | none => simp [h1] at h
    | some s =>
      rw [h1] at h
      simp only at h
      by_cases hr : s.returned = true
      · rw [if_pos hr] at h
        simp only [Option.some.injEq, Prod.mk.injEq] at h
        exact ⟨s, simRun_inv cfg evs s0 s (simInit_inv cfg sm id s0 h0) h1, hr, h.1, h.2⟩
      · rw [if_neg hr] at h
        simp at h

set_option maxRecDepth 1000000

/-- C10: for every configuration with non-negative counts whose sum
does not overflow a Go `int`, if `RunSimulation` returns without its context
cancelled, then `TotalProcessed` is `NumA+NumB+NumC` and the count of each
class is the number of cars of that class; the scenario with 10 cars per
class, 6 plazas, 3 mecanicos, no jitter and state 4 has a run that returns
with 30 processed, 10 of each class. -/
theorem C10_metrics_complete (cfg : Config) (sm : StateManager) (id : Int) (evs : List Ev)
    (m : Metrics) (hA : 0 ≤ cfg.NumA) (hB : 0 ≤ cfg.NumB) (hC : 0 ≤ cfg.NumC)
    (hsum : cfg.NumA + cfg.NumB + cfg.NumC < 2 ^ 63)
    (h : RunSimulation cfg sm id evs = some (m, false)) :
    (m.TotalProcessed = cfg.NumA + cfg.NumB + cfg.NumC ∧
      mapGet m.ByCategory CatA = cfg.NumA ∧ mapGet m.ByCategory CatB = cfg.NumB ∧
      mapGet m.ByCategory CatC = cfg.NumC) ∧
    RunSimulation scenarioCfg NewStateManager 0 scenarioRun
      = some (⟨30, [(CatA, 10), (CatB, 10), (CatC, 10)]⟩, false) := by
  refine ⟨?_, by decide⟩
  obtain ⟨s, hinv, hret, hm, hcd⟩ := runSimulation_inv cfg sm id evs m false h
  subst hm
  have htot : totalOf cfg = cfg.NumA + cfg.NumB + cfg.NumC :=
    wrapInt64_id _ (by omega) hsum
  have hnlt : ¬ (s.i < totalOf cfg) := by
    rcases hinv.ret hret with hc | hc
    · rw [hcd] at hc
      simp at hc
    · exact hc
  have mA := gen_made_le _ _ _ hA hinv.okA
  have mB := gen_made_le _ _ _ hB hinv.okB
  have mC := gen_made_le _ _ _ hC hinv.okC
  have cA := hinv.cntA
  have cB := hinv.cntB
  have cC := hinv.cntC
  have hs := hinv.sum
  have ht := hinv.tot
  refine ⟨?_, ?_, ?_, ?_⟩ <;> omega

/-- C10 at the scenario of the tests: the run returns, not cancelled, and its
metrics are the counts of the configuration. -/
theorem C10_witness :
    RunSimulation scenarioCfg NewStateManager 0 scenarioRun
      = some (⟨30, [(CatA, 10), (CatB, 10), (CatC, 10)]⟩, false) ∧
    (30 : Int) = scenarioCfg.NumA + scenarioCfg.NumB + scenarioCfg.NumC ∧
    mapGet [(CatA, 10), (CatB, 10), (CatC, 10)] CatA = scenarioCfg.NumA ∧
    mapGet [(CatA, 10), (CatB, 10), (CatC, 10)] CatB = scenarioCfg.NumB ∧
    mapGet [(CatA, 10), (CatB, 10), (CatC, 10)] CatC = scenarioCfg.NumC := by
  have hrun : RunSimulation scenarioCfg NewStateManager 0 scenarioRun
      = some (⟨30, [(CatA, 10), (CatB, 10), (CatC, 10)]⟩, false) := by decide
  exact ⟨hrun, (C10_metrics_complete scenarioCfg NewStateManager 0 scenarioRun _
    (by decide) (by decide) (by decide) (by decide) hrun).1⟩

/-- C10 does not hold for every configuration.  With `NumA = -1, NumB = 1,
NumC = 0` the total is 0, the loop of `RunSimulation` does not run and it
returns at once, not cancelled, with every count 0: the count of A is not -1
and the count of B is not 1.  With `NumA = NumB = 2^63 - 1, NumC = 2` the Go
sum wraps to 0 and the same happens. -/
theorem C10_counterexample :
    (RunSimulation negCfg NewStateManager 0 [.collect false] = some (NewMetrics, false) ∧
      mapGet NewMetrics.ByCategory CatA ≠ negCfg.NumA ∧
      mapGet NewMetrics.ByCategory CatB ≠ negCfg.NumB) ∧
    (RunSimulation bigCfg NewStateManager 0 [.collect false] = some (NewMetrics, false) ∧
      mapGet NewMetrics.ByCategory CatA ≠ bigCfg.NumA ∧
      NewMetrics.TotalProcessed ≠ bigCfg.NumA + bigCfg.NumB + bigCfg.NumC) := by
  decide

theorem afterPick_pc (k : StageId) (it : Iter) (c : Car) :
    (afterPick k it = .checking c → k = .s1) ∧ afterPick k it ≠ .handing c := by
  cases it with
  | again => simp [afterPick]
  | ret c1 ok =>
    cases ok with
    | false => simp [afterPick]
    | true =>
      by_cases hk : k = .s1
      · simp [afterPick, handlerEntry, hk]
      · simp [afterPick, handlerEntry, hk]

/-- Only stage 1 comes to the closed check, and stage 4 is never blocked in
`sendByCategory`. -/
theorem stageStep_pc (k : StageId) (jit cur : Int) (cancelled : Bool) (o : Obs)
    (v v1 : StageView) (h : stageStep k jit cur cancelled o v = some v1) :
    (∀ c, v1.pc = .checking c → k = .s1) ∧ (∀ c, v1.pc = .handing c → k ≠ .s4) := by
  unfold stageStep at h
  by_cases hg : (o.getDone && !cancelled) = true
  · rw [if_pos hg] at h
    simp at h
  · rw [if_neg hg] at h
    cases hpc : v.pc with
    | picking =>
      rw [hpc] at h
      simp only at h
      cases hp : pickNextPoll (obsEnv cur cancelled o) v.inp with
      | none => simp [hp] at h
      | some pr =>
        obtain ⟨pl, inp1⟩ := pr
        rw [hp] at h
        cases pl with
        | wait cases =>
          simp only [Option.some.injEq] at h
          subst h
          exact ⟨by intro c hc; simp at hc, by intro c hc; simp at hc⟩
        | done it =>
          simp only [Option.some.injEq] at h
          subst h
          exact ⟨fun c hc => (afterPick_pc k it c).1 hc,
            fun c hc => absurd hc (afterPick_pc k it c).2⟩
    | waiting cases =>
      rw [hpc] at h
      simp only at h
      cases hp : pickNextWait (obsEnv cur cancelled o) cases v.inp with
      | none => simp [hp] at h
      | some pr =>
        obtain ⟨it, inp1⟩ := pr
        rw [hp] at h
        simp only [Option.some.injEq] at h
        subst h
        exact ⟨fun c hc => (afterPick_pc k it c).1 hc,
          fun c hc => absurd hc (afterPick_pc k it c).2⟩
    | checking car =>
      rw [hpc] at h
      simp only at h
      split at h <;>
      · simp only [Option.some.injEq] at h
        subst h
        exact ⟨by intro c hc; simp at hc, by intro c hc; simp at hc⟩
    | acquiring car =>
      rw [hpc] at h
      simp only at h
      cases ha : v.sem.Acquire cancelled (o.choice != .done) with
      | none => simp [ha] at h
      | some res =>
        obtain ⟨got, sem1⟩ := res
        rw [ha] at h
        cases got <;>
        · simp only [Option.some.injEq] at h
          subst h
          exact ⟨by intro c hc; simp at hc, by intro c hc; simp at hc⟩
    | serving car =>
      rw [hpc] at h
      simp only at h
      cases hj : sleepWithJitter jit with
      | none => simp [hj] at h
      | some u =>
        rw [hj] at h
        simp only [Option.some.injEq] at h
        subst h
        by_cases hk : k = .s1 <;>
          exact ⟨by intro c hc; simp [hk] at hc, by intro c hc; simp [hk] at hc⟩
    | releasing car =>
      rw [hpc] at h
      simp only at h
      cases hr : v.sem.Release with
      | none => simp [hr] at h
      | some sem1 =>
        rw [hr] at h
        simp only [Option.some.injEq] at h
        subst h
        by_cases hk4 : k = .s4 <;>
          exact ⟨by intro c hc; simp [hk4] at hc, by intro c hc; simp [hk4] at hc⟩
    | releasingPlaza car =>
      rw [hpc] at h
      simp only at h
      cases hr : v.plazas.Release with
      | none => simp [hr] at h
      | some sem1 =>
        rw [hr] at h
        simp only [Option.some.injEq] at h
        subst h
        exact ⟨by intro c hc; simp at hc, by intro c hc; simp at hc⟩
    | sending car =>
      rw [hpc] at h
      simp only at h
      by_cases hk4 : k = .s4
      · rw [if_pos hk4] at h
        cases hs : v.done.send car with
        | none => simp [hs] at h
        | some d1 =>
          rw [hs] at h
          simp only [Option.some.injEq] at h
          subst h
          exact ⟨by intro c hc; simp at hc, by intro c hc; simp at hc⟩
      · rw [if_neg hk4] at h
        cases hs : sendByCategory cancelled (o.choice != .done) car v.out with
        | none => simp [hs] at h
        | some out1 =>
          rw [hs] at h
          simp only [Option.some.injEq] at h
          subst h
          refine ⟨?_, fun _ _ => hk4⟩
          intro c hc
          simp only at hc
          split at hc <;> simp at hc
    | handing car =>
      rw [hpc] at h
      simp only at h
      by_cases hk4 : k = .s4
      · rw [if_pos hk4] at h
        simp at h
      · rw [if_neg hk4] at h
        split at h
        · simp only [Option.some.injEq] at h
          subst h
          exact ⟨by intro c hc; simp at hc, by intro c hc; simp at hc⟩
        · split at h
          · simp only [Option.some.injEq] at h
            subst h
            exact ⟨by intro c hc; simp at hc, by intro c hc; simp at hc⟩
          · simp at h
    | exited =>
      rw [hpc] at h
      simp at h

theorem simStep_pcInv (cfg : Config) (s s1 : Sys) (ev : Ev) (hinv : PcInv s)
    (h : simStep cfg s ev = some s1) : PcInv s1 := by
  cases ev with
  | cancel =>
    simp only [simStep, Option.some.injEq] at h
    subst h
    exact hinv
  | setState v =>
    simp only [simStep, Option.some.injEq] at h
    subst h
    exact hinv
  | gen g vd =>
    cases g <;>
    · simp only [simStep] at h
      split at h
      · simp at h
      · simp only [Option.some.injEq] at h
        subst h
        exact hinv
  | stage k o =>
    simp only [simStep] at h
    cases hs : stageStep k cfg.MaxJitterSeconds s.sm.current s.cancelled o (getView k s) with
    | none => simp [hs] at h
    | some v1 =>
      rw [hs] at h
      simp only [Option.some.injEq] at h
      subst h
      obtain ⟨h2, h3, h4, h5⟩ := hinv
      obtain ⟨hck, hhd⟩ := stageStep_pc k _ _ _ _ _ _ hs
      cases k with
      | s1 => exact ⟨h2, h3, h4, h5⟩
      | s2 => exact ⟨fun c hc => absurd (hck c hc) (by decide), h3, h4, h5⟩
      | s3 => exact ⟨h2, fun c hc => absurd (hck c hc) (by decide), h4, h5⟩
      | s4 =>
        exact ⟨h2, h3, fun c hc => absurd (hck c hc) (by decide),
          fun c hc => absurd rfl (hhd c hc)⟩
  | collect vd =>
    simp only [simStep, collectStep] at h
    split at h
    · simp at h
    · split at h
      · split at h
        · split at h
          · simp only [Option.some.injEq] at h
            subst h
            exact hinv
          · simp at h
        · split at h
          · simp at h
          · simp only [Option.some.injEq] at h
            subst h
            exact hinv
      · simp only [Option.some.injEq] at h
        subst h
        exact hinv

theorem simFrom_inv (cfg : Config) (sm : StateManager) (id : Int) (evs : List Ev) (s : Sys)
    (h : simFrom cfg sm id evs = some s) : SimInv cfg s ∧ PcInv s := by
  unfold simFrom at h
  cases h0 : simInit cfg sm id with
  | none => simp [h0] at h
  | some s0 =>
    rw [h0] at h
    simp only at h
    refine ⟨simRun_inv cfg evs s0 s (simInit_inv cfg sm id s0 h0) h, ?_⟩
    have hp0 : PcInv s0 := by
      unfold simInit at h0
      split at h0
      · split at h0
        · simp only [Option.some.injEq] at h0
          subst h0
          exact ⟨by simp, by simp, by simp, by simp⟩
        · simp at h0
      · simp at h0
    clear h0
    induction evs generalizing s0 with
    | nil =>
      simp only [simRun, Option.some.injEq] at h
      subst h
      exact hp0
    | cons ev evs ih =>
      simp only [simRun] at h
      cases hs : simStep cfg s0 ev with
      | none => simp [hs] at h
      | some s2 =>
        rw [hs] at h
        exact ih s2 h (simStep_pcInv cfg s0 s2 ev hp0 hs)

theorem sleepWithJitter_ok (m : Int) (h : m < 2 ^ 63 - 1) : sleepWithJitter m = some () := by
  unfold sleepWithJitter
  by_cases hm : m > 0
  · rw [if_pos hm]
    have : ¬ wrapInt64 (m + 1) ≤ 0 := by
      rw [wrapInt64_id (m + 1) (by omega) (by omega)]
      omega
    rw [if_neg this]
  · rw [if_neg hm]

/-- In a run that is not cancelled, a step of the handler in charge of the car
`c`, other than the closed check with the state closed, neither loses the car
nor returns: it brings the handler nearer to its end, keeps the stage's own
queues, and does to the output what `StepEffect` says. -/
theorem stageStep_handler (k : StageId) (jit cur : Int) (o : Obs) (v v1 : StageView) (c : Car)
    (hitem : v.pc.item = some c) (hopen : v.pc = .checking c → IsClosed cur = false)
    (h : stageStep k jit cur false o v = some v1) :
    v1.inp = v.inp ∧ v1.pc ≠ .exited ∧ handlerRank v1.pc < handlerRank v.pc ∧
    (v1.pc = .picking ∨ v1.pc.item = some c) ∧ StepEffect k c v v1.pc v1.out v1.done := by
  unfold stageStep at h
  by_cases hg : (o.getDone && !false) = true
  · rw [if_pos hg] at h
    simp at h
  · rw [if_neg hg] at h
    have hgd : o.getDone = false := by simpa using hg
    cases hpc : v.pc with
    | picking => rw [hpc] at hitem; simp [StagePC.item, StagePC.held] at hitem
    | waiting cases => rw [hpc] at hitem; simp [StagePC.item, StagePC.held] at hitem
    | exited => rw [hpc] at hitem; simp [StagePC.item, StagePC.held] at hitem
    | checking car =>
      rw [hpc] at h hitem
      simp only [StagePC.item, StagePC.held, Option.some.injEq] at hitem
      subst hitem
      have hcl : IsClosed (obsEnv cur false o).state = false := by
        simp only [obsEnv, hgd, Bool.false_eq_true, if_false]
        exact hopen hpc
      simp only [hcl, Bool.false_eq_true, if_false, Option.some.injEq] at h
      subst h
      refine ⟨rfl, by simp, by simp [handlerRank, hpc], Or.inr rfl, ?_⟩
      simp [StepEffect, hpc, StagePC.held]
    | acquiring car =>
      rw [hpc] at h hitem
      simp only [StagePC.item, StagePC.held, Option.some.injEq] at hitem
      subst hitem
      simp only at h
      cases ha : v.sem.Acquire false (o.choice != .done) with
      | none => simp [ha] at h
      | some res =>
        obtain ⟨got, sem1⟩ := res
        rw [ha] at h
        cases got with
        | true =>
          simp only [Option.some.injEq] at h
          subst h
          refine ⟨rfl, by simp, by simp [handlerRank, hpc], Or.inr rfl, ?_⟩
          simp [StepEffect, hpc, StagePC.held]
        | false =>
          exfalso
          unfold chanSem.Acquire at ha
          split at ha
          · split at ha
            · simp at ha
            · simp at ha
          · simp at ha
    | serving car =>
      rw [hpc] at h hitem
      simp only [StagePC.item, StagePC.held, Option.some.injEq] at hitem
      subst hitem
      simp only at h
      cases hj : sleepWithJitter jit with
      | none => simp [hj] at h
      | some u =>
        rw [hj] at h
        simp only [Option.some.injEq] at h
        subst h
        refine ⟨rfl, ?_, ?_, Or.inr ?_, ?_⟩
        · by_cases hk : k = .s1 <;> simp [hk]
        · by_cases hk : k = .s1 <;> simp [hk, handlerRank, hpc]
        · by_cases hk : k = .s1 <;> simp [hk, StagePC.item, StagePC.held]
        · by_cases hk : k = .s1 <;> simp [StepEffect, hpc, hk, StagePC.held]
    | releasing car =>
      rw [hpc] at h hitem
      simp only [StagePC.item, StagePC.held, Option.some.injEq] at hitem
      subst hitem
      simp only at h
      cases hr : v.sem.Release with
      | none => simp [hr] at h
      | some sem1 =>
        rw [hr] at h
        simp only [Option.some.injEq] at h
        subst h
        refine ⟨rfl, ?_, ?_, Or.inr ?_, ?_⟩
        · by_cases hk : k = .s4 <;> simp [hk]
        · by_cases hk : k = .s4 <;> simp [hk, handlerRank, hpc]
        · by_cases hk : k = .s4 <;> simp [hk, StagePC.item, StagePC.held]
        · by_cases hk : k = .s4 <;> simp [StepEffect, hpc, hk, StagePC.held]
    | releasingPlaza car =>
      rw [hpc] at h hitem
      simp only [StagePC.item, StagePC.held, Option.some.injEq] at hitem
      subst hitem
      simp only at h
      cases hr : v.plazas.Release with
      | none => simp [hr] at h
      | some sem1 =>
        rw [hr] at h
        simp only [Option.some.injEq] at h
        subst h
        refine ⟨rfl, by simp, by simp [handlerRank, hpc], Or.inr rfl, ?_⟩
        simp [StepEffect, hpc, StagePC.held]
    | sending car =>
      rw [hpc] at h hitem
      simp only [StagePC.item, StagePC.held, Option.some.injEq] at hitem
      subst hitem
      simp only at h
      by_cases hk4 : k = .s4
      · rw [if_pos hk4] at h
        cases hs : v.done.send car with
        | none => simp [hs] at h
        | some d1 =>
          rw [hs] at h
          simp only [Option.some.injEq] at h
          subst h
          refine ⟨rfl, by simp, by simp [handlerRank, hpc], Or.inl rfl, ?_⟩
          simp only [StepEffect, hpc, Put, if_pos hk4]
          unfold Chan.send at hs
          split at hs
          · simp only [Option.some.injEq] at hs
            subst hs
            exact ⟨⟨rfl, trivial⟩, by simp [hk4]⟩
          · simp at hs
      · rw [if_neg hk4] at h
        cases hs : sendByCategory false (o.choice != .done) car v.out with
        | none => simp [hs] at h
        | some out1 =>
          rw [hs] at h
          simp only [Option.some.injEq] at h
          subst h
          have hts : (o.choice != .done) = true := by
            cases hb : (o.choice != .done) with
            | true => rfl
            | false =>
              rw [hb] at hs
              simp [sendByCategory] at hs
          rw [hts] at hs
          obtain ⟨h1, h2⟩ := sendByCategory_spec false car v.out out1 hs
          by_cases hcap : (v.out.get (dstOf car)).cap = 0
          · refine ⟨rfl, by simp [hts, hcap], by simp [hts, hcap, handlerRank, hpc],
              Or.inr (by simp [hts, hcap, StagePC.item]), ?_⟩
            simp only [StepEffect, hpc, Put, if_neg hk4]
            exact ⟨⟨h1, h2, trivial⟩, by simp [hts, hcap, hk4]⟩
          · refine ⟨rfl, by simp [hts, hcap], by simp [hts, hcap, handlerRank, hpc],
              Or.inl (by simp [hts, hcap]), ?_⟩
            simp only [StepEffect, hpc, Put, if_neg hk4]
            exact ⟨⟨h1, h2, trivial⟩, by simp [hts, hcap, hk4]⟩
    | handing car =>
      rw [hpc] at h hitem
      simp only [StagePC.item, Option.some.injEq] at hitem
      subst hitem
      simp only at h
      by_cases hk4 : k = .s4
      · rw [if_pos hk4] at h
        simp at h
      · rw [if_neg hk4] at h
        by_cases he : (v.out.get (dstOf car)).buf.isEmpty = true
        · rw [if_pos he] at h
          simp only [Option.some.injEq] at h
          subst h
          refine ⟨rfl, by simp, by simp [handlerRank, hpc], Or.inl rfl, ?_⟩
          simp only [StepEffect, hpc]
          exact ⟨List.isEmpty_iff.mp he, trivial, trivial, trivial⟩
        · rw [if_neg he] at h
          simp at h

/-- The handler in charge of a car can take a step unless it waits for a
permit, for room, or for the next stage to take the car. -/
theorem stageStep_enabled (k : StageId) (jit cur : Int) (v : StageView) (c : Car)
    (hitem : v.pc.item = some c) (hjit : sleepWithJitter jit = some ())
    (hk4 : v.pc = .handing c → k ≠ .s4) :
    (stageStep k jit cur false obsGo v).isSome = true ∨ Waits k v := by
  have hch : (obsGo.choice != SelChoice.done) = true := by decide
  have hgd : (obsGo.getDone && !false) = false := by decide
  unfold stageStep
  rw [hgd]
  simp only [Bool.false_eq_true, if_false]
  cases hpc : v.pc with
  | picking => rw [hpc] at hitem; simp [StagePC.item, StagePC.held] at hitem
  | waiting cases => rw [hpc] at hitem; simp [StagePC.item, StagePC.held] at hitem
  | exited => rw [hpc] at hitem; simp [StagePC.item, StagePC.held] at hitem
  | checking car =>
    left
    simp only
    split <;> rfl
  | acquiring car =>
    simp only [hch]
    cases hb : v.sem.ch.buf with
    | nil => exact Or.inr (Or.inl ⟨car, hpc, hb⟩)
    | cons u rest =>
      left
      simp [chanSem.Acquire, Chan.recv, hb]
  | serving car =>
    left
    simp only [hjit]
    rfl
  | releasing car =>
    by_cases hroom : v.sem.ch.buf.length < v.sem.ch.cap
    · left
      simp [chanSem.Release, Chan.send, hroom]
    · exact Or.inr (Or.inr (Or.inl ⟨car, hpc, hroom⟩))
  | releasingPlaza car =>
    by_cases hroom : v.plazas.ch.buf.length < v.plazas.ch.cap
    · left
      simp [chanSem.Release, Chan.send, hroom]
    · exact Or.inr (Or.inr (Or.inr (Or.inl ⟨car, hpc, hroom⟩)))
  | sending car =>
    by_cases hk : k = .s4
    · by_cases hroom : v.done.buf.length < v.done.cap
      · left
        simp [hk, Chan.send, hroom]
      · exact Or.inr (Or.inr (Or.inr (Or.inr (Or.inl ⟨car, hpc, hk, hroom⟩))))
    · by_cases hroom : (v.out.get (dstOf car)).buf.length < max (v.out.get (dstOf car)).cap 1
      · left
        simp only [hk, if_false, hch, sendByCategory, if_true, Chan.sendTo, if_pos hroom]
        rfl
      · exact Or.inr (Or.inr (Or.inr (Or.inr (Or.inr (Or.inl ⟨car, hpc, hk, hroom⟩)))))
  | handing car =>
    rw [hpc] at hitem
    simp only [StagePC.item, Option.some.injEq] at hitem
    subst hitem
    have hk : k ≠ .s4 := hk4 hpc
    by_cases he : (v.out.get (dstOf car)).buf.isEmpty = true
    · left
      simp [hk, he]
    · right
      refine Or.inr (Or.inr (Or.inr (Or.inr (Or.inr ⟨car, hpc, ?_⟩))))
      intro hnil
      rw [hnil] at he
      simp at he

theorem dstOf_of_valid (c : Car) (h : isOther c = false) : chanOf c.Category = some (dstOf c) := by
  simp only [isOther, Bool.not_eq_false', Bool.or_eq_true, beq_iff_eq] at h
  unfold chanOf dstOf
  rcases h with (h1 | h1) | h1
  · rw [if_pos h1, if_pos h1]
  · have hne : ¬ c.Category = CatA := by rw [h1]; decide
    rw [if_neg hne, if_pos h1, if_neg hne, if_pos h1]
  · have hne : ¬ c.Category = CatA := by rw [h1]; decide
    have hne2 : ¬ c.Category = CatB := by rw [h1]; decide
    rw [if_neg hne, if_neg hne2, if_pos h1, if_neg hne, if_neg hne2, if_pos h1]

theorem held_valid (cfg : Config) (s : Sys) (k : StageId) (c : Car) (hinv : SimInv cfg s)
    (hheld : (getView k s).pc.held = some c) : isOther c = false := by
  have h0 := hinv.others
  simp only [cntSys] at h0
  have hz : cntO isOther (getView k s).pc.held = 0 := by
    cases k <;> simp only [getView] <;> omega
  rw [hheld] at hz
  simp only [cntO] at hz
  by_cases hh : isOther c = true
  · rw [if_pos hh] at hz
    omega
  · simpa using hh

/-- C9: in a state a run reaches, not cancelled, with a jitter bound below
`2^63 - 1`, let the handler of a stage be in charge of a car, and for stage 1
at its closed check let the state not be 9.  Then every step of that stage
leaves the run not cancelled and the stage alive, keeps the stage's own
queues and brings the handler nearer to its end, still in charge of the car
or back in `pickNext`.  At its send the step puts the car where the next
stage receives it, as the newest car of the queue of its class (of `done` for
stage 4); on an unbuffered queue the handler then stays in the send and goes
on to `pickNext` only once the car has been taken from the queue; any other
step keeps the car and leaves the output queues and `done` alone.  So the car
is forwarded after at most seven steps.  The handler can always take a step
unless it waits for a permit, for room, or for the next stage to take the
car, and the queue `sendByCategory` picks is the queue of the class of the
car.  At the closed check with the state 9 the handler of stage 1 returns
false. -/
theorem C9_handler_forwards (cfg : Config) (sm : StateManager) (id : Int) (evs : List Ev)
    (s : Sys) (k : StageId) (c : Car)
    (hreach : simFrom cfg sm id evs = some s) (hnc : s.cancelled = false)
    (hitem : (getView k s).pc.item = some c)
    (hopen : ¬ (k = .s1 ∧ s.st1 = .checking c ∧ s.sm.current = 9))
    (hjit : cfg.MaxJitterSeconds < 2 ^ 63 - 1) :
    (∀ (o : Obs) (s1 : Sys), simStep cfg s (.stage k o) = some s1 →
      s1.cancelled = false ∧ (getView k s1).pc ≠ .exited ∧
      (getView k s1).inp = (getView k s).inp ∧
      handlerRank (getView k s1).pc < handlerRank (getView k s).pc ∧
      ((getView k s1).pc = .picking ∨ (getView k s1).pc.item = some c) ∧
      StepEffect k c (getView k s) (getView k s1).pc (getView k s1).out (getView k s1).done) ∧
    ((simStep cfg s (.stage k obsGo)).isSome = true ∨ Waits k (getView k s)) ∧
    ((getView k s).pc.held = some c → chanOf c.Category = some (dstOf c)) ∧
    (∀ (jit : Int) (v : StageView) (c2 : Car) (o : Obs), v.pc = .checking c2 →
      o.getDone = false → stageStep .s1 jit 9 false o v = some { v with pc := .exited }) := by
  obtain ⟨hinv, hpcinv⟩ := simFrom_inv cfg sm id evs s hreach
  have hop : (getView k s).pc = .checking c → IsClosed s.sm.current = false := by
    intro hck
    cases k with
    | s1 =>
      simp only [getView] at hck
      have : ¬ s.sm.current = 9 := fun h9 => hopen ⟨rfl, hck, h9⟩
      simp [IsClosed, this]
    | s2 => exact absurd hck (hpcinv.1 c)
    | s3 => exact absurd hck (hpcinv.2.1 c)
    | s4 => exact absurd hck (hpcinv.2.2.1 c)
  have hk4 : (getView k s).pc = .handing c → k ≠ .s4 := by
    intro hh hk
    subst hk
    exact hpcinv.2.2.2 c hh
  refine ⟨?_, ?_, fun hheld => dstOf_of_valid c (held_valid cfg s k c hinv hheld), ?_⟩
  rotate_left 2
  · intro jit v c2 o hv ho
    simp [stageStep, hv, ho, obsEnv, IsClosed]
  · intro o s1 hstep
    simp only [simStep] at hstep
    cases hs : stageStep k cfg.MaxJitterSeconds s.sm.current s.cancelled o (getView k s) with
    | none => simp [hs] at hstep
    | some v1 =>
      rw [hs] at hstep
      simp only [Option.some.injEq] at hstep
      subst hstep
      rw [hnc] at hs
      obtain ⟨h1, h2, h3, h4, h5⟩ := stageStep_handler k _ _ o _ v1 c hitem hop hs
      obtain ⟨_, hd, ho, _⟩ := stageStep_cnt (fun _ => true) k _ _ _ _ _ _ hs
      cases k with
      | s1 =>
        have hd1 : v1.done = s.done := hd (by decide)
        rw [hd1] at h5
        exact ⟨hnc, h2, h1, h3, h4, h5⟩
      | s2 =>
        have hd1 : v1.done = s.done := hd (by decide)
        rw [hd1] at h5
        exact ⟨hnc, h2, h1, h3, h4, h5⟩
      | s3 =>
        have hd1 : v1.done = s.done := hd (by decide)
        rw [hd1] at h5
        exact ⟨hnc, h2, h1, h3, h4, h5⟩
      | s4 =>
        have ho1 : v1.out = s.p4 := ho rfl
        have hi1 : v1.inp = s.p4 := h1
        rw [ho1] at h5
        rw [← hi1] at h5
        exact ⟨hnc, h2, h1, h3, h4, h5⟩
  · rcases stageStep_enabled k cfg.MaxJitterSeconds s.sm.current (getView k s) c hitem
        (sleepWithJitter_ok _ hjit) hk4 with h | h
    · left
      simp only [simStep, hnc]
      cases hs : stageStep k cfg.MaxJitterSeconds s.sm.current false obsGo (getView k s) with
      | none => rw [hs] at h; simp at h
      | some v1 => rfl
    · exact Or.inr h

/-- C9 does not hold at stage 1, nor with the largest jitter bound.  A run of
one car of class A, never cancelled: the state is 4, the car is queued and
stage 1 takes it; the state becomes 9 and the handler of stage 1 returns
false at its closed check.  The car is then nowhere in the run, no queue of
stage 2 holds it, nothing was processed, and stage 1 has returned from
`dispatchStage`: it takes no further step.  With `MaxJitterSeconds = 2^63 - 1`
and the state left at 4, the handler of stage 1 gets its plaza and
`sleepWithJitter` panics: the car is never forwarded. -/
theorem C9_counterexample :
    (simFrom oneCfg NewStateManager 0 closedRunA).map
        (fun s => (s.cancelled, s.st1, s.p1.A.buf, s.sm.current))
      = some (false, .checking ⟨1, CatA⟩, [], 4) ∧
    (simFrom oneCfg NewStateManager 0 (closedRunA ++ closedRunB)).map
        (fun s => (s.cancelled, s.st1, cntSys (fun _ => true) s, s.p2.A.buf))
      = some (false, .exited, 0, []) ∧
    (simFrom oneCfg NewStateManager 0 (closedRunA ++ closedRunB)).map
        (fun s => (s.metrics.TotalProcessed, s.returned,
          (simStep oneCfg s (.stage .s1 obsGo)).isNone))
      = some (0, false, true) ∧
    sleepWithJitter jitCfg.MaxJitterSeconds = none ∧
    (simFrom jitCfg NewStateManager 0
        (closedRunA ++ [.stage .s1 obsGo, .stage .s1 obsGo])).map
        (fun s => (s.cancelled, s.st1, s.p2.A.buf,
          (simStep jitCfg s (.stage .s1 obsGo)).isNone))
      = some (false, .serving ⟨1, CatA⟩, [], true) := by
  refine ⟨by decide, by decide, by decide, by decide, by decide⟩

/-- C9 on the run of one car of class A with the state left at 4: stage 1 is
at its closed check with car 1; whatever step it takes it does not return,
and it can take a step; four steps later the car is in the queue of A of
stage 2 and stage 1 is back in `pickNext`.  With an unbuffered queue between
the stages, stage 1 is then still inside its send with the car offered; it
cannot go on until stage 2 has taken the car, and is back in `pickNext`
after that. -/
theorem C9_witness :
    ∃ s, simFrom oneCfg NewStateManager 0 closedRunA = some s ∧
      s.st1 = .checking ⟨1, CatA⟩ ∧ s.sm.current = 4 ∧
      (∀ (o : Obs) (s1 : Sys), simStep oneCfg s (.stage .s1 o) = some s1 →
        s1.cancelled = false ∧ s1.st1 ≠ .exited) ∧
      ((simStep oneCfg s (.stage .s1 obsGo)).isSome = true ∨ Waits .s1 (getView .s1 s)) ∧
      (simFrom oneCfg NewStateManager 0
          (closedRunA ++ List.replicate 4 (.stage .s1 obsGo))).map
          (fun s2 => (s2.st1, s2.p2.A.buf, s2.cancelled))
        = some (.picking, [⟨1, CatA⟩], false) ∧
      (simFrom unbufCfg NewStateManager 0
          (closedRunA ++ List.replicate 4 (.stage .s1 obsGo))).map
          (fun s2 => (s2.st1, s2.p2.A.buf, (simStep unbufCfg s2 (.stage .s1 obsGo)).isNone))
        = some (.handing ⟨1, CatA⟩, [⟨1, CatA⟩], true) ∧
      (simFrom unbufCfg NewStateManager 0
          (closedRunA ++ List.replicate 4 (.stage .s1 obsGo)
            ++ [.stage .s2 obsGo, .stage .s1 obsGo])).map
          (fun s2 => (s2.st1, s2.st2, s2.p2.A.buf))
        = some (.picking, .acquiring ⟨1, CatA⟩, []) := by
  have hval : (simFrom oneCfg NewStateManager 0 closedRunA).map
      (fun s => (s.cancelled, s.st1, s.sm.current))
      = some (false, .checking ⟨1, CatA⟩, 4) := by decide
  cases hs : simFrom oneCfg NewStateManager 0 closedRunA with
  | none =>
    rw [hs] at hval
    simp at hval
  | some s =>
    rw [hs] at hval
    simp only [Option.map_some', Option.some.injEq, Prod.mk.injEq] at hval
    obtain ⟨hnc, hst, hcur⟩ := hval
    have hitem : (getView .s1 s).pc.item = some ⟨1, CatA⟩ := by
      simp only [getView, hst, StagePC.item, StagePC.held]
    have hopen : ¬ (StageId.s1 = .s1 ∧ s.st1 = .checking ⟨1, CatA⟩ ∧ s.sm.current = 9) := by
      rw [hcur]
      intro hh
      exact absurd hh.2.2 (by decide)
    have hthm := C9_handler_forwards oneCfg NewStateManager 0 closedRunA s .s1 ⟨1, CatA⟩
      hs hnc hitem hopen (by decide)
    refine ⟨s, rfl, hst, hcur, ?_, hthm.2.1, by decide, by decide, by decide⟩
    intro o s1 hstep
    have h1 := hthm.1 o s1 hstep
    exact ⟨h1.1, h1.2.1⟩

theorem varOf_assignCase (v : SelVars) (cs : reflectCase) (r : ChanRef)
    (hcs : chanOf cs.cat = some cs.recv) :
    (assignCase v cs).varOf r = if cs.recv = r then (some r, true) else v.varOf r := by
  have hBA : ¬ (CatB = CatA) := by decide
  have hCA : ¬ (CatC = CatA) := by decide
  have hCB : ¬ (CatC = CatB) := by decide
  rcases chanOf_cases _ _ hcs with ⟨h1, h2⟩ | ⟨h1, h2⟩ | ⟨h1, h2⟩
  · cases r <;> simp [assignCase, SelVars.varOf, h1, h2]
  · cases r <;> simp [assignCase, SelVars.varOf, h1, h2, hBA]
  · cases r <;> simp [assignCase, SelVars.varOf, h1, h2, hCA, hCB]

theorem foldl_assignCase_keeps (r : ChanRef) (cases : List reflectCase) :
    ∀ v : SelVars, (∀ cs ∈ cases, chanOf cs.cat = some cs.recv) →
      v.varOf r = (some r, true) → (cases.foldl assignCase v).varOf r = (some r, true) := by
  induction cases with
  | nil => intro v _ hv; exact hv
  | cons cs rest ih =>
    intro v hall hv
    simp only [List.foldl]
    apply ih
    · intro x hx
      exact hall x (List.mem_cons_of_mem _ hx)
    · rw [varOf_assignCase v cs r (hall cs (List.mem_cons_self _ _))]
      split
      · rfl
      · exact hv

/-- The variable of `reflectSelect` for the queue of every admitted class of
the order is set, whatever the place of the class in the order. -/
theorem foldl_pickCases_sets (S : Int) (cat : Category) (r : ChanRef)
    (hal : AllowedOnly S cat = true) (hc : chanOf cat = some r) (order : List Category) :
    ∀ v : SelVars, cat ∈ order →
      ((pickCases S order).foldl assignCase v).varOf r = (some r, true) := by
  induction order with
  | nil => intro v h; simp at h
  | cons x rest ih =>
    intro v hmem
    have hok : ∀ cs ∈ pickCases S rest, chanOf cs.cat = some cs.recv :=
      fun cs h => (pickCases_ok S rest cs h).1
    by_cases hx : x = cat
    · subst hx
      have hpc : pickCases S (x :: rest) = rcRecv r x :: pickCases S rest := by
        simp [pickCases, hal, hc]
      rw [hpc]
      simp only [List.foldl]
      apply foldl_assignCase_keeps r _ _ hok
      rw [varOf_assignCase v (rcRecv r x) r (by simpa [rcRecv] using hc)]
      simp [rcRecv]
    · have hrest : cat ∈ rest := by
        rcases List.mem_cons.mp hmem with h | h
        · exact absurd h.symm hx
        · exact h
      unfold pickCases
      cases hax : AllowedOnly S x with
      | false =>
        simp only [Bool.not_false, if_true]
        exact ih v hrest
      | true =>
        simp only [Bool.not_true, Bool.false_eq_true, if_false]
        cases hcx : chanOf x with
        | none => exact ih v hrest
        | some rx =>
          simp only [List.foldl]
          exact ih _ hrest

theorem reflectSelect_takes (e : Env) (cases : List reflectCase) (inp : stageInput)
    (r : ChanRef) (c : Car) (rest : List Car) (he : e.choice = choiceOf r)
    (hv : (cases.foldl assignCase ⟨none, none, none, false, false, false⟩).varOf r
      = (some r, true))
    (hb : (inp.get r).buf = c :: rest) :
    ∃ idx, reflectSelect e cases inp
      = some ((idx, c, true), inp.set r { inp.get r with buf := rest }) := by
  have hrecv : recvFrom (some r) inp
      = some ((c, true), inp.set r { inp.get r with buf := rest }) := by
    simp [recvFrom, recv_cons _ c rest hb]
  unfold reflectSelect
  simp only
  cases r with
  | inA =>
    simp only [SelVars.varOf, Prod.mk.injEq] at hv
    simp only [choiceOf] at he
    rw [he]
    simp only [hv.1, hv.2, hrecv, if_true]
    exact ⟨0, rfl⟩
  | inB =>
    simp only [SelVars.varOf, Prod.mk.injEq] at hv
    simp only [choiceOf] at he
    rw [he]
    simp only [hv.1, hv.2, hrecv, if_true]
    exact ⟨1, rfl⟩
  | inC =>
    simp only [SelVars.varOf, Prod.mk.injEq] at hv
    simp only [choiceOf] at he
    rw [he]
    simp only [hv.1, hv.2, hrecv, if_true]
    exact ⟨2, rfl⟩

/-- The blocking wait returns the oldest car of any admitted class that has
one, if the `select` takes the receive from its queue: the place of the class
in `PreferredOrder` plays no part. -/
theorem pickNextWait_any_ready (S : Int) (e : Env) (inp : stageInput) (cat : Category)
    (r : ChanRef) (c : Car) (rest : List Car)
    (hal : AllowedOnly S cat = true) (hc : chanOf cat = some r)
    (hb : (inp.get r).buf = c :: rest) (he : e.choice = choiceOf r) :
    pickNextWait e (pickCases S (PreferredOrder S)) inp
      = some (.ret c true, inp.set r { inp.get r with buf := rest }) := by
  have hmem : cat ∈ PreferredOrder S := by
    apply ((preferredOrder_perm S).mem_iff).mpr
    rcases chanOf_cases _ _ hc with ⟨h1, _⟩ | ⟨h1, _⟩ | ⟨h1, _⟩ <;> simp [h1]
  have hv := foldl_pickCases_sets S cat r hal hc (PreferredOrder S)
    ⟨none, none, none, false, false, false⟩ hmem
  obtain ⟨idx, hsel⟩ := reflectSelect_takes e _ inp r c rest he hv hb
  simp [pickNextWait, hsel]

/-- C11: the blocking wait does not respect the preferred order.  With state 6
(priority C) and cars ready in the three queues when `reflectSelect` runs its
`select`, the first admitted ready class of `PreferredOrder` is C, yet the
wait returns car 1 of class A when the `select` takes the receive from the
queue of A (and car 4 of class C when it takes that of C).  The situation
arises in a run: stage 1 goes to its wait on empty queues, a car of A and a
car of C are queued, and the wait hands the car of A to the handler while the
car of C stays queued.  Hence no statement that the wait always returns a car
of the first admitted ready class holds. -/
theorem C11_blocking_wait_ignores_order :
    (PreferredOrder 6).find? (fun x => AllowedOnly 6 x && ready exFull x) = some CatC ∧
    pickNextWait (exEnv 6 .recvA) (pickCases 6 (PreferredOrder 6)) exFull
      = some (.ret ⟨1, CatA⟩ true, { exFull with A := { exA with buf := [⟨2, CatA⟩] } }) ∧
    pickNextWait (exEnv 6 .recvC) (pickCases 6 (PreferredOrder 6)) exFull
      = some (.ret ⟨4, CatC⟩ true, { exFull with C := { exC with buf := [⟨5, CatC⟩] } }) ∧
    (simFrom twoCfg NewStateManager 0 waitRunA).map
        (fun s => (s.st1, s.p1.A.buf, s.p1.C.buf, s.sm.current))
      = some (.waiting (pickCases 6 (PreferredOrder 6)), [⟨1, CatA⟩], [⟨2, CatC⟩], 6) ∧
    (simFrom twoCfg NewStateManager 0 (waitRunA ++ waitRunB)).map
        (fun s => (s.st1, s.p1.A.buf, s.p1.C.buf, s.cancelled))
      = some (.checking ⟨1, CatA⟩, [], [⟨2, CatC⟩], false) ∧
    ¬ (∀ (S : Int) (e : Env) (inp inp1 : stageInput) (c : Car), S ≠ 0 → S ≠ 9 →
        (∃ x y, x ≠ y ∧ AllowedOnly S x = true ∧ ready inp x = true ∧
          AllowedOnly S y = true ∧ ready inp y = true) →
        pickNextWait e (pickCases S (PreferredOrder S)) inp = some (.ret c true, inp1) →
        ∃ cat r, (PreferredOrder S).find? (fun x => AllowedOnly S x && ready inp x) = some cat ∧
          chanOf cat = some r ∧ Popped inp r c inp1) := by
  have hfind : (PreferredOrder 6).find? (fun x => AllowedOnly 6 x && ready exFull x)
      = some CatC := by decide
  have hA : pickNextWait (exEnv 6 .recvA) (pickCases 6 (PreferredOrder 6)) exFull
      = some (.ret ⟨1, CatA⟩ true, { exFull with A := { exA with buf := [⟨2, CatA⟩] } }) :=
    pickNextWait_any_ready 6 (exEnv 6 .recvA) exFull CatA .inA ⟨1, CatA⟩ [⟨2, CatA⟩]
      (by decide) (by decide) rfl rfl
  refine ⟨hfind, hA, by decide, by decide, by decide, ?_⟩
  intro hall
  obtain ⟨cat, r, h1, h2, h3⟩ := hall 6 (exEnv 6 .recvA) exFull _ ⟨1, CatA⟩
    (by decide) (by decide)
    ⟨CatA, CatC, by decide, by decide, by decide, by decide, by decide⟩ hA
  rw [hfind] at h1
  have hcat : cat = CatC := (Option.some.inj h1).symm
  subst hcat
  have hr : r = .inC := by
    have hC : chanOf CatC = some ChanRef.inC := by decide
    rw [hC] at h2
    exact (Option.some.inj h2).symm
  subst hr
  have hb := h3.1
  simp only [stageInput.get, exFull, exC] at hb
  have hhead := (List.cons.inj hb).1
  exact absurd hhead (by decide)

end Taller
